import Mathlib

/-!
# corekv `utils`: bloom filter, arena and skip list

A shallow embedding of `utils/bloom.go`, `utils/arena.go` and
`utils/skiplist.go`, followed by the properties proved about it.

Conventions of the embedding:

* a Go `byte` is a natural number below 256 and a `[]byte` is a `List Nat`;
* a `uint32` is a natural number, every arithmetic result is reduced modulo
  `2 ^ 32` explicitly; a Go `int` is an `Int` reduced by `wrapInt`;
* a Go run-time panic (division by zero, index out of range, nil dereference,
  failed assertion) is the result `none`;
* a loop whose termination is not structural takes a step budget and gives
  `none` when the budget is exhausted.
-/

namespace Corekv

/-! ## Machine arithmetic -/

/-- Reduction of a natural number to a `uint32`. -/
def u32 (x : Nat) : Nat := x % 2 ^ 32

/-- Two's-complement reduction of an integer to a 64-bit Go `int`. -/
def wrapInt (x : Int) : Int := (x + 2 ^ 63) % 2 ^ 64 - 2 ^ 63

/-- Conversion `uint32(x)` of a Go `int`. -/
def u32OfInt (x : Int) : Nat := (x % 2 ^ 32).toNat

/-- Least `s`, searched upwards from the given start, with `N / 2 ^ s < 2 ^ 53`:
the number of low bits a 53-bit significand cannot hold. -/
def sigShift (N : Nat) : Nat → Nat → Nat
  | 0, s => s
  | fuel + 1, s => if N / 2 ^ s < 2 ^ 53 then s else sigShift N fuel (s + 1)

/-- Quotient `N / 2 ^ s` rounded to nearest, ties to even. -/
def roundShift (N s : Nat) : Nat :=
  let q := N / 2 ^ s
  let r := N % 2 ^ s
  if 2 * r < 2 ^ s then q
  else if 2 ^ s < 2 * r then q + 1
  else if q % 2 = 0 then q else q + 1

/-- Value of the conversion `float64(x)` for `x < 2 ^ 64`; the result is an
integer, so the float is represented by that integer. -/
def float64OfNat (x : Nat) : Nat :=
  let s := sigShift x 64 0
  roundShift x s * 2 ^ s

/-! ## bloom.go -/

/-- The `float64` returned by `math.Log(2)` is `ln2Mant * 2 ^ (-53)`
(bit pattern `0x3FE62E42FEFA39EF`). -/
def ln2Mant : Nat := 6243314768165359

/-- Value of `uint32(float64(bitsPerKey) * math.Log(2))` for `bitsPerKey ≥ 0`:
the exact product is rounded to a `float64`, truncated towards zero and reduced
to 32 bits. Go leaves the conversion of a value of `2 ^ 32` or more to the
implementation; the reduction taken here is the one of amd64, the low 32 bits
of the truncated value. -/
def hashRounds (bitsPerKey : Int) : Nat :=
  let x := float64OfNat bitsPerKey.toNat
  let N := x * ln2Mant
  let s := sigShift N 128 0
  let M := roundShift N s
  u32 (M * 2 ^ s / 2 ^ 53)

/-- The rotation `h>>17 | h<<15` of a `uint32`. -/
def rotDelta (h : Nat) : Nat := (h >>> 17) ||| u32 (h <<< 15)

/-- The probe loop of `Filter.MayContain`: `n` rounds left, current hash `h`. -/
def probe (f : List Nat) (needBits delta : Nat) : Nat → Nat → Option Bool
  | 0, _ => some true
  | n + 1, h =>
    if needBits = 0 then none
    else
      let bitPos := h % needBits
      match f[bitPos / 8]? with
      | none => none
      | some b =>
        if b &&& (1 <<< (bitPos % 8)) = 0 then some false
        else probe f needBits delta n (u32 (h + delta))

/-- Go `Filter.MayContain`. -/
def MayContain (f : List Nat) (h : Nat) : Option Bool :=
  if f.length < 2 then some false
  else
    match f[f.length - 1]? with
    | none => none
    | some hashCount =>
      if hashCount > 30 then some true
      else
        let delta := rotDelta h
        let needBits := u32 (8 * (f.length - 1))
        probe f needBits delta hashCount h

/-- The inner loop of `appendFilter`: `n` rounds left for the key hash
`hashCode`; `needBits` is `uint32(needBits)`. -/
def setBits (needBits delta : Nat) : Nat → Nat → List Nat → Option (List Nat)
  | 0, _, filter => some filter
  | n + 1, hashCode, filter =>
    if needBits = 0 then none
    else
      let bitPos := hashCode % needBits
      match filter[bitPos / 8]? with
      | none => none
      | some b =>
        setBits needBits delta n (u32 (hashCode + delta))
          (filter.set (bitPos / 8) ((b ||| (1 <<< (bitPos % 8))) % 256))

/-- The loop `for _, hashCode := range keys` of `appendFilter`. -/
def addKeys (needBits hashCount : Nat) : List Nat → List Nat → Option (List Nat)
  | [], filter => some filter
  | hashCode :: keys, filter =>
    match setBits needBits (rotDelta hashCode) hashCount hashCode filter with
    | none => none
    | some filter1 => addKeys needBits hashCount keys filter1

/-- The clamp of the hash-round count to `[1, 30]`. -/
def clampRounds (hashCount : Nat) : Nat :=
  if hashCount < 1 then 1 else if hashCount > 30 then 30 else hashCount

/-- The constant `maxAlloc` of the Go runtime on amd64 (`heapAddrBits = 48`):
`make` panics (`makeslice: len out of range`) for a byte slice longer than
this. -/
def maxAlloc : Nat := 2 ^ 48

/-- Go `appendFilter`. `make([]byte, needBytes+1)` panics on a negative length
(reached only by overflow of the `int` arithmetic) and on a length above
`maxAlloc`. -/
def appendFilter (keys : List Nat) (bitsPerKey : Int) : Option (List Nat) :=
  let bitsPerKey := if bitsPerKey < 0 then 0 else bitsPerKey
  let hashCount := clampRounds (hashRounds bitsPerKey)
  let needBits := wrapInt (bitsPerKey * keys.length)
  let needBits := if needBits < 64 then 64 else needBits
  let needBytes := Int.tdiv (wrapInt (needBits + 7)) 8
  let needBits := wrapInt (needBytes * 8)
  if needBytes < 0 ∨ (maxAlloc : Int) < needBytes + 1 then none
  else
    let filter := List.replicate (needBytes.toNat + 1) 0
    match addKeys (u32OfInt needBits) hashCount keys filter with
    | none => none
    | some filter1 => some (filter1.set needBytes.toNat (hashCount % 256))

/-- Go `NewFilter`. -/
def NewFilter (keys : List Nat) (bitsPerKey : Int) : Option (List Nat) :=
  appendFilter keys bitsPerKey

/-- The multiplier `m` of `Hash`. -/
def hashM : Nat := 0xc6a4a793

/-- The seed of `Hash`. -/
def hashSeed : Nat := 0xbc9f1d34

/-- The word loop `for ; len(b) >= 4; b = b[4:]` of `Hash`; returns the hash and
the remaining tail of fewer than four bytes. -/
def hashWords : List Nat → Nat → Nat × List Nat
  | b0 :: b1 :: b2 :: b3 :: rest, h =>
    let h1 := u32 (h + (b0 ||| (b1 <<< 8) ||| (b2 <<< 16) ||| (b3 <<< 24)))
    let h2 := u32 (h1 * hashM)
    hashWords rest (h2 ^^^ (h2 >>> 16))
  | b, h => (h, b)

/-- The last step of the `switch` of `Hash`: `h += b[0]; h *= m; h ^= h >> 24`. -/
def hashFinish (h b0 : Nat) : Nat :=
  let h1 := u32 (u32 (h + b0) * hashM)
  h1 ^^^ (h1 >>> 24)

/-- The `switch len(b)` of `Hash` with its fallthroughs. -/
def hashTail (b : List Nat) (h : Nat) : Nat :=
  match b with
  | [b0, b1, b2] => hashFinish (u32 (u32 (h + (b2 <<< 16)) + (b1 <<< 8))) b0
  | [b0, b1] => hashFinish (u32 (h + (b1 <<< 8))) b0
  | [b0] => hashFinish h b0
  | _ => h

/-- Go `Hash`. -/
def Hash (b : List Nat) : Nat :=
  let h := hashSeed ^^^ u32 (u32 b.length * hashM)
  let r := hashWords b h
  hashTail r.2 r.1

/-- Go `Filter.MayContainKey`. -/
def MayContainKey (f : List Nat) (k : List Nat) : Option Bool :=
  MayContain f (Hash k)

/-- Bit `pos` of the bit array stored in the bytes of `f` is set. -/
def bitAt (f : List Nat) (pos : Nat) : Prop :=
  ∃ b, f[pos / 8]? = some b ∧ b.testBit (pos % 8) = true

/-! ## arena.go -/

/-- Go `Arena`: the `uint32` counter `n` and the buffer `buf`. -/
structure Arena where
  n : Nat
  buf : List Nat
deriving DecidableEq, Repr

/-- The constant `MaxNodeSize = unsafe.Sizeof(Element{})`: a slice header, a
pointer and a `float64` on a 64-bit platform. -/
def MaxNodeSize : Nat := 40

/-- Go builtin `make([]byte, n)`, taken as total: the arena is modelled for
buffers of at most `maxAlloc` bytes, the lengths for which `make` returns. -/
def makeBytes (n : Nat) : List Nat := List.replicate n 0

/-- Go builtin `copy(dst, src)` on byte slices: the new contents of `dst` and
the number of bytes copied. -/
def copyBytes (dst src : List Nat) : List Nat × Nat :=
  let k := min dst.length src.length
  (src.take k ++ dst.drop k, k)

/-- Go `newArena`. -/
def newArena (n : Nat) : Arena := { n := 1, buf := makeBytes n }

/-- Go `Arena.allocate`: the arena after the call and the returned offset. The
assertion on the result of `copy` is the `Option`. -/
def allocate (s : Arena) (sz : Nat) : Option (Arena × Nat) :=
  let offset := u32 (s.n + sz)
  if s.buf.length < offset + MaxNodeSize then
    let addSize := u32 s.buf.length
    let addSize := if addSize > 2 ^ 30 then 2 ^ 30 else addSize
    let addSize := if addSize < sz then sz else addSize
    let newBuf := copyBytes (makeBytes (s.buf.length + addSize)) s.buf
    if newBuf.2 = s.buf.length then
      some ({ n := offset, buf := newBuf.1 }, u32 (offset + 2 ^ 32 - sz))
    else none
  else some ({ n := offset, buf := s.buf }, u32 (offset + 2 ^ 32 - sz))

/-- Go `Arena.putKey`: the arena after the call and the returned offset. The
slice expression `s.buf[offset : offset+size]` panics unless
`offset ≤ offset+size ≤ len(s.buf)`, the sum being a `uint32`. -/
def putKey (s : Arena) (key : List Nat) : Option (Arena × Nat) :=
  let size := u32 key.length
  match allocate s size with
  | none => none
  | some (s1, offset) =>
    let hi := u32 (offset + size)
    if offset ≤ hi ∧ hi ≤ s1.buf.length then
      let window := (s1.buf.drop offset).take (hi - offset)
      let copied := copyBytes window key
      if copied.2 = key.length then
        some ({ n := s1.n, buf := s1.buf.take offset ++ copied.1 ++ s1.buf.drop hi }, offset)
      else none
    else none

/-- Go `Arena.getKey`, `size` being a `uint16`. -/
def getKey (s : Arena) (offset size : Nat) : Option (List Nat) :=
  let hi := u32 (offset + size)
  if offset ≤ hi ∧ hi ≤ s.buf.length then some ((s.buf.drop offset).take (hi - offset))
  else none

/-- Go `Arena.Size`. -/
def Arena.Size (s : Arena) : Nat := s.n

/-- A call made on an arena: `allocate(sz)` or `putKey(key)`. -/
inductive ArenaOp where
  | alloc (sz : Nat)
  | put (key : List Nat)
deriving DecidableEq, Repr

/-- Number of bytes a call reserves. -/
def ArenaOp.size : ArenaOp → Nat
  | .alloc sz => sz
  | .put key => key.length

/-- One call: the arena after it and the offset it returns. -/
def ArenaOp.run (s : Arena) : ArenaOp → Option (Arena × Nat)
  | .alloc sz => allocate s sz
  | .put key => putKey s key

/-- A sequence of calls made one after the other: the final arena and the
offsets returned, in call order. -/
def runOps : Arena → List ArenaOp → Option (Arena × List Nat)
  | s, [] => some (s, [])
  | s, op :: ops =>
    match op.run s with
    | none => none
    | some (s1, off) =>
      match runOps s1 ops with
      | none => none
      | some (s2, offs) => some (s2, off :: offs)

/-- Total number of bytes reserved by a sequence of calls. -/
def totalSize (ops : List ArenaOp) : Nat := (ops.map ArenaOp.size).sum

/-! ## skiplist.go

Elements live in a heap, the list `nodes`; a `*Element` is an index into the
heap (`none` is `nil`). -/

/-- Modelled from the spec: the type `codec.Entry` of package `utils/codec`,
"key, value, and associated metadata"; the skip list reads only `Key`. -/
structure Entry where
  Key : List Nat
  Value : List Nat
deriving DecidableEq, Repr

/-- Go `Element`; `score`, a `float64` with an integer value, is that integer. -/
structure Element where
  levels : List (Option Nat)
  entry : Option Entry
  score : Nat
deriving DecidableEq, Repr

/-- Go `SkipList`, with the heap of its elements; the lock and the random
source are left out, the coin flips being an argument of `Add`. -/
structure SkipList where
  nodes : List Element
  header : Nat
  maxLevel : Nat
  length : Int
  size : Int
deriving DecidableEq, Repr

/-- The constant `defaultMaxLevel`. -/
def defaultMaxLevel : Nat := 48

/-- Go `NewSkipList`: the header is the only element of the heap. -/
def NewSkipList : SkipList :=
  { nodes := [{ levels := List.replicate defaultMaxLevel none, entry := none, score := 0 }]
    header := 0
    maxLevel := defaultMaxLevel - 1
    length := 0
    size := 0 }

/-- Go `newElement`. -/
def newElement (score : Nat) (entry : Entry) (level : Nat) : Element :=
  { levels := List.replicate (level + 1) none, entry := some entry, score := score }

/-- Go `bytes.Compare`: lexicographic comparison of byte strings. -/
def bytesCompare : List Nat → List Nat → Int
  | [], [] => 0
  | [], _ :: _ => -1
  | _ :: _, [] => 1
  | a :: as, b :: bs => if a < b then -1 else if b < a then 1 else bytesCompare as bs

/-- The loop of `calcScore` over the first `l` bytes: byte `i` is or-ed in at
bit `64 - 8 - i*8`. -/
def scoreBits : List Nat → Nat → Nat → Nat
  | [], _, hash => hash
  | b :: rest, i, hash =>
    scoreBits rest (i + 1) (hash ||| ((b <<< (64 - 8 - i * 8)) % 2 ^ 64))

/-- Go `SkipList.calcScore`. -/
def calcScore (key : List Nat) : Nat :=
  let l := if key.length > 8 then 8 else key.length
  float64OfNat (scoreBits (key.take l) 0 0)

/-- Go `SkipList.compare`; `next.entry.Key` panics on a nil entry. -/
def SkipList.compare (score : Nat) (key : List Nat) (next : Element) : Option Int :=
  if score = next.score then
    match next.entry with
    | none => none
    | some e => some (bytesCompare key e.Key)
  else if score < next.score then some (-1)
  else some 1

/-- The loop of `randLevel` from `level` on, with `n` iterations allowed;
`coins j` is the value of the `j`-th call `RandN(1000)`. -/
def randLevelFrom (maxLevel : Nat) (coins : Nat → Nat) : Nat → Nat → Nat
  | 0, _ => maxLevel
  | n + 1, level =>
    if level < maxLevel then
      if coins (level - 1) % 2 = 0 then level
      else randLevelFrom maxLevel coins n (level + 1)
    else maxLevel

/-- Go `SkipList.randLevel`. -/
def SkipList.randLevel (list : SkipList) (coins : Nat → Nat) : Nat :=
  randLevelFrom list.maxLevel coins list.maxLevel 1

/-- The read `p.levels[i]` through the pointer `p`. -/
def levelAt (nodes : List Element) (p i : Nat) : Option (Option Nat) :=
  match nodes[p]? with
  | none => none
  | some e => e.levels[i]?

/-- How the inner loop `for next := prev.levels[i]; next != nil; ...` of `Add`
and `Search` is left: at a node that compares equal, or with a final `prev`. -/
inductive Walk where
  | found (next : Nat)
  | stop (prev : Nat)
deriving DecidableEq, Repr

/-- The inner loop of `Add` and of `Search` at level `i`, from `prev`, with a
budget of iterations. -/
def walkLevel (nodes : List Element) (score : Nat) (key : List Nat) (i : Nat) :
    Nat → Nat → Option Walk
  | 0, _ => none
  | fuel + 1, prev =>
    match levelAt nodes prev i with
    | none => none
    | some none => some (Walk.stop prev)
    | some (some next) =>
      match nodes[next]? with
      | none => none
      | some ne =>
        match SkipList.compare score key ne with
        | none => none
        | some comp =>
          if comp ≤ 0 then
            if comp = 0 then some (Walk.found next)
            else walkLevel nodes score key i fuel next
          else some (Walk.stop prev)

/-- The outer loop of `Search` for the levels `cnt - 1, ..., 0`. -/
def searchLevels (nodes : List Element) (score : Nat) (key : List Nat) (fuel : Nat) :
    Nat → Nat → Option (Option Entry)
  | 0, _ => some none
  | i + 1, prev =>
    match walkLevel nodes score key i fuel prev with
    | none => none
    | some (Walk.found next) =>
      match nodes[next]? with
      | none => none
      | some ne => some ne.entry
    | some (Walk.stop prev1) => searchLevels nodes score key fuel i prev1

/-- Go `SkipList.Search`; the result `some none` is the Go result `nil`. Each
inner loop has a budget of `len(nodes)` iterations. -/
def SkipList.Search (list : SkipList) (key : List Nat) : Option (Option Entry) :=
  searchLevels list.nodes (calcScore key) key list.nodes.length (list.maxLevel + 1) list.header

/-- How the search loop of `Add` ends: at an element with the same key, or with
the slice `prevs` filled. -/
inductive Locate where
  | hit (next : Nat)
  | miss (prevs : List (Option Nat))
deriving DecidableEq, Repr

/-- The outer loop of `Add` for the levels `cnt - 1, ..., 0`. -/
def findPrevs (nodes : List Element) (score : Nat) (key : List Nat) (fuel : Nat) :
    Nat → Nat → List (Option Nat) → Option Locate
  | 0, _, prevs => some (Locate.miss prevs)
  | i + 1, prev, prevs =>
    match walkLevel nodes score key i fuel prev with
    | none => none
    | some (Walk.found next) => some (Locate.hit next)
    | some (Walk.stop prev1) => findPrevs nodes score key fuel i prev1 (prevs.set i (some prev1))

/-- The store `p.levels[i] = v` through the pointer `p`. -/
def setLevel (nodes : List Element) (p i : Nat) (v : Option Nat) : Option (List Element) :=
  match nodes[p]? with
  | none => none
  | some e =>
    if i < e.levels.length then some (nodes.set p { e with levels := e.levels.set i v })
    else none

/-- The loop `for i := randLevel; i >= 0; i--` of `Add` for the levels
`cnt - 1, ..., 0`; `entry` is the address of the new element. -/
def splice (prevs : List (Option Nat)) (entry : Nat) : Nat → List Element → Option (List Element)
  | 0, nodes => some nodes
  | i + 1, nodes =>
    match prevs[i]? with
    | none => none
    | some none => none
    | some (some p) =>
      match levelAt nodes p i with
      | none => none
      | some next =>
        match setLevel nodes p i (some entry) with
        | none => none
        | some nodes1 =>
          match setLevel nodes1 entry i next with
          | none => none
          | some nodes2 => splice prevs entry i nodes2

/-- Go `SkipList.Add`; the Go result is always the error `nil`, the result here
is the list after the call. Each inner loop has a budget of `len(nodes)`
iterations. -/
def SkipList.Add (list : SkipList) (data : Entry) (coins : Nat → Nat) : Option SkipList :=
  let score := calcScore data.Key
  let prevs := List.replicate (list.maxLevel + 1) none
  match findPrevs list.nodes score data.Key list.nodes.length (list.maxLevel + 1)
      list.header prevs with
  | none => none
  | some (Locate.hit next) =>
    match list.nodes[next]? with
    | none => none
    | some ne => some { list with nodes := list.nodes.set next { ne with entry := some data } }
  | some (Locate.miss prevs1) =>
    let randLevel := list.randLevel coins
    let entry := newElement score data randLevel
    match splice prevs1 list.nodes.length (randLevel + 1) (list.nodes ++ [entry]) with
    | none => none
    | some nodes1 => some { list with nodes := nodes1 }

/-- Go `SkipList.Size`. -/
def SkipList.Size (list : SkipList) : Int := list.size

/-- The entries met by following the level-0 pointers from `cur`. -/
def level0Walk (nodes : List Element) : Nat → Nat → Option (List Entry)
  | 0, _ => none
  | fuel + 1, cur =>
    match levelAt nodes cur 0 with
    | none => none
    | some none => some []
    | some (some next) =>
      match nodes[next]? with
      | none => none
      | some ne =>
        match ne.entry with
        | none => none
        | some e =>
          match level0Walk nodes fuel next with
          | none => none
          | some rest => some (e :: rest)

/-- The in-order traversal of the list at level 0, from the header. -/
def SkipList.level0 (list : SkipList) : Option (List Entry) :=
  level0Walk list.nodes list.nodes.length list.header

/-- A sequence of `Add` calls, each with its own coin flips. -/
def SkipList.addAll : SkipList → List (Entry × (Nat → Nat)) → Option SkipList
  | list, [] => some list
  | list, (e, coins) :: rest =>
    match list.Add e coins with
    | none => none
    | some list1 => list1.addAll rest

/-- Lists reachable from `NewSkipList()` by `Add` calls, with the entries
added, latest first. -/
inductive Built : SkipList → List Entry → Prop where
  | new : Built NewSkipList []
  | add (l l1 : SkipList) (es : List Entry) (e : Entry) (coins : Nat → Nat) :
      Built l es → l.Add e coins = some l1 → Built l1 (e :: es)

/-- The comparison `compare` makes between a key and the key of an element:
by score first, by the bytes second. -/
def cmpKey (a b : List Nat) : Int :=
  if calcScore a = calcScore b then bytesCompare a b
  else if calcScore a < calcScore b then -1
  else 1

/-! ## Specification vocabulary for the skip list -/

/-- Key of the element at address `p`; empty for the header and outside the heap. -/
def keyOf (nodes : List Element) (p : Nat) : List Nat :=
  match nodes[p]? with
  | none => []
  | some e =>
    match e.entry with
    | none => []
    | some d => d.Key

/-- Number of forward pointers of the element at address `p`. -/
def heightOf (nodes : List Element) (p : Nat) : Nat :=
  match nodes[p]? with
  | none => 0
  | some e => e.levels.length

/-- Key `a` is strictly smaller than key `b` in the `(score, key)` order. -/
def KLt (a b : List Nat) : Prop := cmpKey a b = -1

instance (a b : List Nat) : Decidable (KLt a b) :=
  inferInstanceAs (Decidable (cmpKey a b = -1))

/-- Element `r` comes strictly after `p` in list order: `p` is the header, or
the key of `r` is smaller than the key of `p`. -/
def Below (nodes : List Element) (r p : Nat) : Prop :=
  p = 0 ∨ KLt (keyOf nodes r) (keyOf nodes p)

instance (nodes : List Element) (r p : Nat) : Decidable (Below nodes r p) :=
  inferInstanceAs (Decidable (p = 0 ∨ KLt (keyOf nodes r) (keyOf nodes p)))

/-- Number of elements that come strictly after `p`. -/
def rank (nodes : List Element) (p : Nat) : Nat :=
  ((Finset.range nodes.length).filter (fun r => 1 ≤ r ∧ Below nodes r p)).card

/-- The structure `Add` maintains on the heap: address 0 is the header with 48
levels; every other element carries an entry, its score and between 1 and 48
levels; keys are pairwise different; a forward pointer at level `i` leads to an
element with more than `i` levels and a smaller key, and no element with more
than `i` levels lies strictly between the two. -/
structure Inv (nodes : List Element) : Prop where
  head : ∃ he, nodes[0]? = some he ∧ he.levels.length = 48 ∧ he.entry = none
  node : ∀ p, 1 ≤ p → p < nodes.length →
    ∃ e d, nodes[p]? = some e ∧ e.entry = some d ∧ e.score = calcScore d.Key ∧
      1 ≤ e.levels.length ∧ e.levels.length ≤ 48
  uniq : ∀ p q, 1 ≤ p → p < nodes.length → 1 ≤ q → q < nodes.length →
    keyOf nodes p = keyOf nodes q → p = q
  ptr : ∀ p i q, levelAt nodes p i = some (some q) →
    1 ≤ q ∧ q < nodes.length ∧ i < heightOf nodes q ∧
      (p ≠ 0 → KLt (keyOf nodes q) (keyOf nodes p))
  cover : ∀ p i r, p < nodes.length → i < heightOf nodes p → 1 ≤ r → r < nodes.length →
    i < heightOf nodes r → Below nodes r p →
    ∃ q, levelAt nodes p i = some (some q) ∧ (r = q ∨ KLt (keyOf nodes r) (keyOf nodes q))

/-- The invariant of a `SkipList` value. -/
structure ListInv (l : SkipList) : Prop where
  hdr : l.header = 0
  maxl : l.maxLevel = 47
  inv : Inv l.nodes

/-- The inner loop at level `i` may be left with `prev = p` when searching `k`:
`p` has more than `i` levels, `k` comes strictly after `p`, and the element
after `p` at level `i`, if any, has a key smaller than `k`. -/
def StopAt (nodes : List Element) (k : List Nat) (i p : Nat) : Prop :=
  p < nodes.length ∧ i < heightOf nodes p ∧ (p = 0 ∨ KLt k (keyOf nodes p)) ∧
    (levelAt nodes p i = some none ∨
      ∃ q, levelAt nodes p i = some (some q) ∧ KLt (keyOf nodes q) k)

/-- Heap `h1` has the elements of heap `h` at the same addresses, up to their
forward pointers. -/
def Shape (h h1 : List Element) : Prop :=
  h1.length = h.length ∧
    ∀ (a : Nat) (e : Element), h[a]? = some e →
      ∃ e1 : Element, h1[a]? = some e1 ∧ e1.entry = e.entry ∧ e1.score = e.score ∧
        e1.levels.length = e.levels.length

/-- Heap `h1` is heap `nodes` with a new element for `data`, of `r + 1` levels,
at address `len(nodes)`, linked after the elements `ps[j]` at the levels
`j ≤ r`. -/
structure Inserted (nodes : List Element) (data : Entry) (r : Nat) (ps : List (Option Nat))
    (h1 : List Element) : Prop where
  len : h1.length = nodes.length + 1
  old : ∀ (a : Nat) (e : Element), nodes[a]? = some e →
    ∃ e1 : Element, h1[a]? = some e1 ∧ e1.entry = e.entry ∧ e1.score = e.score ∧
      e1.levels.length = e.levels.length
  new : ∃ ex : Element, h1[nodes.length]? = some ex ∧ ex.entry = some data ∧
    ex.score = calcScore data.Key ∧ ex.levels.length = r + 1
  low : ∀ (j p : Nat), j ≤ r → ps[j]? = some (some p) →
    levelAt h1 nodes.length j = levelAt nodes p j ∧
    levelAt h1 p j = some (some nodes.length) ∧
    ∀ a, a < nodes.length → a ≠ p → levelAt h1 a j = levelAt nodes a j
  high : ∀ (j a : Nat), r < j → a < nodes.length → levelAt h1 a j = levelAt nodes a j

/-- Entry of the element at address `p`, if there is one. -/
def entryOf (nodes : List Element) (p : Nat) : Option Entry :=
  match nodes[p]? with
  | none => none
  | some e => e.entry

/-- Big-endian value of the bytes of `key` placed from byte position `i` of a
64-bit word on; bytes past position 7 do not count. -/
def beValue : List Nat → Nat → Nat
  | [], _ => 0
  | b :: rest, i => if i < 8 then b * 2 ^ (56 - 8 * i) + beValue rest (i + 1) else 0

/-- The addresses of the elements met by following the level-`i` pointers from
`cur`, with a budget of steps. -/
def levelWalk (nodes : List Element) (i : Nat) : Nat → Nat → Option (List Nat)
  | 0, _ => none
  | fuel + 1, cur =>
    match levelAt nodes cur i with
    | none => none
    | some none => some []
    | some (some next) =>
      match levelWalk nodes i fuel next with
      | none => none
      | some rest => some (next :: rest)

/-- The chain of forward pointers of the list at level `i`, from the header. -/
def SkipList.chain (list : SkipList) (i : Nat) : Option (List Nat) :=
  levelWalk list.nodes i list.nodes.length list.header

/-! ## Properties of the bloom filter -/

theorem and_shift_eq_zero (b k : Nat) : b &&& (1 <<< k) = 0 ↔ b.testBit k = false := by
  rw [Nat.one_shiftLeft]
  constructor
  · intro h
    have := congrArg (fun x => Nat.testBit x k) h
    simpa [Nat.testBit_two_pow] using this
  · intro h
    apply Nat.eq_of_testBit_eq
    intro i
    simp only [Nat.testBit_and, Nat.testBit_two_pow, Nat.zero_testBit]
    by_cases hk : k = i
    · subst hk; simp [h]
    · simp [hk]

theorem bitAt_set_self (f : List Nat) (pos b : Nat) (hb : f[pos / 8]? = some b) :
    bitAt (f.set (pos / 8) ((b ||| (1 <<< (pos % 8))) % 256)) pos := by
  have hlt : pos / 8 < f.length := by
    rcases Nat.lt_or_ge (pos / 8) f.length with h | h
    · exact h
    · rw [List.getElem?_eq_none h] at hb; cases hb
  refine ⟨(b ||| (1 <<< (pos % 8))) % 256, ?_, ?_⟩
  · simp [List.getElem?_set, hlt]
  · have h8 : pos % 8 < 8 := Nat.mod_lt _ (by decide)
    rw [show (256 : Nat) = 2 ^ 8 by norm_num, Nat.testBit_mod_two_pow, Nat.testBit_or,
      Nat.one_shiftLeft, Nat.testBit_two_pow]
    simp [h8]

theorem bitAt_set_mono (f : List Nat) (i b k pos : Nat) (hb : f[i]? = some b)
    (h : bitAt f pos) : bitAt (f.set i ((b ||| (1 <<< k)) % 256)) pos := by
  obtain ⟨c, hc, hbit⟩ := h
  have hlt : i < f.length := by
    rcases Nat.lt_or_ge i f.length with h | h
    · exact h
    · rw [List.getElem?_eq_none h] at hb; cases hb
  by_cases hi : i = pos / 8
  · subst hi
    rw [hb] at hc
    cases hc
    refine ⟨(b ||| (1 <<< k)) % 256, by simp [List.getElem?_set, hlt], ?_⟩
    have h8 : pos % 8 < 8 := Nat.mod_lt _ (by decide)
    rw [show (256 : Nat) = 2 ^ 8 by norm_num, Nat.testBit_mod_two_pow, Nat.testBit_or]
    simp [h8, hbit]
  · exact ⟨c, by simp [List.getElem?_set, hi, hc], hbit⟩


theorem setBits_spec (m d : Nat) (hm : 0 < m) :
    ∀ (n h : Nat) (f : List Nat), m ≤ 8 * f.length →
      ∃ f1, setBits m d n h f = some f1 ∧ f1.length = f.length ∧
        (∀ pos, bitAt f pos → bitAt f1 pos) ∧
        (∀ g, (∀ pos, pos < m → bitAt f1 pos → bitAt g pos) → probe g m d n h = some true) := by
  intro n
  induction n with
  | zero =>
    intro h f _
    exact ⟨f, rfl, rfl, fun _ hp => hp, fun _ _ => rfl⟩
  | succ n ih =>
    intro h f hlen
    have hm0 : m ≠ 0 := Nat.pos_iff_ne_zero.mp hm
    have hpos : h % m < m := Nat.mod_lt _ hm
    have hidx : h % m / 8 < f.length := by omega
    obtain ⟨b, hb⟩ : ∃ b, f[h % m / 8]? = some b := ⟨f[h % m / 8], List.getElem?_eq_getElem hidx⟩
    have hlen1 : m ≤ 8 * (f.set (h % m / 8) ((b ||| (1 <<< (h % m % 8))) % 256)).length := by
      simpa using hlen
    obtain ⟨f1, hf1, hl1, hmono, hprobe⟩ := ih (u32 (h + d)) _ hlen1
    refine ⟨f1, ?_, ?_, ?_, ?_⟩
    · simp only [setBits, hm0, if_false, hb]
      exact hf1
    · simpa using hl1
    · intro pos hp
      exact hmono pos (bitAt_set_mono f _ b _ pos hb hp)
    · intro g hg
      have hset : bitAt g (h % m) := hg _ hpos (hmono _ (bitAt_set_self f (h % m) b hb))
      obtain ⟨c, hc, hbit⟩ := hset
      have hne : ¬ (c &&& (1 <<< (h % m % 8)) = 0) := by
        rw [and_shift_eq_zero, hbit]; simp
      simp only [probe, hm0, if_false, hc, hne]
      exact hprobe g hg

theorem addKeys_spec (m hc : Nat) (hm : 0 < m) :
    ∀ (keys f : List Nat), m ≤ 8 * f.length →
      ∃ f1, addKeys m hc keys f = some f1 ∧ f1.length = f.length ∧
        (∀ pos, bitAt f pos → bitAt f1 pos) ∧
        (∀ h, h ∈ keys → ∀ g, (∀ pos, pos < m → bitAt f1 pos → bitAt g pos) →
          probe g m (rotDelta h) hc h = some true) := by
  intro keys
  induction keys with
  | nil =>
    intro f _
    exact ⟨f, rfl, rfl, fun _ hp => hp, fun h hh => by cases hh⟩
  | cons k keys ih =>
    intro f hlen
    obtain ⟨f1, hf1, hl1, hmono1, hprobe1⟩ := setBits_spec m (rotDelta k) hm hc k f hlen
    obtain ⟨f2, hf2, hl2, hmono2, hprobe2⟩ := ih f1 (by rw [hl1]; exact hlen)
    refine ⟨f2, ?_, by rw [hl2, hl1], fun pos hp => hmono2 pos (hmono1 pos hp), ?_⟩
    · simp only [addKeys, hf1]
      exact hf2
    · intro h hh g hg
      rcases List.mem_cons.mp hh with rfl | hh
      · exact hprobe1 g (fun pos hlt hp => hg pos hlt (hmono2 pos hp))
      · exact hprobe2 h hh g hg


theorem wrapInt_of_range (x : Int) (h0 : 0 ≤ x) (h1 : x < 2 ^ 63) : wrapInt x = x := by
  unfold wrapInt; omega

theorem needBytes_range (P : Int) (h0 : 0 ≤ P) (h1 : P ≤ 2 ^ 32 - 8) :
    ∃ nb : Nat, Int.tdiv (wrapInt ((if wrapInt P < 64 then 64 else wrapInt P) + 7)) 8 = (nb : Int) ∧
      8 ≤ nb ∧ nb < 2 ^ 29 := by
  rw [wrapInt_of_range P h0 (by omega)]
  have hr : (0 : Int) ≤ (if P < 64 then 64 else P) + 7 ∧ (if P < 64 then 64 else P) + 7 < 2 ^ 32 := by
    split <;> omega
  rw [wrapInt_of_range _ hr.1 (by omega), Int.tdiv_eq_ediv hr.1 (by decide)]
  refine ⟨(((if P < 64 then 64 else P) + 7) / 8).toNat, ?_, ?_, ?_⟩
  · rw [Int.toNat_of_nonneg]; omega
  · split <;> omega
  · split <;> omega

theorem clampRounds_le (x : Nat) : clampRounds x ≤ 30 := by
  unfold clampRounds; split
  · decide
  · split <;> omega

theorem clampRounds_pos (x : Nat) : 1 ≤ clampRounds x := by
  unfold clampRounds; split
  · decide
  · split <;> omega

theorem appendFilter_sound (keys : List Nat) (bitsPerKey : Int)
    (hb : bitsPerKey * (keys.length : Int) ≤ 2 ^ 32 - 8) :
    ∃ f, NewFilter keys bitsPerKey = some f ∧ ∀ h, h ∈ keys → MayContain f h = some true := by
  have hP : (0 : Int) ≤ (if bitsPerKey < 0 then 0 else bitsPerKey) * (keys.length : Int) ∧
      (if bitsPerKey < 0 then 0 else bitsPerKey) * (keys.length : Int) ≤ 2 ^ 32 - 8 := by
    split
    · simp
    · exact ⟨mul_nonneg (by omega) (by omega), hb⟩
  obtain ⟨nb, hnb, hnb8, hnblt⟩ := needBytes_range _ hP.1 hP.2
  have hm : u32OfInt (wrapInt ((nb : Int) * 8)) = 8 * nb := by
    rw [wrapInt_of_range _ (by omega) (by omega)]
    unfold u32OfInt; omega
  obtain ⟨f1, hf1, hl1, _, hprobe⟩ :=
    addKeys_spec (8 * nb) (clampRounds (hashRounds (if bitsPerKey < 0 then 0 else bitsPerKey)))
      (by omega) keys (List.replicate (nb + 1) 0) (by rw [List.length_replicate]; omega)
  have hl1 : f1.length = nb + 1 := by simpa using hl1
  have hc30 := clampRounds_le (hashRounds (if bitsPerKey < 0 then 0 else bitsPerKey))
  refine ⟨f1.set nb (clampRounds (hashRounds (if bitsPerKey < 0 then 0 else bitsPerKey)) % 256), ?_, ?_⟩
  · have hcond : ¬ ((nb : Int) < 0 ∨ ((maxAlloc : Nat) : Int) < (nb : Int) + 1) := by
      unfold maxAlloc; omega
    unfold NewFilter appendFilter
    simp only [hnb, hm]
    rw [if_neg hcond]
    simp [hf1]
  · intro h hh
    unfold MayContain
    have hlen : (f1.set nb (clampRounds (hashRounds (if bitsPerKey < 0 then 0 else bitsPerKey)) % 256)).length
        = nb + 1 := by simp [hl1]
    rw [hlen]
    have hlast : (f1.set nb (clampRounds (hashRounds (if bitsPerKey < 0 then 0 else bitsPerKey)) % 256))[nb + 1 - 1]?
        = some (clampRounds (hashRounds (if bitsPerKey < 0 then 0 else bitsPerKey))) := by
      simp only [Nat.add_sub_cancel]
      rw [List.getElem?_set]
      simp [hl1]
      omega
    rw [hlast]
    have hu : u32 (8 * (nb + 1 - 1)) = 8 * nb := by unfold u32; omega
    simp only [hu]
    rw [if_neg (by omega), if_neg (by omega)]
    apply hprobe h hh
    intro pos hpos hbit
    obtain ⟨c, hc, hbit⟩ := hbit
    exact ⟨c, by rw [List.getElem?_set]; rw [if_neg (by omega)]; exact hc, hbit⟩


theorem addKeys_zero_modulus (hc k : Nat) (keys f : List Nat) (hpos : 1 ≤ hc) :
    addKeys 0 hc (k :: keys) f = none := by
  obtain ⟨n, rfl⟩ : ∃ n, hc = n + 1 := ⟨hc - 1, by omega⟩
  simp [addKeys, setBits]

theorem newFilter_wrapped_modulus : NewFilter [0] 4294967295 = none := by
  have hI : Int.tdiv (wrapInt ((if wrapInt ((if (4294967295 : Int) < 0 then 0 else 4294967295) *
      (([0] : List Nat).length : Int)) < 64 then 64
      else wrapInt ((if (4294967295 : Int) < 0 then 0 else 4294967295) *
        (([0] : List Nat).length : Int))) + 7)) 8 = 536870912 := by decide
  unfold NewFilter appendFilter
  simp only [hI]
  rw [if_neg (by decide)]
  have hz : u32OfInt (wrapInt (536870912 * 8)) = 0 := by decide
  rw [hz, addKeys_zero_modulus _ _ _ _ (clampRounds_pos _)]


/-- C1 (amended): filter soundness. For every list of key hashes and every
`bitsPerKey` with `bitsPerKey * len(keys) ≤ 2 ^ 32 - 8`, `NewFilter` returns a
filter on which `MayContain h` is true for every `h` of the list; when the list
is `Hash` mapped over byte keys, `MayContainKey k` is true for each of them. -/
theorem filter_soundness (keys : List Nat) (bitsPerKey : Int)
    (hb : bitsPerKey * (keys.length : Int) ≤ 2 ^ 32 - 8) :
    ∃ f, NewFilter keys bitsPerKey = some f ∧
      (∀ h, h ∈ keys → MayContain f h = some true) ∧
      (∀ bkeys : List (List Nat), keys = bkeys.map Hash →
        ∀ k, k ∈ bkeys → MayContainKey f k = some true) := by
  obtain ⟨f, hf, hall⟩ := appendFilter_sound keys bitsPerKey hb
  refine ⟨f, hf, hall, ?_⟩
  intro bkeys hk k hmem
  unfold MayContainKey
  exact hall _ (by rw [hk]; exact List.mem_map_of_mem Hash hmem)

/-- Witness of C1 (amended): keys "x", "y", "z" with `bitsPerKey = 10`. -/
theorem filter_soundness_witness :
    (10 : Int) * (((List.map Hash [[120], [121], [122]]).length : Nat) : Int) ≤ 2 ^ 32 - 8 ∧
    ∃ f, NewFilter (List.map Hash [[120], [121], [122]]) 10 = some f ∧
      (∀ h, h ∈ List.map Hash [[120], [121], [122]] → MayContain f h = some true) ∧
      (∀ bkeys : List (List Nat), List.map Hash [[120], [121], [122]] = bkeys.map Hash →
        ∀ k, k ∈ bkeys → MayContainKey f k = some true) :=
  ⟨by decide, filter_soundness (List.map Hash [[120], [121], [122]]) 10 (by decide)⟩

/-- Counterexample to C1 as stated: with the single key hash `0` and
`bitsPerKey = 2 ^ 32 - 1` the product is below `2 ^ 32`, yet the bit count is
rounded up to `2 ^ 32`, whose `uint32` value is `0`: `appendFilter` divides by
zero and no filter is returned. -/
theorem filter_soundness_counterexample :
    (4294967295 : Int) * ((([0] : List Nat).length : Nat) : Int) < 2 ^ 32 ∧
    0 ∈ ([0] : List Nat) ∧
    ¬ ∃ f, NewFilter [0] 4294967295 = some f ∧ MayContain f 0 = some true := by
  refine ⟨by decide, by decide, ?_⟩
  rintro ⟨f, hf, _⟩
  rw [newFilter_wrapped_modulus] at hf
  cases hf

/-- C9: a filter of at least two bytes whose last byte exceeds 30 answers
`true` to every query, whatever its other bytes are. -/
theorem mayContain_fail_open (f : List Nat) (b h : Nat) (hlen : 2 ≤ f.length)
    (hlast : f.getLast? = some b) (hb : 30 < b) : MayContain f h = some true := by
  unfold MayContain
  rw [List.getLast?_eq_getElem?] at hlast
  rw [if_neg (by omega), hlast]
  simp [hb]

/-- Witness of C9: the two-byte filter `[0, 31]` queried with hash `5`. -/
theorem mayContain_fail_open_witness :
    2 ≤ ([0, 31] : List Nat).length ∧ ([0, 31] : List Nat).getLast? = some 31 ∧ 30 < 31 ∧
    MayContain [0, 31] 5 = some true :=
  ⟨by decide, by decide, by decide,
    mayContain_fail_open [0, 31] 31 5 (by decide) (by decide) (by decide)⟩

/-- C10: a filter shorter than two bytes answers `false` to every query. -/
theorem mayContain_short (f : List Nat) (h : Nat) (hlen : f.length < 2) :
    MayContain f h = some false := by
  unfold MayContain
  rw [if_pos hlen]

/-- Witness of C10: the one-byte filter `[200]` queried with hash `5`. -/
theorem mayContain_short_witness :
    ([200] : List Nat).length < 2 ∧ MayContain [200] 5 = some false :=
  ⟨by decide, mayContain_short [200] 5 (by decide)⟩


/-! ## Properties of the arena -/

theorem copyBytes_grow (buf : List Nat) (a : Nat) :
    copyBytes (makeBytes (buf.length + a)) buf = (buf ++ List.replicate a 0, buf.length) := by
  unfold copyBytes makeBytes
  simp [List.drop_replicate]

theorem allocate_spec (s : Arena) (sz : Nat) (h : s.n + sz < 2 ^ 32) :
    ∃ s1, allocate s sz = some (s1, s.n) ∧ s1.n = s.n + sz ∧
      (∃ ext, s1.buf = s.buf ++ ext) ∧ (s.n ≤ s.buf.length → s1.n ≤ s1.buf.length) := by
  have hoff : u32 (s.n + sz) = s.n + sz := by unfold u32; omega
  have hret : u32 (s.n + sz + 2 ^ 32 - sz) = s.n := by unfold u32; omega
  unfold allocate
  simp only [hoff, hret, copyBytes_grow]
  split
  · rename_i hlt
    rw [if_pos trivial]
    refine ⟨_, rfl, rfl, ⟨_, rfl⟩, ?_⟩
    intro hn
    simp only [List.length_append, List.length_replicate]
    split_ifs <;> omega
  · rename_i hge
    refine ⟨_, rfl, rfl, ⟨[], by simp⟩, ?_⟩
    intro _
    simp only
    omega

theorem copyBytes_exact (window key : List Nat) (h : window.length = key.length) :
    copyBytes window key = (key, key.length) := by
  unfold copyBytes
  simp [h]

theorem putKey_spec (s : Arena) (key : List Nat) (h : s.n + key.length < 2 ^ 32)
    (hinv : s.n ≤ s.buf.length) :
    ∃ s1, putKey s key = some (s1, s.n) ∧ s1.n = s.n + key.length ∧
      s1.n ≤ s1.buf.length ∧ s1.buf.take s.n = s.buf.take s.n ∧
      (s1.buf.drop s.n).take key.length = key := by
  have hsz : u32 key.length = key.length := by unfold u32; omega
  obtain ⟨s0, hs0, hn0, ⟨ext, hext⟩, hinv0⟩ := allocate_spec s key.length h
  have hinv0 := hinv0 hinv
  have hhi : u32 (s.n + key.length) = s.n + key.length := by unfold u32; omega
  have hwin : ((s0.buf.drop s.n).take (s.n + key.length - s.n)).length = key.length := by
    simp only [List.length_take, List.length_drop]
    omega
  unfold putKey
  simp only [hsz, hs0, hhi]
  rw [if_pos ⟨by omega, by omega⟩, copyBytes_exact _ _ hwin]
  simp only [if_true]
  refine ⟨_, rfl, hn0, ?_, ?_, ?_⟩
  · simp only [List.length_append, List.length_take, List.length_drop]
    omega
  · have hlen : (s0.buf.take s.n).length = s.n := by
      simp only [List.length_take]; omega
    rw [List.append_assoc, List.take_append_eq_append_take, hlen]
    simp [hext, List.take_append_eq_append_take, List.take_take]
    omega
  · have hlen : (s0.buf.take s.n).length = s.n := by
      simp only [List.length_take]; omega
    have hd : List.drop s.n (List.take s.n s0.buf) = [] :=
      List.drop_eq_nil_of_le (by rw [hlen])
    rw [List.append_assoc, List.drop_append_eq_append_drop, hlen, hd]
    simp [List.take_append_eq_append_take]

theorem take_eq_of_take_eq (l1 l2 : List Nat) (a b : Nat) (hab : a ≤ b)
    (h : l1.take b = l2.take b) : l1.take a = l2.take a := by
  have h1 : l1.take a = (l1.take b).take a := by rw [List.take_take, Nat.min_eq_left hab]
  have h2 : l2.take a = (l2.take b).take a := by rw [List.take_take, Nat.min_eq_left hab]
  rw [h1, h2, h]

theorem take_drop_window (l : List Nat) (n k : Nat) :
    (l.drop n).take k = (l.take (n + k)).drop n := by
  rw [List.drop_take, Nat.add_sub_cancel_left]

theorem opRun_spec (op : ArenaOp) (s : Arena) (hinv : s.n ≤ s.buf.length)
    (h : s.n + op.size < 2 ^ 32) :
    ∃ s1, op.run s = some (s1, s.n) ∧ s1.n = s.n + op.size ∧
      s1.n ≤ s1.buf.length ∧ s1.buf.take s.n = s.buf.take s.n := by
  cases op with
  | alloc sz =>
    obtain ⟨s1, h1, h2, ⟨ext, hext⟩, h4⟩ := allocate_spec s sz h
    refine ⟨s1, h1, h2, h4 hinv, ?_⟩
    rw [hext, List.take_append_of_le_length hinv]
  | put key =>
    obtain ⟨s1, h1, h2, h3, h4, _⟩ := putKey_spec s key h hinv
    exact ⟨s1, h1, h2, h3, h4⟩

theorem runOps_spec (ops : List ArenaOp) :
    ∀ (s : Arena), s.n ≤ s.buf.length → s.n + totalSize ops < 2 ^ 32 →
      ∃ s1 offs, runOps s ops = some (s1, offs) ∧ s1.n = s.n + totalSize ops ∧
        s1.n ≤ s1.buf.length ∧ s1.buf.take s.n = s.buf.take s.n := by
  induction ops with
  | nil =>
    intro s hinv _
    exact ⟨s, [], rfl, by simp [totalSize], hinv, rfl⟩
  | cons op ops ih =>
    intro s hinv h
    have ht : totalSize (op :: ops) = op.size + totalSize ops := by simp [totalSize]
    obtain ⟨s1, h1, h2, h3, h4⟩ := opRun_spec op s hinv (by omega)
    obtain ⟨s2, offs, g1, g2, g3, g4⟩ := ih s1 h3 (by omega)
    refine ⟨s2, s.n :: offs, ?_, by omega, g3, ?_⟩
    · simp only [runOps, h1, g1]
    · rw [← h4]
      exact take_eq_of_take_eq _ _ _ _ (by omega) g4

theorem newArena_inv (size : Nat) (h : 1 ≤ size) :
    (newArena size).n ≤ (newArena size).buf.length := by
  simp [newArena, makeBytes, h]

/-- C6 (amended): arena offset stability. On an arena made by `newArena size`
with `size ≥ 1`, after any calls `pre`, a `putKey k1` with `len(k1) < 2 ^ 16`
returns an offset `o1` with `getKey(o1, len(k1)) = k1`, and after any further
calls `post` (growth of the buffer included) `getKey(o1, len(k1))` is still
`k1`, provided the sizes of all calls sum to less than `2 ^ 32 - 1`, so that the
`uint32` counter does not wrap. -/
theorem arena_offset_stability (size : Nat) (pre post : List ArenaOp) (k1 : List Nat)
    (hsize : 1 ≤ size) (hk : k1.length < 2 ^ 16)
    (htotal : totalSize pre + k1.length + totalSize post < 2 ^ 32 - 1) :
    ∃ s0 offs0 s1 o1 s2 offs2,
      runOps (newArena size) pre = some (s0, offs0) ∧
      putKey s0 k1 = some (s1, o1) ∧
      runOps s1 post = some (s2, offs2) ∧
      getKey s1 o1 k1.length = some k1 ∧
      getKey s2 o1 k1.length = some k1 := by
  have hn : (newArena size).n = 1 := rfl
  obtain ⟨s0, offs0, h0, hn0, hinv0, _⟩ :=
    runOps_spec pre (newArena size) (newArena_inv size hsize) (by rw [hn]; omega)
  obtain ⟨s1, h1, hn1, hinv1, _, hkey⟩ := putKey_spec s0 k1 (by omega) hinv0
  obtain ⟨s2, offs2, h2, hn2, hinv2, hpre⟩ := runOps_spec post s1 hinv1 (by omega)
  have hhi : u32 (s0.n + k1.length) = s0.n + k1.length := by unfold u32; omega
  have hkey2 : (s2.buf.drop s0.n).take k1.length = k1 := by
    rw [take_drop_window, ← hn1, hpre, hn1, ← take_drop_window]
    exact hkey
  refine ⟨s0, offs0, s1, s0.n, s2, offs2, h0, h1, h2, ?_, ?_⟩
  · unfold getKey
    rw [hhi, if_pos ⟨by omega, by omega⟩]
    simp only [Nat.add_sub_cancel_left, hkey]
  · unfold getKey
    rw [hhi, if_pos ⟨by omega, by omega⟩]
    simp only [Nat.add_sub_cancel_left, hkey2]

/-- Witness of C6 (amended): a 64-byte arena, key `[1, 2, 3]`, then an
allocation of 100 bytes that grows the buffer and a second `putKey`. -/
theorem arena_offset_stability_witness :
    1 ≤ 64 ∧ ([1, 2, 3] : List Nat).length < 2 ^ 16 ∧
    totalSize [] + ([1, 2, 3] : List Nat).length +
      totalSize [ArenaOp.alloc 100, ArenaOp.put [9, 9]] < 2 ^ 32 - 1 ∧
    ∃ s0 offs0 s1 o1 s2 offs2,
      runOps (newArena 64) [] = some (s0, offs0) ∧
      putKey s0 [1, 2, 3] = some (s1, o1) ∧
      runOps s1 [ArenaOp.alloc 100, ArenaOp.put [9, 9]] = some (s2, offs2) ∧
      getKey s1 o1 ([1, 2, 3] : List Nat).length = some [1, 2, 3] ∧
      getKey s2 o1 ([1, 2, 3] : List Nat).length = some [1, 2, 3] :=
  ⟨by decide, by decide, by decide,
    arena_offset_stability 64 [] [ArenaOp.alloc 100, ArenaOp.put [9, 9]] [1, 2, 3]
      (by decide) (by decide) (by decide)⟩

theorem allocate_keep (s : Arena) (sz : Nat)
    (h : u32 (s.n + sz) + MaxNodeSize ≤ s.buf.length) :
    allocate s sz
      = some ({ n := u32 (s.n + sz), buf := s.buf }, u32 (u32 (s.n + sz) + 2 ^ 32 - sz)) := by
  unfold allocate
  simp only
  rw [if_neg (by omega)]

theorem allocate_grow (s : Arena) (sz : Nat)
    (h : s.buf.length < u32 (s.n + sz) + MaxNodeSize) :
    ∃ s1, allocate s sz = some (s1, u32 (u32 (s.n + sz) + 2 ^ 32 - sz)) ∧
      s1.n = u32 (s.n + sz) ∧
      s1.buf.length = s.buf.length + max (min (u32 s.buf.length) (2 ^ 30)) sz := by
  unfold allocate
  simp only [copyBytes_grow]
  rw [if_pos h, if_pos trivial]
  refine ⟨_, rfl, rfl, ?_⟩
  simp only [List.length_append, List.length_replicate]
  congr 1
  simp only [Nat.max_def, Nat.min_def]
  split_ifs <;> omega

theorem allocate_total (s : Arena) (sz : Nat) :
    ∃ s1, allocate s sz = some (s1, u32 (u32 (s.n + sz) + 2 ^ 32 - sz)) := by
  by_cases h : s.buf.length < u32 (s.n + sz) + MaxNodeSize
  · obtain ⟨s1, h1, _⟩ := allocate_grow s sz h
    exact ⟨s1, h1⟩
  · exact ⟨_, allocate_keep s sz (by omega)⟩

theorem putKey_wrap (s : Arena) (key : List Nat) (hk : 0 < key.length)
    (hlt : key.length < 2 ^ 32) (h : s.n + key.length = 2 ^ 32) : putKey s key = none := by
  have hsz : u32 key.length = key.length := by unfold u32; omega
  obtain ⟨s1, h1⟩ := allocate_total s key.length
  have hoff : u32 (u32 (s.n + key.length) + 2 ^ 32 - key.length) = 2 ^ 32 - key.length := by
    unfold u32; omega
  have hhi : u32 (2 ^ 32 - key.length + key.length) = 0 := by unfold u32; omega
  unfold putKey
  simp only [hsz, h1, hoff, hhi]
  rw [if_neg (by omega)]

/-- Counterexample to C6 as stated: on a 64-byte arena the key `[1, 2, 3]` is
put at offset 1; `allocate(4294967290)` then brings the counter to `2 ^ 32 - 2`
and `putKey` of the two-byte key `[9, 9]` wraps it to 0, so that the slice
`buf[4294967294 : 0]` is out of range and the call panics. All sizes together
are `2 ^ 32 - 1`, below `2 ^ 32`. -/
theorem arena_offset_counterexample :
    1 ≤ 64 ∧ ([1, 2, 3] : List Nat).length < 2 ^ 16 ∧
    totalSize [] + ([1, 2, 3] : List Nat).length +
      totalSize [ArenaOp.alloc 4294967290, ArenaOp.put [9, 9]] < 2 ^ 32 ∧
    ¬ ∃ s0 offs0 s1 o1 s2 offs2,
      runOps (newArena 64) [] = some (s0, offs0) ∧
      putKey s0 [1, 2, 3] = some (s1, o1) ∧
      runOps s1 [ArenaOp.alloc 4294967290, ArenaOp.put [9, 9]] = some (s2, offs2) ∧
      getKey s2 o1 ([1, 2, 3] : List Nat).length = some [1, 2, 3] := by
  refine ⟨by decide, by decide, by decide, ?_⟩
  rintro ⟨s0, offs0, s1, o1, s2, offs2, h0, h1, h2, _⟩
  simp only [runOps, Option.some.injEq, Prod.mk.injEq] at h0
  obtain ⟨t1, g1, gn1, _⟩ := putKey_spec (newArena 64) [1, 2, 3] (by decide) (by decide)
  rw [← h0.1, g1] at h1
  simp only [Option.some.injEq, Prod.mk.injEq] at h1
  have hn1 : s1.n = 4 := by rw [← h1.1, gn1]; rfl
  obtain ⟨t2, g2, gn2, _⟩ := allocate_spec s1 4294967290 (by rw [hn1]; decide)
  have g3 : putKey t2 [9, 9] = none :=
    putKey_wrap t2 [9, 9] (by decide) (by decide) (by rw [gn2, hn1]; rfl)
  simp only [runOps, ArenaOp.run, g2, g3] at h2
  cases h2

theorem sum_take_succ (szs : List Nat) : ∀ (i si : Nat), szs[i]? = some si →
    (szs.take (i + 1)).sum = (szs.take i).sum + si := by
  induction szs with
  | nil => intro i si h; simp at h
  | cons a szs ih =>
    intro i si h
    cases i with
    | zero => simp at h; simp [h]
    | succ i =>
      simp only [List.getElem?_cons_succ] at h
      simp only [List.take_succ_cons, List.sum_cons, ih i si h]
      omega

theorem sum_take_le_sum (szs : List Nat) : ∀ (i : Nat), (szs.take i).sum ≤ szs.sum := by
  induction szs with
  | nil => intro i; simp
  | cons a szs ih =>
    intro i
    cases i with
    | zero => simp
    | succ i =>
      simp only [List.take_succ_cons, List.sum_cons]
      have := ih i
      omega

theorem sum_take_mono (szs : List Nat) (i j : Nat) (hij : i ≤ j) :
    (szs.take i).sum ≤ (szs.take j).sum := by
  have h : szs.take i = (szs.take j).take i := by rw [List.take_take, Nat.min_eq_left hij]
  rw [h]
  exact sum_take_le_sum _ _

theorem allocs_spec (szs : List Nat) :
    ∀ (s : Arena), s.n + szs.sum < 2 ^ 32 →
      ∃ s1 offs, runOps s (szs.map ArenaOp.alloc) = some (s1, offs) ∧
        s1.n = s.n + szs.sum ∧ offs.length = szs.length ∧
        ∀ i, i < szs.length → offs[i]? = some (s.n + (szs.take i).sum) := by
  induction szs with
  | nil =>
    intro s _
    exact ⟨s, [], rfl, by simp, rfl, fun i hi => by simp at hi⟩
  | cons sz szs ih =>
    intro s h
    simp only [List.sum_cons] at h
    obtain ⟨s1, h1, h2, _, _⟩ := allocate_spec s sz (by omega)
    obtain ⟨s2, offs, g1, g2, g3, g4⟩ := ih s1 (by omega)
    refine ⟨s2, s.n :: offs, ?_, ?_, by simp [g3], ?_⟩
    · simp only [List.map_cons, runOps, ArenaOp.run, h1, g1]
    · simp only [List.sum_cons]; omega
    · intro i hi
      cases i with
      | zero => simp
      | succ i =>
        simp only [List.length_cons, Nat.add_lt_add_iff_right] at hi
        simp only [List.getElem?_cons_succ, List.take_succ_cons, List.sum_cons, g4 i hi, h2]
        congr 1
        omega

theorem allocs_upto (size : Nat) (szs : List Nat) (hsum : szs.sum < 2 ^ 32 - 1)
    (k sz : Nat) (hk : szs[k]? = some sz) :
    ∃ sk offk sk1, runOps (newArena size) ((szs.take k).map ArenaOp.alloc) = some (sk, offk) ∧
      allocate sk sz = some (sk1, sk.n) ∧ sk1.n = sk.n + sz ∧ sk.n = 1 + (szs.take k).sum := by
  have hn : (newArena size).n = 1 := rfl
  have hle := sum_take_le_sum szs (k + 1)
  have hs := sum_take_succ szs k sz hk
  have hle0 := sum_take_le_sum szs k
  obtain ⟨sk, offk, h1, h2, _, _⟩ := allocs_spec (szs.take k) (newArena size) (by rw [hn]; omega)
  rw [hn] at h2
  obtain ⟨sk1, g1, g2, _, _⟩ := allocate_spec sk sz (by omega)
  exact ⟨sk, offk, sk1, h1, g1, g2, h2⟩

/-- C7: non-overlapping allocation. For sizes summing to less than
`2 ^ 32 - 1`, the calls `allocate(sz_0), allocate(sz_1), ...` on a new arena all
return; call `k` returns the value the counter has before it and advances the
counter by exactly `sz_k`; the extents `[offset_i, offset_i + sz_i)` are pairwise
disjoint. -/
theorem allocate_disjoint (size : Nat) (szs : List Nat) (hsum : szs.sum < 2 ^ 32 - 1) :
    ∃ s offs, runOps (newArena size) (szs.map ArenaOp.alloc) = some (s, offs) ∧
      offs.length = szs.length ∧
      (∀ k sz, szs[k]? = some sz →
        ∃ sk offk sk1, runOps (newArena size) ((szs.take k).map ArenaOp.alloc) = some (sk, offk) ∧
          allocate sk sz = some (sk1, sk.n) ∧ sk1.n = sk.n + sz ∧ offs[k]? = some sk.n) ∧
      (∀ i j oi oj si : Nat, i < j → offs[i]? = some oi → offs[j]? = some oj → szs[i]? = some si →
        oi + si ≤ oj) := by
  have hn : (newArena size).n = 1 := rfl
  obtain ⟨s, offs, h1, _, h3, h4⟩ := allocs_spec szs (newArena size) (by rw [hn]; omega)
  have hlt : ∀ k v, szs[k]? = some v → k < szs.length := by
    intro k v hk
    rcases Nat.lt_or_ge k szs.length with h | h
    · exact h
    · rw [List.getElem?_eq_none h] at hk; cases hk
  have hltO : ∀ k v, offs[k]? = some v → k < szs.length := by
    intro k v hk
    rcases Nat.lt_or_ge k offs.length with h | h
    · omega
    · rw [List.getElem?_eq_none h] at hk; cases hk
  refine ⟨s, offs, h1, h3, ?_, ?_⟩
  · intro k sz hk
    obtain ⟨sk, offk, sk1, g1, g2, g3, g4⟩ := allocs_upto size szs hsum k sz hk
    refine ⟨sk, offk, sk1, g1, g2, g3, ?_⟩
    rw [h4 k (hlt k sz hk), hn, g4]
  · intro i j oi oj si hij hi hj hsi
    rw [h4 i (hltO i oi hi)] at hi
    rw [h4 j (hltO j oj hj)] at hj
    have hs := sum_take_succ szs i si hsi
    have hm := sum_take_mono szs (i + 1) j hij
    simp only [Option.some.injEq] at hi hj
    omega

/-- Witness of C7: three allocations of 10, 0 and 100 bytes on a 64-byte arena. -/
theorem allocate_disjoint_witness :
    ([10, 0, 100] : List Nat).sum < 2 ^ 32 - 1 ∧
    ∃ s offs, runOps (newArena 64) (([10, 0, 100] : List Nat).map ArenaOp.alloc) = some (s, offs) ∧
      offs.length = ([10, 0, 100] : List Nat).length ∧
      (∀ k sz, ([10, 0, 100] : List Nat)[k]? = some sz →
        ∃ sk offk sk1,
          runOps (newArena 64) ((([10, 0, 100] : List Nat).take k).map ArenaOp.alloc)
            = some (sk, offk) ∧
          allocate sk sz = some (sk1, sk.n) ∧ sk1.n = sk.n + sz ∧ offs[k]? = some sk.n) ∧
      (∀ i j oi oj si : Nat, i < j → offs[i]? = some oi → offs[j]? = some oj →
        ([10, 0, 100] : List Nat)[i]? = some si → oi + si ≤ oj) :=
  ⟨by decide, allocate_disjoint 64 [10, 0, 100] (by decide)⟩

/-- C8 (amended): for sizes summing to less than `2 ^ 32 - 1`, every
`allocate` call on a new arena returns, leaves the counter at least as large as
it was before the call, and returns an offset different from 0. -/
theorem allocate_counter_monotone (size : Nat) (szs : List Nat)
    (hsum : szs.sum < 2 ^ 32 - 1) :
    ∃ s offs, runOps (newArena size) (szs.map ArenaOp.alloc) = some (s, offs) ∧
      (∀ o, o ∈ offs → o ≠ 0) ∧
      (∀ k sz, szs[k]? = some sz →
        ∃ sk offk sk1 o, runOps (newArena size) ((szs.take k).map ArenaOp.alloc) = some (sk, offk) ∧
          allocate sk sz = some (sk1, o) ∧ sk.n ≤ sk1.n ∧ o ≠ 0) := by
  have hn : (newArena size).n = 1 := rfl
  obtain ⟨s, offs, h1, _, h3, h4⟩ := allocs_spec szs (newArena size) (by rw [hn]; omega)
  refine ⟨s, offs, h1, ?_, ?_⟩
  · intro o ho
    obtain ⟨i, hi, rfl⟩ := List.getElem_of_mem ho
    have := h4 i (by omega)
    rw [List.getElem?_eq_getElem hi, hn] at this
    simp only [Option.some.injEq] at this
    omega
  · intro k sz hk
    obtain ⟨sk, offk, sk1, g1, g2, g3, g4⟩ := allocs_upto size szs hsum k sz hk
    exact ⟨sk, offk, sk1, sk.n, g1, g2, by omega, by omega⟩

/-- Witness of C8 (amended): three allocations of 10, 0 and 100 bytes. -/
theorem allocate_counter_monotone_witness :
    ([10, 0, 100] : List Nat).sum < 2 ^ 32 - 1 ∧
    ∃ s offs, runOps (newArena 64) (([10, 0, 100] : List Nat).map ArenaOp.alloc) = some (s, offs) ∧
      (∀ o, o ∈ offs → o ≠ 0) ∧
      (∀ k sz, ([10, 0, 100] : List Nat)[k]? = some sz →
        ∃ sk offk sk1 o,
          runOps (newArena 64) ((([10, 0, 100] : List Nat).take k).map ArenaOp.alloc)
            = some (sk, offk) ∧
          allocate sk sz = some (sk1, o) ∧ sk.n ≤ sk1.n ∧ o ≠ 0) :=
  ⟨by decide, allocate_counter_monotone 64 [10, 0, 100] (by decide)⟩

/-- Counterexample to C8 as stated: on a 64-byte arena `allocate(2 ^ 32 - 1)`
wraps the `uint32` counter from 1 to 0, and the next `allocate(1)` returns
offset 0. -/
theorem allocate_counter_counterexample :
    4294967295 < 2 ^ 32 ∧ 1 < 2 ^ 32 ∧
    ∃ s1 o1 s2 o2, allocate (newArena 64) 4294967295 = some (s1, o1) ∧
      s1.n < (newArena 64).n ∧ allocate s1 1 = some (s2, o2) ∧ o2 = 0 :=
  ⟨by decide, by decide, _, _, _, _, rfl, by decide, rfl, rfl⟩


/-! ## Properties of the skip list: the key order -/

theorem bytesCompare_values (a : List Nat) : ∀ b : List Nat,
    bytesCompare a b = -1 ∨ bytesCompare a b = 0 ∨ bytesCompare a b = 1 := by
  induction a with
  | nil => intro b; cases b <;> simp [bytesCompare]
  | cons x xs ih =>
    intro b
    cases b with
    | nil => simp [bytesCompare]
    | cons y ys =>
      simp only [bytesCompare]
      split
      · simp
      · split
        · simp
        · exact ih ys

theorem bytesCompare_eq_zero (a : List Nat) : ∀ b : List Nat,
    bytesCompare a b = 0 ↔ a = b := by
  induction a with
  | nil => intro b; cases b <;> simp [bytesCompare]
  | cons x xs ih =>
    intro b
    cases b with
    | nil => simp [bytesCompare]
    | cons y ys =>
      simp only [bytesCompare]
      split
      · rename_i h
        simp only [List.cons.injEq]
        constructor
        · intro h0; simp at h0
        · rintro ⟨rfl, _⟩; omega
      · split
        · rename_i h
          simp only [List.cons.injEq]
          constructor
          · intro h0; simp at h0
          · rintro ⟨rfl, _⟩; omega
        · rename_i h1 h2
          have hxy : x = y := by omega
          simp [ih ys, hxy]

theorem bytesCompare_swap (a : List Nat) : ∀ b : List Nat,
    bytesCompare b a = - bytesCompare a b := by
  induction a with
  | nil => intro b; cases b <;> simp [bytesCompare]
  | cons x xs ih =>
    intro b
    cases b with
    | nil => simp [bytesCompare]
    | cons y ys =>
      simp only [bytesCompare]
      by_cases h1 : x < y
      · have h2 : ¬ y < x := by omega
        simp [h1, h2]
      · by_cases h2 : y < x
        · simp [h1, h2]
        · simp [h1, h2, ih ys]

theorem bytesCompare_trans (a : List Nat) : ∀ b c : List Nat,
    bytesCompare a b = -1 → bytesCompare b c = -1 → bytesCompare a c = -1 := by
  induction a with
  | nil =>
    intro b c hab hbc
    cases b with
    | nil => simp [bytesCompare] at hab
    | cons y ys =>
      cases c with
      | nil => simp [bytesCompare] at hbc
      | cons z zs => simp [bytesCompare]
  | cons x xs ih =>
    intro b c hab hbc
    cases b with
    | nil => simp [bytesCompare] at hab
    | cons y ys =>
      cases c with
      | nil => simp [bytesCompare] at hbc
      | cons z zs =>
        simp only [bytesCompare] at hab hbc ⊢
        by_cases hxy : x < y
        · by_cases hyz : y < z
          · have : x < z := by omega
            simp [this]
          · by_cases hzy : z < y
            · simp [hyz, hzy] at hbc
            · have : x < z := by omega
              simp [this]
        · by_cases hyx : y < x
          · simp [hxy, hyx] at hab
          · simp only [hxy, hyx, if_false] at hab
            by_cases hyz : y < z
            · have : x < z := by omega
              simp [this]
            · by_cases hzy : z < y
              · simp [hyz, hzy] at hbc
              · simp only [hyz, hzy, if_false] at hbc
                have h1 : ¬ x < z := by omega
                have h2 : ¬ z < x := by omega
                simp only [h1, h2, if_false]
                exact ih ys zs hab hbc

theorem cmpKey_eq_zero (a b : List Nat) : cmpKey a b = 0 ↔ a = b := by
  unfold cmpKey
  split
  · exact bytesCompare_eq_zero a b
  · rename_i h
    split
    · constructor
      · intro h0; simp at h0
      · rintro rfl; exact absurd rfl h
    · constructor
      · intro h0; simp at h0
      · rintro rfl; exact absurd rfl h

theorem cmpKey_swap (a b : List Nat) : cmpKey b a = - cmpKey a b := by
  unfold cmpKey
  by_cases h : calcScore a = calcScore b
  · simp [h, bytesCompare_swap a b]
  · have h1 : ¬ calcScore b = calcScore a := fun h2 => h h2.symm
    by_cases h2 : calcScore a < calcScore b
    · have h3 : ¬ calcScore b < calcScore a := by omega
      simp [h, h1, h2, h3]
    · have h3 : calcScore b < calcScore a := by omega
      simp [h, h1, h2, h3]

theorem cmpKey_values (a b : List Nat) : cmpKey a b = -1 ∨ cmpKey a b = 0 ∨ cmpKey a b = 1 := by
  unfold cmpKey
  split
  · exact bytesCompare_values a b
  · split <;> simp

theorem KLt_irrefl (a : List Nat) : ¬ KLt a a := by
  unfold KLt
  rw [(cmpKey_eq_zero a a).mpr rfl]
  decide

theorem KLt_asymm (a b : List Nat) (h : KLt a b) : ¬ KLt b a := by
  unfold KLt at *
  rw [cmpKey_swap a b, h]
  decide

theorem KLt_trans (a b c : List Nat) (hab : KLt a b) (hbc : KLt b c) : KLt a c := by
  unfold KLt cmpKey at *
  by_cases h1 : calcScore a = calcScore b
  · by_cases h2 : calcScore b = calcScore c
    · have h3 : calcScore a = calcScore c := h1.trans h2
      simp only [h1, h2, if_true] at hab hbc
      simp only [h3, if_true]
      exact bytesCompare_trans a b c hab hbc
    · simp only [h1, h2, if_true, if_false] at hab hbc
      have h3 : calcScore b < calcScore c := by
        by_contra hc; simp [hc] at hbc
      have h4 : ¬ calcScore a = calcScore c := by omega
      have h5 : calcScore a < calcScore c := by omega
      simp [h4, h5]
  · simp only [h1, if_false] at hab
    have h3 : calcScore a < calcScore b := by
      by_contra hc; simp [hc] at hab
    by_cases h2 : calcScore b = calcScore c
    · have h4 : ¬ calcScore a = calcScore c := by omega
      have h5 : calcScore a < calcScore c := by omega
      simp [h4, h5]
    · simp only [h2, if_false] at hbc
      have h6 : calcScore b < calcScore c := by
        by_contra hc; simp [hc] at hbc
      have h4 : ¬ calcScore a = calcScore c := by omega
      have h5 : calcScore a < calcScore c := by omega
      simp [h4, h5]

theorem KLt_trichotomy (a b : List Nat) : KLt a b ∨ a = b ∨ KLt b a := by
  rcases cmpKey_values a b with h | h | h
  · exact Or.inl h
  · exact Or.inr (Or.inl ((cmpKey_eq_zero a b).mp h))
  · refine Or.inr (Or.inr ?_)
    unfold KLt
    rw [cmpKey_swap a b, h]


/-! ## Properties of the skip list: reading the heap -/

theorem getElem?_lt {α : Type} (l : List α) (p : Nat) (a : α) (h : l[p]? = some a) :
    p < l.length := by
  rcases Nat.lt_or_ge p l.length with h1 | h1
  · exact h1
  · rw [List.getElem?_eq_none h1] at h; cases h

theorem levelAt_some (nodes : List Element) (p i : Nat) (v : Option Nat)
    (h : levelAt nodes p i = some v) : p < nodes.length ∧ i < heightOf nodes p := by
  unfold levelAt at h
  unfold heightOf
  cases hp : nodes[p]? with
  | none => rw [hp] at h; cases h
  | some e =>
    rw [hp] at h
    exact ⟨getElem?_lt _ _ _ hp, getElem?_lt _ _ _ h⟩

theorem levelAt_of_lt (nodes : List Element) (p i : Nat) (h : i < heightOf nodes p) :
    ∃ v, levelAt nodes p i = some v := by
  unfold heightOf at h
  unfold levelAt
  cases hp : nodes[p]? with
  | none => rw [hp] at h; cases h
  | some e =>
    rw [hp] at h
    exact ⟨e.levels[i], List.getElem?_eq_getElem h⟩

theorem compare_node (k : List Nat) (e : Element) (d : Entry) (he : e.entry = some d)
    (hs : e.score = calcScore d.Key) :
    SkipList.compare (calcScore k) k e = some (cmpKey k d.Key) := by
  unfold SkipList.compare cmpKey
  rw [he, hs]
  split
  · rfl
  · split <;> rfl

theorem node_facts (nodes : List Element) (hinv : Inv nodes) (p : Nat) (h1 : 1 ≤ p)
    (h2 : p < nodes.length) (k : List Nat) :
    ∃ e d, nodes[p]? = some e ∧ e.entry = some d ∧ keyOf nodes p = d.Key ∧
      SkipList.compare (calcScore k) k e = some (cmpKey k (keyOf nodes p)) := by
  obtain ⟨e, d, he, hd, hs, _, _⟩ := hinv.node p h1 h2
  have hk : keyOf nodes p = d.Key := by
    unfold keyOf; rw [he]; simp only [hd]
  exact ⟨e, d, he, hd, hk, by rw [hk]; exact compare_node k e d hd hs⟩

theorem rank_lt_length (nodes : List Element) (p : Nat) (h : 0 < nodes.length) :
    rank nodes p < nodes.length := by
  unfold rank
  have hss : (Finset.range nodes.length).filter (fun r => 1 ≤ r ∧ Below nodes r p)
      ⊂ Finset.range nodes.length := by
    rw [Finset.filter_ssubset]
    exact ⟨0, Finset.mem_range.mpr h, by simp⟩
  have := Finset.card_lt_card hss
  simpa using this

theorem rank_lt (nodes : List Element) (p q : Nat) (h1 : 1 ≤ q) (h2 : q < nodes.length)
    (hqp : Below nodes q p) : rank nodes q < rank nodes p := by
  unfold rank
  apply Finset.card_lt_card
  rw [Finset.ssubset_iff_of_subset]
  · refine ⟨q, ?_, ?_⟩
    · simp only [Finset.mem_filter, Finset.mem_range]
      exact ⟨h2, h1, hqp⟩
    · simp only [Finset.mem_filter, Finset.mem_range, not_and]
      intro _ _ hb
      rcases hb with hb | hb
      · omega
      · exact KLt_irrefl _ hb
  · intro r hr
    simp only [Finset.mem_filter, Finset.mem_range] at hr ⊢
    refine ⟨hr.1, hr.2.1, ?_⟩
    rcases hr.2.2 with hb | hb
    · omega
    · rcases hqp with hp | hp
      · exact Or.inl hp
      · exact Or.inr (KLt_trans _ _ _ hb hp)

theorem walkLevel_spec (nodes : List Element) (hinv : Inv nodes) (k : List Nat) (i : Nat) :
    ∀ (fuel prev : Nat), prev < nodes.length → i < heightOf nodes prev →
      (prev = 0 ∨ KLt k (keyOf nodes prev)) → rank nodes prev < fuel →
      (∃ q, walkLevel nodes (calcScore k) k i fuel prev = some (Walk.found q) ∧
        1 ≤ q ∧ q < nodes.length ∧ keyOf nodes q = k) ∨
      (∃ p, walkLevel nodes (calcScore k) k i fuel prev = some (Walk.stop p) ∧
        StopAt nodes k i p ∧ rank nodes p ≤ rank nodes prev) := by
  intro fuel
  induction fuel with
  | zero => intro prev _ _ _ hr; omega
  | succ fuel ih =>
    intro prev hlt hh hbelow hr
    obtain ⟨v, hv⟩ := levelAt_of_lt nodes prev i hh
    cases v with
    | none =>
      right
      refine ⟨prev, ?_, ⟨hlt, hh, hbelow, Or.inl hv⟩, le_refl _⟩
      simp only [walkLevel, hv]
    | some q =>
      obtain ⟨hq1, hq2, hqh, hqk⟩ := hinv.ptr prev i q hv
      obtain ⟨e, d, he, _, _, hcmp⟩ := node_facts nodes hinv q hq1 hq2 k
      have hqb : Below nodes q prev := by
        by_cases h0 : prev = 0
        · exact Or.inl h0
        · exact Or.inr (hqk h0)
      have hrank := rank_lt nodes prev q hq1 hq2 hqb
      rcases cmpKey_values k (keyOf nodes q) with hc | hc | hc
      · have hw : walkLevel nodes (calcScore k) k i (fuel + 1) prev
            = walkLevel nodes (calcScore k) k i fuel q := by
          simp only [walkLevel, hv, he, hcmp, hc]
          simp
        rw [hw]
        rcases ih q hq2 hqh (Or.inr hc) (by omega) with ⟨t, ht, hrest⟩ | ⟨p, hp, hs, hrk⟩
        · exact Or.inl ⟨t, ht, hrest⟩
        · exact Or.inr ⟨p, hp, hs, by omega⟩
      · left
        refine ⟨q, ?_, hq1, hq2, ((cmpKey_eq_zero _ _).mp hc).symm⟩
        simp only [walkLevel, hv, he, hcmp, hc]
        simp
      · right
        refine ⟨prev, ?_, ⟨hlt, hh, hbelow, Or.inr ⟨q, hv, ?_⟩⟩, le_refl _⟩
        · simp only [walkLevel, hv, he, hcmp, hc]
          simp
        · unfold KLt
          rw [cmpKey_swap k (keyOf nodes q), hc]


theorem height_node (nodes : List Element) (hinv : Inv nodes) (p : Nat) (h1 : 1 ≤ p)
    (h2 : p < nodes.length) : 1 ≤ heightOf nodes p ∧ heightOf nodes p ≤ 48 := by
  obtain ⟨e, d, he, _, _, hl1, hl2⟩ := hinv.node p h1 h2
  unfold heightOf
  rw [he]
  exact ⟨hl1, hl2⟩

theorem height_head (nodes : List Element) (hinv : Inv nodes) : heightOf nodes 0 = 48 := by
  obtain ⟨he, h0, hl, _⟩ := hinv.head
  unfold heightOf
  rw [h0]
  exact hl

theorem length_pos_of_inv (nodes : List Element) (hinv : Inv nodes) : 0 < nodes.length := by
  obtain ⟨he, h0, _, _⟩ := hinv.head
  exact getElem?_lt _ _ _ h0

theorem stop_zero_absent (nodes : List Element) (hinv : Inv nodes) (k : List Nat) (p : Nat)
    (hs : StopAt nodes k 0 p) :
    ∀ t, 1 ≤ t → t < nodes.length → keyOf nodes t ≠ k := by
  intro t ht1 ht2 hk
  obtain ⟨hp, hh, hb, hnext⟩ := hs
  have hth := (height_node nodes hinv t ht1 ht2).1
  have hbt : Below nodes t p := by
    rcases hb with hb | hb
    · exact Or.inl hb
    · exact Or.inr (by rw [hk]; exact hb)
  obtain ⟨q, hq, hrel⟩ := hinv.cover p 0 t hp hh ht1 ht2 (by omega) hbt
  rcases hnext with hnone | ⟨q1, hq1, hlt⟩
  · rw [hq] at hnone; cases hnone
  · rw [hq] at hq1
    simp only [Option.some.injEq] at hq1
    subst hq1
    rcases hrel with rfl | hrel
    · rw [hk] at hlt
      exact KLt_irrefl _ hlt
    · rw [hk] at hrel
      exact KLt_asymm _ _ hrel hlt

theorem searchLevels_spec (nodes : List Element) (hinv : Inv nodes) (k : List Nat)
    (fuel : Nat) :
    ∀ (cnt prev : Nat), prev < nodes.length → cnt ≤ heightOf nodes prev →
      (prev = 0 ∨ KLt k (keyOf nodes prev)) → rank nodes prev < fuel →
      (cnt = 0 → ∀ t, 1 ≤ t → t < nodes.length → keyOf nodes t ≠ k) →
      ∃ res, searchLevels nodes (calcScore k) k fuel cnt prev = some res ∧
        ((∀ t, 1 ≤ t → t < nodes.length → keyOf nodes t ≠ k) → res = none) ∧
        (∀ t e, 1 ≤ t → nodes[t]? = some e → keyOf nodes t = k → res = e.entry) := by
  intro cnt
  induction cnt with
  | zero =>
    intro prev _ _ _ _ habs
    refine ⟨none, rfl, fun _ => rfl, ?_⟩
    intro t e ht he hk
    exact absurd hk (habs rfl t ht (getElem?_lt _ _ _ he))
  | succ i ih =>
    intro prev hlt hh hb hr _
    rcases walkLevel_spec nodes hinv k i fuel prev hlt (by omega) hb hr with
      ⟨q, hw, hq1, hq2, hqk⟩ | ⟨p, hw, hs, hrk⟩
    · obtain ⟨e, d, he, _, _, _⟩ := node_facts nodes hinv q hq1 hq2 k
      refine ⟨e.entry, ?_, ?_, ?_⟩
      · simp only [searchLevels, hw, he]
      · intro habs
        exact absurd hqk (habs q hq1 hq2)
      · intro t e1 ht he1 hk
        have htq : t = q :=
          hinv.uniq t q ht (getElem?_lt _ _ _ he1) hq1 hq2 (by rw [hk, hqk])
        subst htq
        rw [he] at he1
        simp only [Option.some.injEq] at he1
        rw [he1]
    · have hsw : searchLevels nodes (calcScore k) k fuel (i + 1) prev
          = searchLevels nodes (calcScore k) k fuel i p := by
        simp only [searchLevels, hw]
      rw [hsw]
      have hs1 := hs
      obtain ⟨hp, hph, hpb, _⟩ := hs
      apply ih p hp (by omega) hpb (by omega)
      intro hi0
      subst hi0
      exact stop_zero_absent nodes hinv k p hs1

theorem search_spec (l : SkipList) (hl : ListInv l) (k : List Nat) :
    ∃ res, l.Search k = some res ∧
      ((∀ t, 1 ≤ t → t < l.nodes.length → keyOf l.nodes t ≠ k) → res = none) ∧
      (∀ t e, 1 ≤ t → l.nodes[t]? = some e → keyOf l.nodes t = k → res = e.entry) := by
  unfold SkipList.Search
  rw [hl.hdr, hl.maxl]
  have hpos := length_pos_of_inv l.nodes hl.inv
  exact searchLevels_spec l.nodes hl.inv k l.nodes.length 48 0 hpos
    (by rw [height_head l.nodes hl.inv]) (Or.inl rfl) (rank_lt_length l.nodes 0 hpos)
    (by intro h; omega)

theorem findPrevs_spec (nodes : List Element) (hinv : Inv nodes) (k : List Nat)
    (fuel : Nat) :
    ∀ (cnt prev : Nat) (prevs : List (Option Nat)), prev < nodes.length →
      cnt ≤ heightOf nodes prev → (prev = 0 ∨ KLt k (keyOf nodes prev)) →
      rank nodes prev < fuel →
      (cnt = 0 → ∀ t, 1 ≤ t → t < nodes.length → keyOf nodes t ≠ k) →
      prevs.length = 48 → cnt ≤ 48 →
      (∀ j, cnt ≤ j → j < 48 → ∃ p, prevs[j]? = some (some p) ∧ StopAt nodes k j p) →
      (∃ q, findPrevs nodes (calcScore k) k fuel cnt prev prevs = some (Locate.hit q) ∧
        1 ≤ q ∧ q < nodes.length ∧ keyOf nodes q = k) ∨
      (∃ ps, findPrevs nodes (calcScore k) k fuel cnt prev prevs = some (Locate.miss ps) ∧
        ps.length = 48 ∧
        (∀ j, j < 48 → ∃ p, ps[j]? = some (some p) ∧ StopAt nodes k j p) ∧
        (∀ t, 1 ≤ t → t < nodes.length → keyOf nodes t ≠ k)) := by
  intro cnt
  induction cnt with
  | zero =>
    intro prev prevs _ _ _ _ habs hlen _ hps
    right
    exact ⟨prevs, rfl, hlen, fun j hj => hps j (by omega) hj, habs rfl⟩
  | succ i ih =>
    intro prev prevs hlt hh hb hr _ hlen hcnt hps
    rcases walkLevel_spec nodes hinv k i fuel prev hlt (by omega) hb hr with
      ⟨q, hw, hq1, hq2, hqk⟩ | ⟨p, hw, hs, hrk⟩
    · left
      exact ⟨q, by simp only [findPrevs, hw], hq1, hq2, hqk⟩
    · have hsw : findPrevs nodes (calcScore k) k fuel (i + 1) prev prevs
          = findPrevs nodes (calcScore k) k fuel i p (prevs.set i (some p)) := by
        simp only [findPrevs, hw]
      rw [hsw]
      have hs1 := hs
      obtain ⟨hp, hph, hpb, _⟩ := hs
      apply ih p (prevs.set i (some p)) hp (by omega) hpb (by omega)
      · intro hi0
        subst hi0
        exact stop_zero_absent nodes hinv k p hs1
      · simpa using hlen
      · omega
      · intro j hj1 hj2
        by_cases hji : j = i
        · subst hji
          refine ⟨p, ?_, hs1⟩
          rw [List.getElem?_set]
          simp [hlen, hj2]
        · obtain ⟨p1, hp1, hs2⟩ := hps j (by omega) hj2
          refine ⟨p1, ?_, hs2⟩
          rw [List.getElem?_set]
          rw [if_neg (fun h => hji h.symm)]
          exact hp1


/-! ## Properties of the skip list: the splice -/

theorem shape_refl (h : List Element) : Shape h h :=
  ⟨rfl, fun _ e he => ⟨e, he, rfl, rfl, rfl⟩⟩

theorem shape_trans (h h1 h2 : List Element) (h01 : Shape h h1) (h12 : Shape h1 h2) :
    Shape h h2 := by
  refine ⟨h12.1.trans h01.1, ?_⟩
  intro a e he
  obtain ⟨e1, he1, a1, a2, a3⟩ := h01.2 a e he
  obtain ⟨e2, he2, b1, b2, b3⟩ := h12.2 a e1 he1
  exact ⟨e2, he2, b1.trans a1, b2.trans a2, b3.trans a3⟩

theorem shape_none (h h1 : List Element) (hs : Shape h h1) (a : Nat) (ha : h[a]? = none) :
    h1[a]? = none := by
  rw [List.getElem?_eq_none_iff] at ha ⊢
  rw [hs.1]
  exact ha

theorem shape_keyOf (h h1 : List Element) (hs : Shape h h1) (a : Nat) :
    keyOf h1 a = keyOf h a := by
  unfold keyOf
  cases ha : h[a]? with
  | none => rw [shape_none h h1 hs a ha]
  | some e =>
    obtain ⟨e1, he1, a1, _, _⟩ := hs.2 a e ha
    rw [he1]
    simp only [a1]

theorem shape_heightOf (h h1 : List Element) (hs : Shape h h1) (a : Nat) :
    heightOf h1 a = heightOf h a := by
  unfold heightOf
  cases ha : h[a]? with
  | none => rw [shape_none h h1 hs a ha]
  | some e =>
    obtain ⟨e1, he1, _, _, a3⟩ := hs.2 a e ha
    rw [he1]
    exact a3

theorem setLevel_spec (h : List Element) (p i : Nat) (v : Option Nat)
    (hp : i < heightOf h p) :
    ∃ h1, setLevel h p i v = some h1 ∧ Shape h h1 ∧
      ∀ a j, levelAt h1 a j = if a = p ∧ j = i then some v else levelAt h a j := by
  unfold heightOf at hp
  cases he : h[p]? with
  | none => rw [he] at hp; cases hp
  | some e =>
    rw [he] at hp
    simp only at hp
    have hpl := getElem?_lt _ _ _ he
    refine ⟨h.set p { e with levels := e.levels.set i v }, ?_, ⟨by simp, ?_⟩, ?_⟩
    · unfold setLevel
      rw [he]
      simp only [hp, if_true]
    · intro a e0 ha
      rw [List.getElem?_set]
      by_cases hpa : p = a
      · subst hpa
        rw [he] at ha
        simp only [Option.some.injEq] at ha
        subst ha
        simp [hpl]
      · rw [if_neg hpa]
        exact ⟨e0, ha, rfl, rfl, rfl⟩
    · intro a j
      unfold levelAt
      rw [List.getElem?_set]
      by_cases hpa : p = a
      · subst hpa
        simp only [hpl, if_true, he, true_and]
        rw [List.getElem?_set]
        by_cases hij : i = j
        · subst hij
          simp [hp]
        · rw [if_neg hij, if_neg (fun hh => hij hh.symm)]
      · rw [if_neg hpa, if_neg (fun hh => hpa hh.1.symm)]


theorem splice_spec (ps : List (Option Nat)) (x : Nat) :
    ∀ (cnt : Nat) (h : List Element), cnt ≤ heightOf h x →
      (∀ j, j < cnt → ∃ p, ps[j]? = some (some p) ∧ p ≠ x ∧ j < heightOf h p) →
      ∃ h1, splice ps x cnt h = some h1 ∧ Shape h h1 ∧
        (∀ j p, j < cnt → ps[j]? = some (some p) →
          levelAt h1 x j = levelAt h p j ∧ levelAt h1 p j = some (some x) ∧
          ∀ a, a ≠ x → a ≠ p → levelAt h1 a j = levelAt h a j) ∧
        (∀ j a, cnt ≤ j → levelAt h1 a j = levelAt h a j) := by
  intro cnt
  induction cnt with
  | zero =>
    intro h _ _
    exact ⟨h, rfl, shape_refl h, fun j p hj => by omega, fun _ _ _ => rfl⟩
  | succ i ih =>
    intro h hx hps
    obtain ⟨p, hp, hpx, hph⟩ := hps i (by omega)
    obtain ⟨next, hnext⟩ := levelAt_of_lt h p i hph
    obtain ⟨ha, hsa, hsha, hla⟩ := setLevel_spec h p i (some x) hph
    obtain ⟨hb, hsb, hshb, hlb⟩ := setLevel_spec ha x i next
      (by rw [shape_heightOf h ha hsha]; omega)
    have hshab : Shape h hb := shape_trans h ha hb hsha hshb
    have hlev : ∀ a j, levelAt hb a j =
        if a = x ∧ j = i then some next
        else if a = p ∧ j = i then some (some x) else levelAt h a j := by
      intro a j
      rw [hlb a j, hla a j]
    obtain ⟨h1, hs1, hsh1, hl1, hl2⟩ := ih hb
      (by rw [shape_heightOf h hb hshab]; omega)
      (by
        intro j hj
        obtain ⟨p1, hp1, hp1x, hp1h⟩ := hps j (by omega)
        exact ⟨p1, hp1, hp1x, by rw [shape_heightOf h hb hshab]; exact hp1h⟩)
    refine ⟨h1, ?_, shape_trans h hb h1 hshab hsh1, ?_, ?_⟩
    · simp only [splice, hp, hnext, hsa, hsb]
      exact hs1
    · intro j p1 hj hp1
      by_cases hji : j = i
      · subst hji
        rw [hp] at hp1
        simp only [Option.some.injEq] at hp1
        subst hp1
        refine ⟨?_, ?_, ?_⟩
        · rw [hl2 j x (le_refl _), hlev, if_pos ⟨rfl, rfl⟩, hnext]
        · rw [hl2 j p (le_refl _), hlev, if_neg (fun hh => hpx hh.1), if_pos ⟨rfl, rfl⟩]
        · intro a hax hap
          rw [hl2 j a (le_refl _), hlev, if_neg (fun hh => hax hh.1),
            if_neg (fun hh => hap hh.1)]
      · have hjlt : j < i := by omega
        obtain ⟨g1, g2, g3⟩ := hl1 j p1 hjlt hp1
        refine ⟨?_, g2, ?_⟩
        · rw [g1, hlev, if_neg (fun hh => hji hh.2), if_neg (fun hh => hji hh.2)]
        · intro a hax hap
          rw [g3 a hax hap, hlev, if_neg (fun hh => hji hh.2), if_neg (fun hh => hji hh.2)]
    · intro j a hj
      have hji : j ≠ i := by omega
      rw [hl2 j a (by omega), hlev, if_neg (fun hh => hji hh.2), if_neg (fun hh => hji hh.2)]


theorem append_getElem?_old (nodes : List Element) (ex : Element) (a : Nat)
    (ha : a < nodes.length) : (nodes ++ [ex])[a]? = nodes[a]? := by
  rw [List.getElem?_append_left ha]

theorem append_getElem?_new (nodes : List Element) (ex : Element) :
    (nodes ++ [ex])[nodes.length]? = some ex := by
  rw [List.getElem?_append_right (le_refl _)]
  simp

theorem append_levelAt_old (nodes : List Element) (ex : Element) (a j : Nat)
    (ha : a < nodes.length) : levelAt (nodes ++ [ex]) a j = levelAt nodes a j := by
  unfold levelAt
  rw [append_getElem?_old nodes ex a ha]

theorem append_heightOf_old (nodes : List Element) (ex : Element) (a : Nat)
    (ha : a < nodes.length) : heightOf (nodes ++ [ex]) a = heightOf nodes a := by
  unfold heightOf
  rw [append_getElem?_old nodes ex a ha]

theorem append_heightOf_new (nodes : List Element) (ex : Element) :
    heightOf (nodes ++ [ex]) nodes.length = ex.levels.length := by
  unfold heightOf
  rw [append_getElem?_new]

theorem splice_inserted (nodes : List Element) (data : Entry) (r : Nat)
    (ps : List (Option Nat))
    (hps : ∀ j, j ≤ r → ∃ p, ps[j]? = some (some p) ∧ p < nodes.length ∧ j < heightOf nodes p) :
    ∃ h1, splice ps nodes.length (r + 1)
        (nodes ++ [newElement (calcScore data.Key) data r]) = some h1 ∧
      Inserted nodes data r ps h1 := by
  have hnewlen : (newElement (calcScore data.Key) data r).levels.length = r + 1 := by
    simp [newElement]
  obtain ⟨h1, hs, hsh, hlow, hhigh⟩ := splice_spec ps nodes.length (r + 1)
    (nodes ++ [newElement (calcScore data.Key) data r])
    (by rw [append_heightOf_new, hnewlen])
    (by
      intro j hj
      obtain ⟨p, hp, hpl, hph⟩ := hps j (by omega)
      exact ⟨p, hp, by omega, by rw [append_heightOf_old _ _ _ hpl]; exact hph⟩)
  refine ⟨h1, hs, ⟨by rw [hsh.1]; simp, ?_, ?_, ?_, ?_⟩⟩
  · intro a e he
    have ha := getElem?_lt _ _ _ he
    exact hsh.2 a e (by rw [append_getElem?_old _ _ _ ha]; exact he)
  · obtain ⟨e1, he1, a1, a2, a3⟩ := hsh.2 nodes.length _ (append_getElem?_new nodes _)
    exact ⟨e1, he1, a1, a2, by rw [a3, hnewlen]⟩
  · intro j p hj hp
    obtain ⟨p1, hp1, hpl, _⟩ := hps j hj
    rw [hp] at hp1
    simp only [Option.some.injEq] at hp1
    subst hp1
    obtain ⟨g1, g2, g3⟩ := hlow j p (by omega) hp
    refine ⟨by rw [g1, append_levelAt_old _ _ _ _ hpl], g2, ?_⟩
    intro a ha hap
    rw [g3 a (by omega) hap, append_levelAt_old _ _ _ _ ha]
  · intro j a hj ha
    rw [hhigh j a (by omega), append_levelAt_old _ _ _ _ ha]


/-! ## Properties of the skip list: insertion keeps the invariant -/

theorem stop_cover (nodes : List Element) (hinv : Inv nodes) (k : List Nat) (i p : Nat)
    (hs : StopAt nodes k i p) (rr : Nat) (h1 : 1 ≤ rr) (h2 : rr < nodes.length)
    (hh : i < heightOf nodes rr) (hb : Below nodes rr p) : KLt (keyOf nodes rr) k := by
  obtain ⟨hp, hph, _, hnext⟩ := hs
  obtain ⟨q, hq, hrel⟩ := hinv.cover p i rr hp hph h1 h2 hh hb
  rcases hnext with hnone | ⟨q1, hq1, hlt⟩
  · rw [hq] at hnone; cases hnone
  · rw [hq] at hq1
    simp only [Option.some.injEq] at hq1
    subst hq1
    rcases hrel with rfl | hrel
    · exact hlt
    · exact KLt_trans _ _ _ hrel hlt

theorem stop_closest (nodes : List Element) (hinv : Inv nodes) (k : List Nat) (i pi : Nat)
    (hs : StopAt nodes k i pi) (p : Nat) (hp : p < nodes.length)
    (hph : i < heightOf nodes p) (hpk : p = 0 ∨ KLt k (keyOf nodes p)) (hne : p ≠ pi) :
    ∃ q, levelAt nodes p i = some (some q) ∧ KLt k (keyOf nodes q) := by
  have hs1 := hs
  obtain ⟨hpi, hpih, hpik, _⟩ := hs
  by_cases hpi0 : pi = 0
  · have hp0 : p ≠ 0 := by omega
    have hkp : KLt k (keyOf nodes p) := by
      rcases hpk with h | h
      · exact absurd h hp0
      · exact h
    have := stop_cover nodes hinv k i pi hs1 p (by omega) hp hph (Or.inl hpi0)
    exact absurd this (KLt_asymm _ _ hkp)
  · have hkpi : KLt k (keyOf nodes pi) := by
      rcases hpik with h | h
      · exact absurd h hpi0
      · exact h
    have hfromcover : Below nodes pi p →
        ∃ q, levelAt nodes p i = some (some q) ∧ KLt k (keyOf nodes q) := by
      intro hb
      obtain ⟨q, hq, hrel⟩ := hinv.cover p i pi hp hph (by omega) hpi hpih hb
      refine ⟨q, hq, ?_⟩
      rcases hrel with rfl | hrel
      · exact hkpi
      · exact KLt_trans _ _ _ hkpi hrel
    by_cases hp0 : p = 0
    · exact hfromcover (Or.inl hp0)
    · have hkp : KLt k (keyOf nodes p) := by
        rcases hpk with h | h
        · exact absurd h hp0
        · exact h
      rcases KLt_trichotomy (keyOf nodes p) (keyOf nodes pi) with h | h | h
      · have := stop_cover nodes hinv k i pi hs1 p (by omega) hp hph (Or.inr h)
        exact absurd this (KLt_asymm _ _ hkp)
      · exact absurd (hinv.uniq p pi (by omega) hp (by omega) hpi h) hne
      · exact hfromcover (Or.inr h)

theorem inserted_keyOf_old (nodes : List Element) (data : Entry) (r : Nat)
    (ps : List (Option Nat)) (h1 : List Element) (hins : Inserted nodes data r ps h1)
    (a : Nat) (ha : a < nodes.length) : keyOf h1 a = keyOf nodes a := by
  obtain ⟨e1, he1, a1, _, _⟩ := hins.old a nodes[a] (List.getElem?_eq_getElem ha)
  unfold keyOf
  rw [he1, List.getElem?_eq_getElem ha]
  simp only [a1]

theorem inserted_heightOf_old (nodes : List Element) (data : Entry) (r : Nat)
    (ps : List (Option Nat)) (h1 : List Element) (hins : Inserted nodes data r ps h1)
    (a : Nat) (ha : a < nodes.length) : heightOf h1 a = heightOf nodes a := by
  obtain ⟨e1, he1, _, _, a3⟩ := hins.old a nodes[a] (List.getElem?_eq_getElem ha)
  unfold heightOf
  rw [he1, List.getElem?_eq_getElem ha]
  exact a3

theorem inserted_keyOf_new (nodes : List Element) (data : Entry) (r : Nat)
    (ps : List (Option Nat)) (h1 : List Element) (hins : Inserted nodes data r ps h1) :
    keyOf h1 nodes.length = data.Key := by
  obtain ⟨ex, hex, a1, _, _⟩ := hins.new
  unfold keyOf
  rw [hex]
  simp only [a1]

theorem inserted_heightOf_new (nodes : List Element) (data : Entry) (r : Nat)
    (ps : List (Option Nat)) (h1 : List Element) (hins : Inserted nodes data r ps h1) :
    heightOf h1 nodes.length = r + 1 := by
  obtain ⟨ex, hex, _, _, a3⟩ := hins.new
  unfold heightOf
  rw [hex]
  exact a3

theorem inserted_levelAt_other (nodes : List Element) (data : Entry) (r : Nat)
    (ps : List (Option Nat)) (h1 : List Element) (hins : Inserted nodes data r ps h1)
    (hps : ∀ j, j ≤ r → ∃ p, ps[j]? = some (some p))
    (a i : Nat) (ha : a < nodes.length) (hne : ¬ (i ≤ r ∧ ps[i]? = some (some a))) :
    levelAt h1 a i = levelAt nodes a i := by
  by_cases hi : i ≤ r
  · obtain ⟨p, hp⟩ := hps i hi
    have hap : a ≠ p := by
      intro h
      subst h
      exact hne ⟨hi, hp⟩
    exact (hins.low i p hi hp).2.2 a ha hap
  · exact hins.high i a (by omega) ha


theorem inserted_inv (nodes : List Element) (hinv : Inv nodes) (data : Entry) (r : Nat)
    (ps : List (Option Nat)) (h1 : List Element) (hins : Inserted nodes data r ps h1)
    (hr1 : 1 ≤ r) (hr2 : r ≤ 47)
    (hps : ∀ j, j < 48 → ∃ p, ps[j]? = some (some p) ∧ StopAt nodes data.Key j p)
    (habs : ∀ t, 1 ≤ t → t < nodes.length → keyOf nodes t ≠ data.Key) : Inv h1 := by
  have hpos := length_pos_of_inv nodes hinv
  have hlen := hins.len
  have hK := inserted_keyOf_old nodes data r ps h1 hins
  have hKn := inserted_keyOf_new nodes data r ps h1 hins
  have hH := inserted_heightOf_old nodes data r ps h1 hins
  have hHn := inserted_heightOf_new nodes data r ps h1 hins
  have hps1 : ∀ j, j ≤ r → ∃ p, ps[j]? = some (some p) := by
    intro j hj
    obtain ⟨p, hp, _⟩ := hps j (by omega)
    exact ⟨p, hp⟩
  have hother := inserted_levelAt_other nodes data r ps h1 hins hps1
  refine ⟨?_, ?_, ?_, ?_, ?_⟩
  · -- head
    obtain ⟨he, h0, hl, hent⟩ := hinv.head
    obtain ⟨e1, he1, a1, _, a3⟩ := hins.old 0 he h0
    exact ⟨e1, he1, by rw [a3, hl], by rw [a1, hent]⟩
  · -- node
    intro p hp1 hp2
    by_cases hpn : p < nodes.length
    · obtain ⟨e, d, he, hd, hs, hl1, hl2⟩ := hinv.node p hp1 hpn
      obtain ⟨e1, he1, a1, a2, a3⟩ := hins.old p e he
      exact ⟨e1, d, he1, by rw [a1, hd], by rw [a2, hs], by rw [a3]; exact hl1,
        by rw [a3]; exact hl2⟩
    · have hpe : p = nodes.length := by omega
      subst hpe
      obtain ⟨ex, hex, a1, a2, a3⟩ := hins.new
      exact ⟨ex, data, hex, a1, a2, by omega, by omega⟩
  · -- uniq
    intro p q hp1 hp2 hq1 hq2 hk
    by_cases hpn : p < nodes.length
    · by_cases hqn : q < nodes.length
      · rw [hK p hpn, hK q hqn] at hk
        exact hinv.uniq p q hp1 hpn hq1 hqn hk
      · have hqe : q = nodes.length := by omega
        subst hqe
        rw [hK p hpn, hKn] at hk
        exact absurd hk (habs p hp1 hpn)
    · have hpe : p = nodes.length := by omega
      subst hpe
      by_cases hqn : q < nodes.length
      · rw [hK q hqn, hKn] at hk
        exact absurd hk.symm (habs q hq1 hqn)
      · omega
  · -- ptr
    intro p i q hlev
    obtain ⟨hp2, hpi⟩ := levelAt_some h1 p i _ hlev
    by_cases hpn : p < nodes.length
    · by_cases hc : i ≤ r ∧ ps[i]? = some (some p)
      · obtain ⟨hi, hpp⟩ := hc
        rw [(hins.low i p hi hpp).2.1] at hlev
        simp only [Option.some.injEq] at hlev
        subst hlev
        refine ⟨by omega, by omega, by rw [hHn]; omega, ?_⟩
        intro hp0
        obtain ⟨p1, hp1, hs⟩ := hps i (by omega)
        rw [hpp] at hp1
        simp only [Option.some.injEq] at hp1
        subst hp1
        rw [hKn, hK p hpn]
        rcases hs.2.2.1 with h | h
        · exact absurd h hp0
        · exact h
      · rw [hother p i hpn hc] at hlev
        obtain ⟨g1, g2, g3, g4⟩ := hinv.ptr p i q hlev
        refine ⟨g1, by omega, by rw [hH q g2]; exact g3, ?_⟩
        intro hp0
        rw [hK q g2, hK p hpn]
        exact g4 hp0
    · have hpe : p = nodes.length := by omega
      subst hpe
      rw [hHn] at hpi
      obtain ⟨p1, hp1, hs⟩ := hps i (by omega)
      rw [(hins.low i p1 (by omega) hp1).1] at hlev
      obtain ⟨g1, g2, g3, _⟩ := hinv.ptr p1 i q hlev
      refine ⟨g1, by omega, by rw [hH q g2]; exact g3, ?_⟩
      intro _
      rw [hK q g2, hKn]
      rcases hs.2.2.2 with h | ⟨q1, hq1, hlt⟩
      · rw [hlev] at h; cases h
      · rw [hlev] at hq1
        simp only [Option.some.injEq] at hq1
        subst hq1
        exact hlt
  · -- cover
    intro p i rr hp2 hpi hrr1 hrr2 hrri hb
    by_cases hpn : p < nodes.length
    · rw [hH p hpn] at hpi
      by_cases hrn : rr < nodes.length
      · rw [hH rr hrn] at hrri
        have hb1 : Below nodes rr p := by
          rcases hb with h | h
          · exact Or.inl h
          · exact Or.inr (by rw [hK rr hrn, hK p hpn] at h; exact h)
        by_cases hc : i ≤ r ∧ ps[i]? = some (some p)
        · obtain ⟨hi, hpp⟩ := hc
          refine ⟨nodes.length, (hins.low i p hi hpp).2.1, Or.inr ?_⟩
          obtain ⟨p1, hp1, hs⟩ := hps i (by omega)
          rw [hpp] at hp1
          simp only [Option.some.injEq] at hp1
          subst hp1
          rw [hK rr hrn, hKn]
          exact stop_cover nodes hinv data.Key i p hs rr hrr1 hrn hrri hb1
        · rw [hother p i hpn hc]
          obtain ⟨q, hq, hrel⟩ := hinv.cover p i rr hpn hpi hrr1 hrn hrri hb1
          obtain ⟨_, g2, _, _⟩ := hinv.ptr p i q hq
          refine ⟨q, hq, ?_⟩
          rcases hrel with h | h
          · exact Or.inl h
          · exact Or.inr (by rw [hK rr hrn, hK q g2]; exact h)
      · have hre : rr = nodes.length := by omega
        subst hre
        rw [hHn] at hrri
        have hpk : p = 0 ∨ KLt data.Key (keyOf nodes p) := by
          rcases hb with h | h
          · exact Or.inl h
          · exact Or.inr (by rw [hKn, hK p hpn] at h; exact h)
        obtain ⟨p1, hp1, hs⟩ := hps i (by omega)
        by_cases hpp : p = p1
        · subst hpp
          exact ⟨nodes.length, (hins.low i p (by omega) hp1).2.1, Or.inl rfl⟩
        · have hc : ¬ (i ≤ r ∧ ps[i]? = some (some p)) := by
            rintro ⟨_, h⟩
            rw [hp1] at h
            simp only [Option.some.injEq] at h
            exact hpp h.symm
          rw [hother p i hpn hc]
          obtain ⟨q, hq, hlt⟩ := stop_closest nodes hinv data.Key i p1 hs p hpn hpi hpk hpp
          obtain ⟨_, g2, _, _⟩ := hinv.ptr p i q hq
          exact ⟨q, hq, Or.inr (by rw [hKn, hK q g2]; exact hlt)⟩
    · have hpe : p = nodes.length := by omega
      subst hpe
      rw [hHn] at hpi
      have hlt : KLt (keyOf h1 rr) data.Key := by
        rcases hb with h | h
        · omega
        · rw [hKn] at h; exact h
      have hrn : rr < nodes.length := by
        by_contra hcon
        have hre : rr = nodes.length := by omega
        subst hre
        rw [hKn] at hlt
        exact KLt_irrefl _ hlt
      rw [hK rr hrn] at hlt
      rw [hH rr hrn] at hrri
      obtain ⟨p1, hp1, hs⟩ := hps i (by omega)
      have hb1 : Below nodes rr p1 := by
        rcases hs.2.2.1 with h | h
        · exact Or.inl h
        · exact Or.inr (KLt_trans _ _ _ hlt h)
      obtain ⟨q, hq, hrel⟩ := hinv.cover p1 i rr hs.1 hs.2.1 hrr1 hrn hrri hb1
      obtain ⟨_, g2, _, _⟩ := hinv.ptr p1 i q hq
      refine ⟨q, by rw [(hins.low i p1 (by omega) hp1).1]; exact hq, ?_⟩
      rcases hrel with h | h
      · exact Or.inl h
      · exact Or.inr (by rw [hK rr hrn, hK q g2]; exact h)


/-! ## Properties of the skip list: `Add` -/

theorem randLevelFrom_bounds (M : Nat) (coins : Nat → Nat) :
    ∀ (n level : Nat), 1 ≤ level → level ≤ M →
      1 ≤ randLevelFrom M coins n level ∧ randLevelFrom M coins n level ≤ M := by
  intro n
  induction n with
  | zero => intro level h1 h2; simp only [randLevelFrom]; omega
  | succ n ih =>
    intro level h1 h2
    simp only [randLevelFrom]
    split
    · split
      · omega
      · exact ih (level + 1) (by omega) (by omega)
    · omega

theorem randLevel_bounds (l : SkipList) (coins : Nat → Nat) (h : 1 ≤ l.maxLevel) :
    1 ≤ l.randLevel coins ∧ l.randLevel coins ≤ l.maxLevel :=
  randLevelFrom_bounds l.maxLevel coins l.maxLevel 1 (le_refl _) h

theorem set_entry_levelAt (nodes : List Element) (q : Nat) (e : Element) (x : Option Entry)
    (he : nodes[q]? = some e) (a j : Nat) :
    levelAt (nodes.set q { e with entry := x }) a j = levelAt nodes a j := by
  have hq := getElem?_lt _ _ _ he
  unfold levelAt
  rw [List.getElem?_set]
  by_cases hqa : q = a
  · subst hqa
    simp [hq, he]
  · rw [if_neg hqa]

theorem set_entry_heightOf (nodes : List Element) (q : Nat) (e : Element) (x : Option Entry)
    (he : nodes[q]? = some e) (a : Nat) :
    heightOf (nodes.set q { e with entry := x }) a = heightOf nodes a := by
  have hq := getElem?_lt _ _ _ he
  unfold heightOf
  rw [List.getElem?_set]
  by_cases hqa : q = a
  · subst hqa
    simp [hq, he]
  · rw [if_neg hqa]

theorem set_entry_keyOf (nodes : List Element) (q : Nat) (e : Element) (data : Entry)
    (he : nodes[q]? = some e) (hk : keyOf nodes q = data.Key) (a : Nat) :
    keyOf (nodes.set q { e with entry := some data }) a = keyOf nodes a := by
  have hq := getElem?_lt _ _ _ he
  by_cases hqa : q = a
  · subst hqa
    rw [hk]
    unfold keyOf
    rw [List.getElem?_set]
    simp [hq]
  · unfold keyOf
    rw [List.getElem?_set, if_neg hqa]

theorem updated_inv (nodes : List Element) (hinv : Inv nodes) (q : Nat) (e : Element)
    (data : Entry) (hq1 : 1 ≤ q) (he : nodes[q]? = some e)
    (hk : keyOf nodes q = data.Key) :
    Inv (nodes.set q { e with entry := some data }) := by
  have hq := getElem?_lt _ _ _ he
  have hL := set_entry_levelAt nodes q e (some data) he
  have hH := set_entry_heightOf nodes q e (some data) he
  have hK := set_entry_keyOf nodes q e data he hk
  refine ⟨?_, ?_, ?_, ?_, ?_⟩
  · obtain ⟨h0, hh0, hl, hent⟩ := hinv.head
    refine ⟨h0, ?_, hl, hent⟩
    rw [List.getElem?_set, if_neg (by omega)]
    exact hh0
  · intro p hp1 hp2
    simp only [List.length_set] at hp2
    obtain ⟨e0, d, he0, hd, hs, hl1, hl2⟩ := hinv.node p hp1 hp2
    by_cases hqp : q = p
    · subst hqp
      rw [he] at he0
      simp only [Option.some.injEq] at he0
      subst he0
      refine ⟨{ e with entry := some data }, data, ?_, rfl, ?_, hl1, hl2⟩
      · rw [List.getElem?_set]; simp [hq]
      · have hkd : keyOf nodes q = d.Key := by
          unfold keyOf; rw [he]; simp only [hd]
        simp only
        rw [hs, ← hkd, hk]
    · refine ⟨e0, d, ?_, hd, hs, hl1, hl2⟩
      rw [List.getElem?_set, if_neg hqp]
      exact he0
  · intro p r hp1 hp2 hr1 hr2 hkk
    simp only [List.length_set] at hp2 hr2
    rw [hK, hK] at hkk
    exact hinv.uniq p r hp1 hp2 hr1 hr2 hkk
  · intro p i r hlev
    rw [hL] at hlev
    obtain ⟨g1, g2, g3, g4⟩ := hinv.ptr p i r hlev
    refine ⟨g1, by simpa using g2, by rw [hH]; exact g3, ?_⟩
    rw [hK, hK]
    exact g4
  · intro p i r hp hpi hr1 hr2 hri hb
    simp only [List.length_set] at hp hr2
    rw [hH] at hpi hri
    have hb1 : Below nodes r p := by
      unfold Below at hb ⊢
      rw [hK, hK] at hb
      exact hb
    obtain ⟨t, ht, hrel⟩ := hinv.cover p i r hp hpi hr1 hr2 hri hb1
    refine ⟨t, by rw [hL]; exact ht, ?_⟩
    rw [hK, hK]
    exact hrel


theorem add_spec (l : SkipList) (hl : ListInv l) (data : Entry) (coins : Nat → Nat) :
    (∃ q e, 1 ≤ q ∧ l.nodes[q]? = some e ∧ keyOf l.nodes q = data.Key ∧
      l.Add data coins
        = some { l with nodes := l.nodes.set q { e with entry := some data } }) ∨
    ((∀ t, 1 ≤ t → t < l.nodes.length → keyOf l.nodes t ≠ data.Key) ∧
      ∃ ps h1, l.Add data coins = some { l with nodes := h1 } ∧
        Inserted l.nodes data (l.randLevel coins) ps h1 ∧
        (∀ j, j < 48 → ∃ p, ps[j]? = some (some p) ∧ StopAt l.nodes data.Key j p)) := by
  have hpos := length_pos_of_inv l.nodes hl.inv
  have h48 : l.maxLevel + 1 = 48 := by rw [hl.maxl]
  have hrl := randLevel_bounds l coins (by rw [hl.maxl]; decide)
  rw [hl.maxl] at hrl
  rcases findPrevs_spec l.nodes hl.inv data.Key l.nodes.length 48 0
      (List.replicate 48 none) hpos (by rw [height_head l.nodes hl.inv]) (Or.inl rfl)
      (rank_lt_length l.nodes 0 hpos) (by intro h; omega) (by simp) (le_refl _)
      (by intro j h1 h2; omega) with
    ⟨q, hf, hq1, hq2, hqk⟩ | ⟨ps, hf, hlen, hps, habs⟩
  · left
    obtain ⟨e, d, he, _, _, _⟩ := node_facts l.nodes hl.inv q hq1 hq2 data.Key
    refine ⟨q, e, hq1, he, hqk, ?_⟩
    unfold SkipList.Add
    simp only [h48, hl.hdr, hf, he]
  · right
    refine ⟨habs, ?_⟩
    obtain ⟨h1, hs, hins⟩ := splice_inserted l.nodes data (l.randLevel coins) ps
      (by
        intro j hj
        obtain ⟨p, hp, hst⟩ := hps j (by omega)
        exact ⟨p, hp, hst.1, hst.2.1⟩)
    refine ⟨ps, h1, ?_, hins, hps⟩
    unfold SkipList.Add
    simp only [h48, hl.hdr, hf, hs]

theorem add_inv (l l1 : SkipList) (hl : ListInv l) (data : Entry) (coins : Nat → Nat)
    (hadd : l.Add data coins = some l1) : ListInv l1 := by
  have hrl := randLevel_bounds l coins (by rw [hl.maxl]; decide)
  rw [hl.maxl] at hrl
  rcases add_spec l hl data coins with ⟨q, e, hq1, he, hqk, hres⟩ | ⟨habs, ps, h1, hres, hins, hps⟩
  · rw [hres] at hadd
    simp only [Option.some.injEq] at hadd
    subst hadd
    exact ⟨hl.hdr, hl.maxl, updated_inv l.nodes hl.inv q e data hq1 he hqk⟩
  · rw [hres] at hadd
    simp only [Option.some.injEq] at hadd
    subst hadd
    exact ⟨hl.hdr, hl.maxl,
      inserted_inv l.nodes hl.inv data _ ps h1 hins hrl.1 hrl.2 hps habs⟩

theorem newSkipList_inv : ListInv NewSkipList := by
  refine ⟨rfl, rfl, ?_, ?_, ?_, ?_, ?_⟩
  · exact ⟨{ levels := List.replicate defaultMaxLevel none, entry := none, score := 0 },
      rfl, rfl, rfl⟩
  · intro p h1 h2
    simp [NewSkipList] at h2
    omega
  · intro p q h1 h2
    simp [NewSkipList] at h2
    omega
  · intro p i q h
    obtain ⟨hp, hi⟩ := levelAt_some _ _ _ _ h
    simp only [NewSkipList, List.length_singleton, Nat.lt_one_iff] at hp
    subst hp
    simp only [levelAt, NewSkipList, List.getElem?_cons_zero] at h
    rw [List.getElem?_replicate] at h
    split at h <;> simp at h
  · intro p i r _ _ h1 h2
    simp [NewSkipList] at h2
    omega

theorem built_inv (l : SkipList) (es : List Entry) (h : Built l es) : ListInv l := by
  induction h with
  | new => exact newSkipList_inv
  | add l l1 es e coins _ hadd ih => exact add_inv l l1 ih e coins hadd


/-! ## Properties of the skip list: the level-0 traversal -/

theorem entryOf_key (nodes : List Element) (t : Nat) (d : Entry)
    (h : entryOf nodes t = some d) : keyOf nodes t = d.Key := by
  unfold entryOf at h
  unfold keyOf
  cases ht : nodes[t]? with
  | none => rw [ht] at h; cases h
  | some e =>
    rw [ht] at h
    simp only at h
    simp only [h]

theorem height_any (nodes : List Element) (hinv : Inv nodes) (p : Nat)
    (hp : p < nodes.length) : 1 ≤ heightOf nodes p := by
  by_cases h0 : p = 0
  · subst h0; rw [height_head nodes hinv]; decide
  · exact (height_node nodes hinv p (by omega) hp).1

theorem level0Walk_spec (nodes : List Element) (hinv : Inv nodes) :
    ∀ (fuel cur : Nat), cur < nodes.length → rank nodes cur < fuel →
      ∃ ents, level0Walk nodes fuel cur = some ents ∧
        ents.Pairwise (fun a b => KLt b.Key a.Key) ∧
        (∀ a, a ∈ ents → cur ≠ 0 → KLt a.Key (keyOf nodes cur)) ∧
        (∀ d, d ∈ ents ↔
          ∃ t, 1 ≤ t ∧ t < nodes.length ∧ Below nodes t cur ∧ entryOf nodes t = some d) := by
  intro fuel
  induction fuel with
  | zero => intro cur _ h; omega
  | succ fuel ih =>
    intro cur hcur hrank
    have hh := height_any nodes hinv cur hcur
    obtain ⟨v, hv⟩ := levelAt_of_lt nodes cur 0 (by omega)
    cases v with
    | none =>
      refine ⟨[], by simp only [level0Walk, hv], List.Pairwise.nil, ?_, ?_⟩
      · intro a ha; cases ha
      · intro d
        constructor
        · intro hd; cases hd
        · rintro ⟨t, ht1, ht2, hb, _⟩
          obtain ⟨q, hq, _⟩ := hinv.cover cur 0 t hcur (by omega) ht1 ht2
            (by have := height_any nodes hinv t ht2; omega) hb
          rw [hv] at hq; cases hq
    | some q =>
      obtain ⟨hq1, hq2, hqh, hqk⟩ := hinv.ptr cur 0 q hv
      obtain ⟨e, d, he, hd, hkd, _⟩ := node_facts nodes hinv q hq1 hq2 []
      have hqb : Below nodes q cur := by
        by_cases h0 : cur = 0
        · exact Or.inl h0
        · exact Or.inr (hqk h0)
      have hrq := rank_lt nodes cur q hq1 hq2 hqb
      obtain ⟨rest, hrest, hpw, hub, hmem⟩ := ih q hq2 (by omega)
      have hq0 : q ≠ 0 := by omega
      have hent : entryOf nodes q = some d := by
        unfold entryOf; rw [he]; exact hd
      refine ⟨d :: rest, ?_, ?_, ?_, ?_⟩
      · simp only [level0Walk, hv, he, hd, hrest]
      · refine List.Pairwise.cons ?_ hpw
        intro a ha
        rw [← hkd]
        exact hub a ha hq0
      · intro a ha hcur0
        rcases List.mem_cons.mp ha with rfl | ha
        · rw [← hkd]; exact hqk hcur0
        · exact KLt_trans _ _ _ (hub a ha hq0) (hqk hcur0)
      · intro d1
        constructor
        · intro hd1
          rcases List.mem_cons.mp hd1 with rfl | hd1
          · exact ⟨q, hq1, hq2, hqb, hent⟩
          · obtain ⟨t, ht1, ht2, hb, hte⟩ := (hmem d1).mp hd1
            refine ⟨t, ht1, ht2, ?_, hte⟩
            rcases hb with hb | hb
            · exact absurd hb hq0
            · rcases hqb with h | h
              · exact Or.inl h
              · exact Or.inr (KLt_trans _ _ _ hb h)
        · rintro ⟨t, ht1, ht2, hb, hte⟩
          obtain ⟨q1, hq1e, hrel⟩ := hinv.cover cur 0 t hcur (by omega) ht1 ht2
            (by have := height_any nodes hinv t ht2; omega) hb
          rw [hv] at hq1e
          simp only [Option.some.injEq] at hq1e
          subst hq1e
          rcases hrel with rfl | hrel
          · rw [hent] at hte
            simp only [Option.some.injEq] at hte
            rw [hte]
            exact List.mem_cons_self _ _
          · exact List.mem_cons_of_mem _ ((hmem d1).mpr ⟨t, ht1, ht2, Or.inr hrel, hte⟩)

theorem level0_spec (l : SkipList) (hl : ListInv l) :
    ∃ ents, l.level0 = some ents ∧
      ents.Pairwise (fun a b => KLt b.Key a.Key) ∧
      (∀ d, d ∈ ents ↔ ∃ t, 1 ≤ t ∧ t < l.nodes.length ∧ entryOf l.nodes t = some d) := by
  have hpos := length_pos_of_inv l.nodes hl.inv
  obtain ⟨ents, h1, h2, _, h4⟩ := level0Walk_spec l.nodes hl.inv l.nodes.length 0 hpos
    (rank_lt_length l.nodes 0 hpos)
  refine ⟨ents, by unfold SkipList.level0; rw [hl.hdr]; exact h1, h2, ?_⟩
  intro d
  rw [h4 d]
  constructor
  · rintro ⟨t, a, b, _, c⟩; exact ⟨t, a, b, c⟩
  · rintro ⟨t, a, b, c⟩; exact ⟨t, a, b, Or.inl rfl, c⟩


/-! ## Properties of the skip list: the keys held after a sequence of `Add` -/

theorem add_total (l : SkipList) (hl : ListInv l) (e : Entry) (coins : Nat → Nat) :
    ∃ l1, l.Add e coins = some l1 := by
  rcases add_spec l hl e coins with ⟨q, n0, _, _, _, h⟩ | ⟨_, ps, h1, h, _, _⟩
  · exact ⟨_, h⟩
  · exact ⟨_, h⟩

theorem add_keys (l l1 : SkipList) (hl : ListInv l) (e : Entry) (coins : Nat → Nat)
    (hadd : l.Add e coins = some l1) :
    (∀ t, 1 ≤ t → t < l1.nodes.length →
      keyOf l1.nodes t = e.Key ∨ (t < l.nodes.length ∧ keyOf l1.nodes t = keyOf l.nodes t)) ∧
    (∃ t, 1 ≤ t ∧ t < l1.nodes.length ∧ keyOf l1.nodes t = e.Key ∧
      entryOf l1.nodes t = some e) ∧
    (∀ t, t < l.nodes.length → t < l1.nodes.length ∧ keyOf l1.nodes t = keyOf l.nodes t) := by
  rcases add_spec l hl e coins with ⟨q, n0, hq1, hn0, hqk, hres⟩ | ⟨habs, ps, h1, hres, hins, hps⟩
  · rw [hres] at hadd
    simp only [Option.some.injEq] at hadd
    subst hadd
    have hq2 := getElem?_lt _ _ _ hn0
    have hK := set_entry_keyOf l.nodes q n0 e hn0 hqk
    refine ⟨?_, ?_, ?_⟩
    · intro t _ ht2
      simp only [List.length_set] at ht2
      exact Or.inr ⟨ht2, hK t⟩
    · refine ⟨q, hq1, by simpa using hq2, by rw [hK q]; exact hqk, ?_⟩
      unfold entryOf
      simp only
      rw [List.getElem?_set]
      simp [hq2]
    · intro t ht
      exact ⟨by simpa using ht, hK t⟩
  · rw [hres] at hadd
    simp only [Option.some.injEq] at hadd
    subst hadd
    have hpos := length_pos_of_inv l.nodes hl.inv
    have hlen := hins.len
    have hK := inserted_keyOf_old l.nodes e _ ps h1 hins
    have hKn := inserted_keyOf_new l.nodes e _ ps h1 hins
    refine ⟨?_, ?_, ?_⟩
    · intro t _ ht2
      simp only at ht2
      by_cases htn : t < l.nodes.length
      · exact Or.inr ⟨htn, hK t htn⟩
      · have hte : t = l.nodes.length := by omega
        subst hte
        exact Or.inl hKn
    · refine ⟨l.nodes.length, by omega, by simp only; omega, hKn, ?_⟩
      obtain ⟨ex, hex, a1, _, _⟩ := hins.new
      unfold entryOf
      simp only
      rw [hex]
      exact a1
    · intro t ht
      exact ⟨by simp only; omega, hK t ht⟩

theorem built_keys_sub (l : SkipList) (es : List Entry) (h : Built l es) :
    ∀ t, 1 ≤ t → t < l.nodes.length → ∃ e, e ∈ es ∧ e.Key = keyOf l.nodes t := by
  induction h with
  | new =>
    intro t h1 h2
    simp [NewSkipList] at h2
    omega
  | add l l1 es e coins hb hadd ih =>
    intro t h1 h2
    obtain ⟨g1, _, _⟩ := add_keys l l1 (built_inv l es hb) e coins hadd
    rcases g1 t h1 h2 with hk | ⟨hlt, hk⟩
    · exact ⟨e, List.mem_cons_self _ _, hk.symm⟩
    · obtain ⟨e0, he0, hk0⟩ := ih t h1 hlt
      exact ⟨e0, List.mem_cons_of_mem _ he0, by rw [hk0, hk]⟩

theorem built_keys_sup (l : SkipList) (es : List Entry) (h : Built l es) :
    ∀ e, e ∈ es → ∃ t, 1 ≤ t ∧ t < l.nodes.length ∧ keyOf l.nodes t = e.Key := by
  induction h with
  | new => intro e he; cases he
  | add l l1 es e coins hb hadd ih =>
    intro e0 he0
    obtain ⟨_, ⟨t, ht1, ht2, htk, _⟩, g3⟩ := add_keys l l1 (built_inv l es hb) e coins hadd
    rcases List.mem_cons.mp he0 with rfl | he0
    · exact ⟨t, ht1, ht2, htk⟩
    · obtain ⟨t0, h1, h2, h3⟩ := ih e0 he0
      exact ⟨t0, h1, (g3 t0 h2).1, by rw [(g3 t0 h2).2, h3]⟩

theorem addAll_built (ops : List (Entry × (Nat → Nat))) :
    ∀ (l : SkipList) (es : List Entry), Built l es →
      ∃ l1, l.addAll ops = some l1 ∧ Built l1 ((ops.map Prod.fst).reverse ++ es) := by
  induction ops with
  | nil =>
    intro l es hb
    exact ⟨l, rfl, by simpa using hb⟩
  | cons op ops ih =>
    intro l es hb
    obtain ⟨e, coins⟩ := op
    obtain ⟨l0, hl0⟩ := add_total l (built_inv l es hb) e coins
    obtain ⟨l1, hl1, hb1⟩ := ih l0 (e :: es) (Built.add l l0 es e coins hb hl0)
    refine ⟨l1, ?_, ?_⟩
    · simp only [SkipList.addAll, hl0]
      exact hl1
    · simpa using hb1

theorem addAll_new (ops : List (Entry × (Nat → Nat))) :
    ∃ l, NewSkipList.addAll ops = some l ∧ Built l (ops.map Prod.fst).reverse := by
  obtain ⟨l, h1, h2⟩ := addAll_built ops NewSkipList [] Built.new
  exact ⟨l, h1, by simpa using h2⟩


/-! ## Properties of the skip list: the claims -/

theorem level0Walk_set_entry (nodes : List Element) (q : Nat) (n0 : Element) (d e : Entry)
    (hq : nodes[q]? = some n0) (hd : n0.entry = some d) (hk : d.Key = e.Key) :
    ∀ (fuel cur : Nat),
      (level0Walk (nodes.set q { n0 with entry := some e }) fuel cur).map (List.map Entry.Key)
        = (level0Walk nodes fuel cur).map (List.map Entry.Key) := by
  have hql := getElem?_lt _ _ _ hq
  intro fuel
  induction fuel with
  | zero => intro cur; rfl
  | succ fuel ih =>
    intro cur
    simp only [level0Walk, set_entry_levelAt nodes q n0 (some e) hq]
    cases hv : levelAt nodes cur 0 with
    | none => rfl
    | some v =>
      cases v with
      | none => rfl
      | some next =>
        simp only
        have ihn := ih next
        by_cases hqn : q = next
        · subst hqn
          rw [List.getElem?_set, if_pos rfl, if_pos hql, hq]
          simp only [hd]
          cases h1 : level0Walk (nodes.set q { n0 with entry := some e }) fuel q with
          | none =>
            rw [h1] at ihn
            cases h2 : level0Walk nodes fuel q with
            | none => rfl
            | some r2 => rw [h2] at ihn; cases ihn
          | some r1 =>
            rw [h1] at ihn
            cases h2 : level0Walk nodes fuel q with
            | none => rw [h2] at ihn; cases ihn
            | some r2 =>
              rw [h2] at ihn
              simp only [Option.map_some', Option.some.injEq] at ihn
              simp only [Option.map_some', List.map_cons, ihn, hk]
        · rw [List.getElem?_set, if_neg hqn]
          cases hn : nodes[next]? with
          | none => rfl
          | some ne =>
            simp only
            cases hne : ne.entry with
            | none => rfl
            | some d1 =>
              simp only
              cases h1 : level0Walk (nodes.set q { n0 with entry := some e }) fuel next with
              | none =>
                rw [h1] at ihn
                cases h2 : level0Walk nodes fuel next with
                | none => rfl
                | some r2 => rw [h2] at ihn; cases ihn
              | some r1 =>
                rw [h1] at ihn
                cases h2 : level0Walk nodes fuel next with
                | none => rw [h2] at ihn; cases ihn
                | some r2 =>
                  rw [h2] at ihn
                  simp only [Option.map_some', Option.some.injEq] at ihn
                  simp only [Option.map_some', List.map_cons, ihn]


theorem entryOf_some (nodes : List Element) (t : Nat) (d : Entry)
    (h : entryOf nodes t = some d) : ∃ ne, nodes[t]? = some ne ∧ ne.entry = some d := by
  unfold entryOf at h
  cases ht : nodes[t]? with
  | none => rw [ht] at h; cases h
  | some ne => rw [ht] at h; exact ⟨ne, rfl, h⟩

/-- C2: read-your-writes. For every list obtained from `NewSkipList()` by a
sequence of `Add` calls, every entry `e` and every outcome of the coin flips,
`Add(e)` returns and afterwards `Search(e.Key)` returns `e`, whether or not the
key was present before. -/
theorem add_then_search (ops : List (Entry × (Nat → Nat))) (e : Entry)
    (coins : Nat → Nat) :
    ∃ l l1, NewSkipList.addAll ops = some l ∧ l.Add e coins = some l1 ∧
      l1.Search e.Key = some (some e) := by
  obtain ⟨l, hl, hb⟩ := addAll_new ops
  have hinv := built_inv l _ hb
  obtain ⟨l1, hadd⟩ := add_total l hinv e coins
  have hinv1 := add_inv l l1 hinv e coins hadd
  obtain ⟨_, ⟨t, ht1, _, htk, hte⟩, _⟩ := add_keys l l1 hinv e coins hadd
  obtain ⟨ne, hne, hned⟩ := entryOf_some l1.nodes t e hte
  obtain ⟨res, hres, _, hfound⟩ := search_spec l1 hinv1 e.Key
  refine ⟨l, l1, hl, hadd, ?_⟩
  rw [hres, hfound t ne ht1 hne htk, hned]

/-- C4: not-found. For every list obtained from `NewSkipList()` by a sequence of
`Add` calls and every key `k` different from the key of every added entry,
`Search(k)` returns nil; on a fresh list `Search` returns nil for every key. -/
theorem search_absent (ops : List (Entry × (Nat → Nat))) (k : List Nat)
    (hk : ∀ e, e ∈ ops.map Prod.fst → e.Key ≠ k) :
    (∃ l, NewSkipList.addAll ops = some l ∧ l.Search k = some none) ∧
    (∀ k1, NewSkipList.Search k1 = some none) := by
  constructor
  · obtain ⟨l, hl, hb⟩ := addAll_new ops
    have hinv := built_inv l _ hb
    obtain ⟨res, hres, hnone, _⟩ := search_spec l hinv k
    refine ⟨l, hl, ?_⟩
    rw [hres, hnone]
    intro t ht1 ht2 hkt
    obtain ⟨e, he, hek⟩ := built_keys_sub l _ hb t ht1 ht2
    exact hk e (List.mem_reverse.mp he) (by rw [hek, hkt])
  · intro k1
    obtain ⟨res, hres, hnone, _⟩ := search_spec NewSkipList newSkipList_inv k1
    rw [hres, hnone]
    intro t ht1 ht2
    simp [NewSkipList] at ht2
    omega

/-- Witness of C4: after adding the keys "a" and "c", the key "b" is not found. -/
theorem search_absent_witness :
    (∀ e, e ∈ ([(⟨[97], [1]⟩, fun _ => 0), (⟨[99], [2]⟩, fun _ => 1)] :
        List (Entry × (Nat → Nat))).map Prod.fst → e.Key ≠ [98]) ∧
    ((∃ l, NewSkipList.addAll [(⟨[97], [1]⟩, fun _ => 0), (⟨[99], [2]⟩, fun _ => 1)] = some l ∧
        l.Search [98] = some none) ∧
      (∀ k1, NewSkipList.Search k1 = some none)) :=
  ⟨by decide,
    search_absent [(⟨[97], [1]⟩, fun _ => 0), (⟨[99], [2]⟩, fun _ => 1)] [98] (by decide)⟩

/-- C3 (amended): order invariant. For every sequence of `Add` calls applied to
`NewSkipList()` and every outcome of the coin flips, the walk along the level-0
pointers from the header ends and visits the stored keys, which are the keys
added, in strictly descending `(score, key)` order: each key visited later is
smaller than each key visited earlier; hence no key is visited twice. -/
theorem level0_descending (ops : List (Entry × (Nat → Nat))) :
    ∃ l ents, NewSkipList.addAll ops = some l ∧ l.level0 = some ents ∧
      ents.Pairwise (fun a b => cmpKey b.Key a.Key = -1) ∧
      (ents.map Entry.Key).Nodup ∧
      (∀ k, k ∈ ents.map Entry.Key ↔ k ∈ (ops.map Prod.fst).map Entry.Key) := by
  obtain ⟨l, hl, hb⟩ := addAll_new ops
  have hinv := built_inv l _ hb
  obtain ⟨ents, h1, h2, h3⟩ := level0_spec l hinv
  refine ⟨l, ents, hl, h1, h2, ?_, ?_⟩
  · rw [List.Nodup, List.pairwise_map]
    refine List.Pairwise.imp ?_ h2
    intro a b hab heq
    rw [heq] at hab
    exact KLt_irrefl _ hab
  · intro k
    simp only [List.mem_map]
    constructor
    · rintro ⟨d, hd, rfl⟩
      obtain ⟨t, ht1, ht2, hte⟩ := (h3 d).mp hd
      obtain ⟨e, he, hek⟩ := built_keys_sub l _ hb t ht1 ht2
      obtain ⟨op, hop, rfl⟩ := List.mem_map.mp (List.mem_reverse.mp he)
      exact ⟨op.1, ⟨op, hop, rfl⟩, by rw [hek, entryOf_key l.nodes t d hte]⟩
    · rintro ⟨e, ⟨op, hop, rfl⟩, rfl⟩
      obtain ⟨t, ht1, ht2, htk⟩ := built_keys_sup l _ hb op.1
        (List.mem_reverse.mpr (List.mem_map_of_mem Prod.fst hop))
      obtain ⟨ne, d, hne, hd, _⟩ := hinv.inv.node t ht1 ht2
      have hte : entryOf l.nodes t = some d := by
        unfold entryOf; rw [hne]; exact hd
      exact ⟨d, (h3 d).mpr ⟨t, ht1, ht2, hte⟩, by rw [← entryOf_key l.nodes t d hte, htk]⟩

/-- Counterexample to C3 as stated: after `Add` of the keys "a", "c", "b" in
that order the level-0 walk yields "c", "b", "a", which is not ascending. -/
theorem level0_ascending_counterexample :
    ∃ l, NewSkipList.addAll
        [(⟨[97], []⟩, fun _ => 0), (⟨[99], []⟩, fun _ => 0), (⟨[98], []⟩, fun _ => 0)] = some l ∧
      l.level0.map (List.map Entry.Key) = some [[99], [98], [97]] ∧
      ¬ List.Pairwise (fun a b => cmpKey a b = -1) [[99], [98], [97]] :=
  ⟨_, rfl, rfl, by decide⟩


/-- C5: overwrite in place. When the list, obtained from `NewSkipList()` by a
sequence of `Add` calls, already holds an entry whose key equals `e.Key`,
`Add(e)` returns and its only effect is to replace the entry of the element `q`
that has this key: the heap has the same length, every forward pointer of every
element is unchanged, every other element is unchanged, and the level-0 walk
yields the same keys in the same order, now with `e` among the entries. -/
theorem add_overwrite (ops : List (Entry × (Nat → Nat))) (e : Entry) (coins : Nat → Nat)
    (hpresent : ∃ e0, e0 ∈ ops.map Prod.fst ∧ e0.Key = e.Key) :
    ∃ l q n0 d ents ents1, NewSkipList.addAll ops = some l ∧
      1 ≤ q ∧ l.nodes[q]? = some n0 ∧ n0.entry = some d ∧ d.Key = e.Key ∧
      l.Add e coins = some { l with nodes := l.nodes.set q { n0 with entry := some e } } ∧
      (l.nodes.set q { n0 with entry := some e }).length = l.nodes.length ∧
      (∀ a j, levelAt (l.nodes.set q { n0 with entry := some e }) a j = levelAt l.nodes a j) ∧
      (∀ a, a ≠ q → (l.nodes.set q { n0 with entry := some e })[a]? = l.nodes[a]?) ∧
      l.level0 = some ents ∧
      SkipList.level0 { l with nodes := l.nodes.set q { n0 with entry := some e } }
        = some ents1 ∧
      ents1.map Entry.Key = ents.map Entry.Key ∧ ents1.length = ents.length ∧ e ∈ ents1 := by
  obtain ⟨l, hl, hb⟩ := addAll_new ops
  have hinv := built_inv l _ hb
  obtain ⟨e0, he0, he0k⟩ := hpresent
  obtain ⟨t, ht1, ht2, htk⟩ := built_keys_sup l _ hb e0 (List.mem_reverse.mpr he0)
  rcases add_spec l hinv e coins with ⟨q, n0, hq1, hn0, hqk, hres⟩ | ⟨habs, _⟩
  · have hq2 := getElem?_lt _ _ _ hn0
    obtain ⟨n1, d, hn1, hd, _, _, _⟩ := hinv.inv.node q hq1 hq2
    rw [hn0] at hn1
    simp only [Option.some.injEq] at hn1
    subst hn1
    have hdk : d.Key = e.Key := by
      rw [← hqk]; unfold keyOf; rw [hn0]; simp only [hd]
    have hinv1 := add_inv l _ hinv e coins hres
    obtain ⟨ents, g1, _, _⟩ := level0_spec l hinv
    obtain ⟨ents1, k1, _, k3⟩ := level0_spec _ hinv1
    have hkeys := level0Walk_set_entry l.nodes q n0 d e hn0 hd hdk l.nodes.length l.header
    have k1w := k1
    have g1w := g1
    unfold SkipList.level0 at k1w g1w
    simp only [List.length_set] at k1w
    rw [k1w, g1w] at hkeys
    simp only [Option.map_some', Option.some.injEq] at hkeys
    refine ⟨l, q, n0, d, ents, ents1, hl, hq1, hn0, hd, hdk, hres, by simp,
      set_entry_levelAt l.nodes q n0 (some e) hn0, ?_, g1, k1, hkeys, ?_, ?_⟩
    · intro a ha
      rw [List.getElem?_set, if_neg (fun h => ha h.symm)]
    · have := congrArg List.length hkeys
      simpa using this
    · refine (k3 e).mpr ⟨q, hq1, by simpa using hq2, ?_⟩
      unfold entryOf
      simp only
      rw [List.getElem?_set]
      simp [hq2]
  · exact absurd (htk.trans he0k) (habs t ht1 ht2)

/-- Witness of C5: `Add(k, v1)` then `Add(k, v2)` for the key "k". -/
theorem add_overwrite_witness :
    (∃ e0, e0 ∈ ([(⟨[107], [1]⟩, fun _ => 0)] : List (Entry × (Nat → Nat))).map Prod.fst ∧
      e0.Key = (⟨[107], [2]⟩ : Entry).Key) ∧
    ∃ l q n0 d ents ents1,
      NewSkipList.addAll [(⟨[107], [1]⟩, fun _ => 0)] = some l ∧
      1 ≤ q ∧ l.nodes[q]? = some n0 ∧ n0.entry = some d ∧ d.Key = (⟨[107], [2]⟩ : Entry).Key ∧
      l.Add ⟨[107], [2]⟩ (fun _ => 1)
        = some { l with nodes := l.nodes.set q { n0 with entry := some ⟨[107], [2]⟩ } } ∧
      (l.nodes.set q { n0 with entry := some ⟨[107], [2]⟩ }).length = l.nodes.length ∧
      (∀ a j, levelAt (l.nodes.set q { n0 with entry := some ⟨[107], [2]⟩ }) a j
        = levelAt l.nodes a j) ∧
      (∀ a, a ≠ q → (l.nodes.set q { n0 with entry := some ⟨[107], [2]⟩ })[a]? = l.nodes[a]?) ∧
      l.level0 = some ents ∧
      SkipList.level0 { l with nodes := l.nodes.set q { n0 with entry := some ⟨[107], [2]⟩ } }
        = some ents1 ∧
      ents1.map Entry.Key = ents.map Entry.Key ∧ ents1.length = ents.length ∧
      (⟨[107], [2]⟩ : Entry) ∈ ents1 :=
  ⟨⟨⟨[107], [1]⟩, by decide, rfl⟩,
    add_overwrite [(⟨[107], [1]⟩, fun _ => 0)] ⟨[107], [2]⟩ (fun _ => 1)
      ⟨⟨[107], [1]⟩, by decide, rfl⟩⟩

/-! ## Further properties of the bloom filter -/

theorem probe_total (g : List Nat) (m d : Nat) (hm : 0 < m) (hlen : m ≤ 8 * g.length) :
    ∀ (n h : Nat), ∃ r, probe g m d n h = some r := by
  intro n
  induction n with
  | zero => intro h; exact ⟨true, rfl⟩
  | succ n ih =>
    intro h
    have hm0 : m ≠ 0 := Nat.pos_iff_ne_zero.mp hm
    have hpos : h % m < m := Nat.mod_lt _ hm
    have hidx : h % m / 8 < g.length := by omega
    simp only [probe, hm0, if_false, List.getElem?_eq_getElem hidx]
    split
    · exact ⟨false, rfl⟩
    · exact ih _

theorem probe_take (f : List Nat) (k m d : Nat) (hm : 0 < m) (hlen : m ≤ 8 * k) :
    ∀ (n h : Nat), probe (f.take k) m d n h = probe f m d n h := by
  intro n
  induction n with
  | zero => intro h; rfl
  | succ n ih =>
    intro h
    have hm0 : m ≠ 0 := Nat.pos_iff_ne_zero.mp hm
    have hpos : h % m < m := Nat.mod_lt _ hm
    have hidx : h % m / 8 < k := by omega
    simp only [probe, hm0, if_false, List.getElem?_take_of_lt hidx, ih]

/-- C19: `MayContain` is total on arbitrary bytes. For every byte sequence `f`
of length below `2 ^ 29` and every `h`, `MayContain` returns a result (it
neither divides by zero nor indexes out of range); when the probe loop runs,
the modulus `8 * (len(f) - 1)` is not reduced by the conversion to `uint32` and
is not zero, and the loop gives the same result on `f` without its last byte:
every byte index it reads is below `len(f) - 1`. -/
theorem mayContain_total (f : List Nat) (h : Nat) (hlen : f.length < 2 ^ 29) :
    ∃ r, MayContain f h = some r ∧
      (2 ≤ f.length → ∀ hc, f.getLast? = some hc → hc ≤ 30 →
        u32 (8 * (f.length - 1)) = 8 * (f.length - 1) ∧ 8 * (f.length - 1) ≠ 0 ∧
        probe (f.take (f.length - 1)) (8 * (f.length - 1)) (rotDelta h) hc h = some r) := by
  by_cases h2 : f.length < 2
  · exact ⟨false, by unfold MayContain; rw [if_pos h2], fun h3 => by omega⟩
  · have hu : u32 (8 * (f.length - 1)) = 8 * (f.length - 1) := by unfold u32; omega
    have hlast : f[f.length - 1]? = some f[f.length - 1] :=
      List.getElem?_eq_getElem (by omega)
    by_cases h30 : f[f.length - 1] > 30
    · refine ⟨true, ?_, ?_⟩
      · unfold MayContain
        rw [if_neg h2, hlast]
        simp only [h30, if_true]
      · intro _ hc hhc hle
        rw [List.getLast?_eq_getElem?, hlast] at hhc
        simp only [Option.some.injEq] at hhc
        omega
    · obtain ⟨r, hr⟩ := probe_total (f.take (f.length - 1)) (8 * (f.length - 1))
        (rotDelta h) (by omega) (by simp only [List.length_take]; omega) f[f.length - 1] h
      have hr1 := hr
      rw [probe_take f (f.length - 1) _ _ (by omega) (le_refl _)] at hr1
      refine ⟨r, ?_, ?_⟩
      · unfold MayContain
        rw [if_neg h2, hlast]
        simp only [h30, if_false, hu]
        exact hr1
      · intro _ hc hhc _
        rw [List.getLast?_eq_getElem?, hlast] at hhc
        simp only [Option.some.injEq] at hhc
        subst hhc
        exact ⟨hu, by omega, hr⟩

/-- Witness of C19: the three-byte sequence `[255, 7, 3]` queried with hash `5`. -/
theorem mayContain_total_witness :
    ([255, 7, 3] : List Nat).length < 2 ^ 29 ∧
    ∃ r, MayContain [255, 7, 3] 5 = some r ∧
      (2 ≤ ([255, 7, 3] : List Nat).length → ∀ hc, ([255, 7, 3] : List Nat).getLast? = some hc →
        hc ≤ 30 →
        u32 (8 * (([255, 7, 3] : List Nat).length - 1))
          = 8 * (([255, 7, 3] : List Nat).length - 1) ∧
        8 * (([255, 7, 3] : List Nat).length - 1) ≠ 0 ∧
        probe (([255, 7, 3] : List Nat).take (([255, 7, 3] : List Nat).length - 1))
          (8 * (([255, 7, 3] : List Nat).length - 1)) (rotDelta 5) hc 5 = some r) :=
  ⟨by decide, mayContain_total [255, 7, 3] 5 (by decide)⟩


theorem newFilter_nil (bitsPerKey : Int) :
    NewFilter [] bitsPerKey
      = some ((List.replicate 9 0).set 8
          (clampRounds (hashRounds (if bitsPerKey < 0 then 0 else bitsPerKey)) % 256)) := by
  have hI : Int.tdiv (wrapInt ((if wrapInt ((if bitsPerKey < 0 then 0 else bitsPerKey) *
      (([] : List Nat).length : Int)) < 64 then 64
      else wrapInt ((if bitsPerKey < 0 then 0 else bitsPerKey) *
        (([] : List Nat).length : Int))) + 7)) 8 = 8 := by
    simp only [List.length_nil, Nat.cast_zero, mul_zero]
    decide
  unfold NewFilter appendFilter
  simp only [hI]
  rw [if_neg (by decide)]
  simp [addKeys]

/-- C20: an empty build set rejects everything. For every `bitsPerKey`,
`NewFilter([], bitsPerKey)` returns a filter on which `MayContain(h)` is false
for every `h`. -/
theorem empty_filter_rejects (bitsPerKey : Int) (h : Nat) :
    ∃ f, NewFilter [] bitsPerKey = some f ∧ MayContain f h = some false := by
  refine ⟨_, newFilter_nil bitsPerKey, ?_⟩
  have hc1 := clampRounds_pos (hashRounds (if bitsPerKey < 0 then 0 else bitsPerKey))
  have hc30 := clampRounds_le (hashRounds (if bitsPerKey < 0 then 0 else bitsPerKey))
  generalize clampRounds (hashRounds (if bitsPerKey < 0 then 0 else bitsPerKey)) = c at hc1 hc30
  obtain ⟨n, rfl⟩ : ∃ n, c = n + 1 := ⟨c - 1, by omega⟩
  have hmod : (n + 1) % 256 = n + 1 := by omega
  have hlen : ((List.replicate 9 0).set 8 ((n + 1) % 256)).length = 9 := by simp
  have hlast : ((List.replicate 9 0).set 8 ((n + 1) % 256))[9 - 1]? = some (n + 1) := by
    rw [hmod]; rfl
  unfold MayContain
  rw [hlen, if_neg (by decide), hlast]
  simp only
  rw [if_neg (by omega)]
  have hu : u32 (8 * (9 - 1)) = 64 := by decide
  rw [hu]
  have hpos : h % 64 < 64 := Nat.mod_lt _ (by decide)
  have hidx : h % 64 / 8 < 8 := by omega
  have hget : ((List.replicate 9 0).set 8 ((n + 1) % 256))[h % 64 / 8]? = some 0 := by
    rw [List.getElem?_set, if_neg (by omega), List.getElem?_replicate, if_pos (by omega)]
  simp only [probe, hget]
  simp


/-! ## Further properties of the skip list -/

theorem add_fields (l l1 : SkipList) (hl : ListInv l) (e : Entry) (coins : Nat → Nat)
    (hadd : l.Add e coins = some l1) :
    l1.size = l.size ∧ l1.length = l.length ∧ l1.maxLevel = l.maxLevel ∧
      l1.header = l.header := by
  rcases add_spec l hl e coins with ⟨q, n0, _, _, _, hres⟩ | ⟨_, ps, h1, hres, _, _⟩
  · rw [hres] at hadd
    simp only [Option.some.injEq] at hadd
    subst hadd
    exact ⟨rfl, rfl, rfl, rfl⟩
  · rw [hres] at hadd
    simp only [Option.some.injEq] at hadd
    subst hadd
    exact ⟨rfl, rfl, rfl, rfl⟩

theorem built_size (l : SkipList) (es : List Entry) (h : Built l es) : l.Size = 0 := by
  induction h with
  | new => rfl
  | add l l1 es e coins hb hadd ih =>
    unfold SkipList.Size at ih ⊢
    rw [(add_fields l l1 (built_inv l es hb) e coins hadd).1]
    exact ih

theorem size_always_zero (ops : List (Entry × (Nat → Nat))) :
    ∃ l, NewSkipList.addAll ops = some l ∧ l.Size = 0 := by
  obtain ⟨l, hl, hb⟩ := addAll_new ops
  exact ⟨l, hl, built_size l _ hb⟩

/-- C11, evaluation of the code: after `Add` of an entry with the non-empty
key "a" to a fresh list, `Size()` is 0, as it is on the fresh list: `Add` never
writes the field `size`. -/
theorem size_after_add :
    ∃ l, NewSkipList.addAll [(⟨[97], [118]⟩, fun _ => 0)] = some l ∧
      l.Size = 0 ∧ NewSkipList.Size = 0 :=
  ⟨_, rfl, rfl, rfl⟩

theorem add_entries (l l1 : SkipList) (hl : ListInv l) (e : Entry) (coins : Nat → Nat)
    (hadd : l.Add e coins = some l1) (t : Nat) (ht : t < l.nodes.length)
    (hk : keyOf l.nodes t ≠ e.Key) : entryOf l1.nodes t = entryOf l.nodes t := by
  rcases add_spec l hl e coins with ⟨q, n0, hq1, hn0, hqk, hres⟩ | ⟨habs, ps, h1, hres, hins, hps⟩
  · rw [hres] at hadd
    simp only [Option.some.injEq] at hadd
    subst hadd
    have hqt : q ≠ t := by
      intro h; subst h; exact hk hqk
    unfold entryOf
    simp only
    rw [List.getElem?_set, if_neg hqt]
  · rw [hres] at hadd
    simp only [Option.some.injEq] at hadd
    subst hadd
    obtain ⟨e1, he1, a1, _, _⟩ := hins.old t l.nodes[t] (List.getElem?_eq_getElem ht)
    unfold entryOf
    simp only
    rw [he1, List.getElem?_eq_getElem ht]
    exact a1

theorem entryOf_getElem (nodes : List Element) (t : Nat) (ne : Element)
    (h : nodes[t]? = some ne) : entryOf nodes t = ne.entry := by
  unfold entryOf; rw [h]

/-- C18: `Add` does not disturb other keys. For every list obtained from
`NewSkipList()` by a sequence of `Add` calls, every entry `e`, every outcome of
the coin flips and every key `k` different from `e.Key`, `Search(k)` returns
and gives the same result after `Add(e)` as before it. -/
theorem add_frame (ops : List (Entry × (Nat → Nat))) (e : Entry) (coins : Nat → Nat)
    (k : List Nat) (hne : k ≠ e.Key) :
    ∃ l l1 r, NewSkipList.addAll ops = some l ∧ l.Add e coins = some l1 ∧
      l.Search k = some r ∧ l1.Search k = some r := by
  obtain ⟨l, hl, hb⟩ := addAll_new ops
  have hinv := built_inv l _ hb
  obtain ⟨l1, hadd⟩ := add_total l hinv e coins
  have hinv1 := add_inv l l1 hinv e coins hadd
  obtain ⟨g1, _, g3⟩ := add_keys l l1 hinv e coins hadd
  obtain ⟨r0, hr0, hnone0, hfound0⟩ := search_spec l hinv k
  obtain ⟨r1, hr1, hnone1, hfound1⟩ := search_spec l1 hinv1 k
  refine ⟨l, l1, r0, hl, hadd, hr0, ?_⟩
  rw [hr1]
  by_cases hex : ∃ t, 1 ≤ t ∧ t < l.nodes.length ∧ keyOf l.nodes t = k
  · obtain ⟨t, ht1, ht2, htk⟩ := hex
    have ht2b := (g3 t ht2).1
    have h0 := hfound0 t l.nodes[t] ht1 (List.getElem?_eq_getElem ht2) htk
    have h1 := hfound1 t l1.nodes[t] ht1 (List.getElem?_eq_getElem ht2b)
      (by rw [(g3 t ht2).2]; exact htk)
    rw [h0, h1, ← entryOf_getElem l1.nodes t _ (List.getElem?_eq_getElem ht2b),
      ← entryOf_getElem l.nodes t _ (List.getElem?_eq_getElem ht2)]
    rw [add_entries l l1 hinv e coins hadd t ht2 (by rw [htk]; exact hne)]
  · have habs0 : ∀ t, 1 ≤ t → t < l.nodes.length → keyOf l.nodes t ≠ k := by
      intro t h1 h2 h3
      exact hex ⟨t, h1, h2, h3⟩
    rw [hnone0 habs0, hnone1]
    intro t ht1 ht2 htk
    rcases g1 t ht1 ht2 with h | ⟨hlt, h⟩
    · exact hne (by rw [← htk, h])
    · exact habs0 t ht1 hlt (by rw [← h]; exact htk)

/-- Witness of C18: after adding "a" and "c", adding "b" leaves `Search("a")`. -/
theorem add_frame_witness :
    ([97] : List Nat) ≠ (⟨[98], [3]⟩ : Entry).Key ∧
    ∃ l l1 r,
      NewSkipList.addAll [(⟨[97], [1]⟩, fun _ => 0), (⟨[99], [2]⟩, fun _ => 1)] = some l ∧
      l.Add ⟨[98], [3]⟩ (fun _ => 0) = some l1 ∧
      l.Search [97] = some r ∧ l1.Search [97] = some r :=
  ⟨by decide,
    add_frame [(⟨[97], [1]⟩, fun _ => 0), (⟨[99], [2]⟩, fun _ => 1)] ⟨[98], [3]⟩
      (fun _ => 0) [97] (by decide)⟩


/-- C14: height bound. For every list obtained from `NewSkipList()` by `Add`
calls and every outcome of the coin flips, `randLevel` returns `r` with
`1 ≤ r ≤ maxLevel = 47`; the element `Add` creates has `r + 1 ≤ 48` forward
pointers, the header has 48, and no element of the list after `Add` has more
than the header; `Add` returns, and its splice loop, run on the `prevs` its
search loop leaves, ends without an index out of range. -/
theorem height_bound (ops : List (Entry × (Nat → Nat))) (e : Entry) (coins : Nat → Nat) :
    ∃ l l1, NewSkipList.addAll ops = some l ∧ l.maxLevel = 47 ∧
      1 ≤ l.randLevel coins ∧ l.randLevel coins ≤ l.maxLevel ∧
      (newElement (calcScore e.Key) e (l.randLevel coins)).levels.length
        = l.randLevel coins + 1 ∧
      l.randLevel coins + 1 ≤ 48 ∧ heightOf l.nodes l.header = 48 ∧
      l.Add e coins = some l1 ∧
      (∀ p, p < l1.nodes.length → heightOf l1.nodes p ≤ heightOf l1.nodes l1.header) ∧
      (∀ prevs, findPrevs l.nodes (calcScore e.Key) e.Key l.nodes.length (l.maxLevel + 1)
          l.header (List.replicate (l.maxLevel + 1) none) = some (Locate.miss prevs) →
        ∃ nodes1, splice prevs l.nodes.length (l.randLevel coins + 1)
          (l.nodes ++ [newElement (calcScore e.Key) e (l.randLevel coins)]) = some nodes1) := by
  obtain ⟨l, hl, hb⟩ := addAll_new ops
  have hinv := built_inv l _ hb
  obtain ⟨l1, hadd⟩ := add_total l hinv e coins
  have hinv1 := add_inv l l1 hinv e coins hadd
  have hrl := randLevel_bounds l coins (by rw [hinv.maxl]; decide)
  refine ⟨l, l1, hl, hinv.maxl, hrl.1, hrl.2, by simp [newElement], ?_, ?_, hadd, ?_, ?_⟩
  · have := hinv.maxl; omega
  · rw [hinv.hdr]; exact height_head l.nodes hinv.inv
  · intro p hp
    rw [hinv1.hdr, height_head l1.nodes hinv1.inv]
    by_cases h0 : p = 0
    · subst h0; rw [height_head l1.nodes hinv1.inv]
    · exact (height_node l1.nodes hinv1.inv p (by omega) hp).2
  · intro prevs hfind
    unfold SkipList.Add at hadd
    simp only [hfind] at hadd
    split at hadd
    · cases hadd
    · rename_i nodes1 hs
      exact ⟨nodes1, hs⟩


/-! ## Further properties of the arena -/

theorem allocate_length (s s1 : Arena) (sz off : Nat) (h : allocate s sz = some (s1, off)) :
    s1.buf.length = s.buf.length ∨
      s1.buf.length = s.buf.length + max (min (u32 s.buf.length) (2 ^ 30)) sz := by
  unfold allocate at h
  simp only [copyBytes_grow] at h
  split at h
  · rw [if_pos trivial] at h
    simp only [Option.some.injEq, Prod.mk.injEq] at h
    right
    rw [← h.1]
    simp only [List.length_append, List.length_replicate]
    congr 1
    simp only [Nat.max_def, Nat.min_def]
    split_ifs <;> omega
  · simp only [Option.some.injEq, Prod.mk.injEq] at h
    left
    rw [← h.1]

theorem putKey_length (s s1 : Arena) (key : List Nat) (off : Nat)
    (h : putKey s key = some (s1, off)) :
    ∃ s0, allocate s (u32 key.length) = some (s0, off) ∧ s1.buf.length = s0.buf.length := by
  unfold putKey at h
  cases ha : allocate s (u32 key.length) with
  | none => simp only [ha] at h; cases h
  | some r =>
    obtain ⟨s0, off0⟩ := r
    simp only [ha] at h
    split at h
    · rename_i hrange
      split at h
      · simp only [Option.some.injEq, Prod.mk.injEq] at h
        refine ⟨s0, by rw [h.2], ?_⟩
        rw [← h.1]
        simp only [copyBytes, List.length_append, List.length_take, List.length_drop]
        omega
      · cases h
    · cases h

theorem opRun_length (op : ArenaOp) (s s1 : Arena) (off : Nat) (hn : s.n + op.size < 2 ^ 32)
    (h : op.run s = some (s1, off)) :
    s1.buf.length = s.buf.length ∨
      s1.buf.length = s.buf.length + max (min (u32 s.buf.length) (2 ^ 30)) op.size := by
  cases op with
  | alloc sz => exact allocate_length s s1 sz off h
  | put key =>
    obtain ⟨s0, h0, hlen⟩ := putKey_length s s1 key off h
    have hsz : u32 key.length = key.length := by
      simp only [ArenaOp.size] at hn
      unfold u32; omega
    rw [hsz] at h0
    rw [hlen]
    exact allocate_length s s0 key.length off h0


theorem totalSize_take (ops : List ArenaOp) (k : Nat) (op : ArenaOp)
    (hk : ops[k]? = some op) : totalSize (ops.take k) + op.size ≤ totalSize ops := by
  unfold totalSize
  rw [List.map_take]
  have h1 : (ops.map ArenaOp.size)[k]? = some op.size := by
    rw [List.getElem?_map, hk]; rfl
  have h2 := sum_take_succ (ops.map ArenaOp.size) k op.size h1
  have h3 := sum_take_le_sum (ops.map ArenaOp.size) (k + 1)
  omega

/-- C15 (amended): allocation stays inside the buffer. On an arena made by
`newArena size` with `size ≥ 1`, for calls whose sizes sum to less than
`2 ^ 32 - 1`, every `allocate` and `putKey` returns (the slice taken by `putKey`
is in range); before and after every call the counter is at most `len(buf)`,
the extent returned satisfies `offset + sz ≤ len(buf)`, and a call either leaves
the buffer length or grows it once by `max(min(uint32(len(buf)), 2 ^ 30), sz)`
bytes. -/
theorem allocate_in_buffer (size : Nat) (ops : List ArenaOp) (hsize : 1 ≤ size)
    (htotal : totalSize ops < 2 ^ 32 - 1) :
    ∃ s offs, runOps (newArena size) ops = some (s, offs) ∧ s.n ≤ s.buf.length ∧
      ∀ k op, ops[k]? = some op →
        ∃ sk offk sk1 off, runOps (newArena size) (ops.take k) = some (sk, offk) ∧
          sk.n ≤ sk.buf.length ∧ op.run sk = some (sk1, off) ∧
          off + op.size ≤ sk1.buf.length ∧ sk1.n ≤ sk1.buf.length ∧
          (sk1.buf.length = sk.buf.length ∨
            sk1.buf.length
              = sk.buf.length + max (min (u32 sk.buf.length) (2 ^ 30)) op.size) := by
  have hn : (newArena size).n = 1 := rfl
  obtain ⟨s, offs, h1, _, h3, _⟩ :=
    runOps_spec ops (newArena size) (newArena_inv size hsize) (by rw [hn]; omega)
  refine ⟨s, offs, h1, h3, ?_⟩
  intro k op hk
  have ht := totalSize_take ops k op hk
  obtain ⟨sk, offk, g1, g2, g3, _⟩ :=
    runOps_spec (ops.take k) (newArena size) (newArena_inv size hsize) (by rw [hn]; omega)
  rw [hn] at g2
  obtain ⟨sk1, r1, r2, r3, _⟩ := opRun_spec op sk g3 (by omega)
  exact ⟨sk, offk, sk1, sk.n, g1, g3, r1, by omega, r3,
    opRun_length op sk sk1 sk.n (by omega) r1⟩

/-- Witness of C15 (amended): a 64-byte arena, a `putKey`, an allocation of 100
bytes that grows the buffer, and a second `putKey`. -/
theorem allocate_in_buffer_witness :
    1 ≤ 64 ∧
    totalSize [ArenaOp.put [1, 2, 3], ArenaOp.alloc 100, ArenaOp.put [9, 9]] < 2 ^ 32 - 1 ∧
    ∃ s offs,
      runOps (newArena 64) [ArenaOp.put [1, 2, 3], ArenaOp.alloc 100, ArenaOp.put [9, 9]]
        = some (s, offs) ∧
      s.n ≤ s.buf.length ∧
      ∀ k op, [ArenaOp.put [1, 2, 3], ArenaOp.alloc 100, ArenaOp.put [9, 9]][k]? = some op →
        ∃ sk offk sk1 off,
          runOps (newArena 64)
            ([ArenaOp.put [1, 2, 3], ArenaOp.alloc 100, ArenaOp.put [9, 9]].take k)
            = some (sk, offk) ∧
          sk.n ≤ sk.buf.length ∧ op.run sk = some (sk1, off) ∧
          off + op.size ≤ sk1.buf.length ∧ sk1.n ≤ sk1.buf.length ∧
          (sk1.buf.length = sk.buf.length ∨
            sk1.buf.length
              = sk.buf.length + max (min (u32 sk.buf.length) (2 ^ 30)) op.size) :=
  ⟨by decide, by decide,
    allocate_in_buffer 64 [ArenaOp.put [1, 2, 3], ArenaOp.alloc 100, ArenaOp.put [9, 9]]
      (by decide) (by decide)⟩

theorem allocate_grow_wrapped (s : Arena) (hlen : s.buf.length = 4294967316)
    (hn : s.n = 4294967267) :
    ∃ s2 o2, allocate s 15 = some (s2, o2) ∧ s2.buf.length = s.buf.length + 20 ∧
      s2.buf.length ≠ s.buf.length + max (min s.buf.length (2 ^ 30)) 15 := by
  obtain ⟨s2, h2, _, hl2⟩ := allocate_grow s 15 (by rw [hn, hlen]; decide)
  refine ⟨s2, _, h2, ?_, ?_⟩
  · rw [hl2, hlen]
    decide
  · rw [hl2, hlen]
    decide

/-- Counterexample to C15 as stated, on two arenas whose sizes sum to less than
`2 ^ 32`. On a 64-byte arena `allocate(10)` and then `allocate(4294967285)`
(together `2 ^ 32 - 1` bytes): the second call wraps the counter from 11 to 0
and returns offset 11 without growing the 64-byte buffer, so
`offset + sz ≤ len(buf)` fails. On an arena of `2 ^ 32 + 20` bytes,
`allocate(4294967266)` and then `allocate(15)`: the second call grows the
buffer by `uint32(len(buf)) = 20` bytes, not by
`max(min(len(buf), 2 ^ 30), 15) = 2 ^ 30`. -/
theorem allocate_in_buffer_counterexample :
    (1 ≤ 64 ∧ totalSize [ArenaOp.alloc 10, ArenaOp.alloc 4294967285] < 2 ^ 32 ∧
      ∃ s1 o1 s2 o2, allocate (newArena 64) 10 = some (s1, o1) ∧
        allocate s1 4294967285 = some (s2, o2) ∧ ¬ o2 + 4294967285 ≤ s2.buf.length) ∧
    (1 ≤ 4294967316 ∧ totalSize [ArenaOp.alloc 4294967266, ArenaOp.alloc 15] < 2 ^ 32 ∧
      ∃ s1 o1 s2 o2, allocate (newArena 4294967316) 4294967266 = some (s1, o1) ∧
        allocate s1 15 = some (s2, o2) ∧
        s2.buf.length = s1.buf.length + 20 ∧
        s2.buf.length ≠ s1.buf.length + max (min s1.buf.length (2 ^ 30)) 15) := by
  refine ⟨⟨by decide, by decide, _, _, _, _, rfl, rfl, by decide⟩, by decide, by decide, ?_⟩
  have hlen : (newArena 4294967316).buf.length = 4294967316 := List.length_replicate _ _
  have hn : (newArena 4294967316).n = 1 := rfl
  have h1 := allocate_keep (newArena 4294967316) 4294967266 (by rw [hn, hlen]; decide)
  obtain ⟨s2, o2, h2, g1, g2⟩ := allocate_grow_wrapped
    { n := u32 ((newArena 4294967316).n + 4294967266), buf := (newArena 4294967316).buf }
    hlen (by rw [hn]; decide)
  exact ⟨_, _, s2, o2, h1, h2, g1, g2⟩


/-! ## The layout of the filter -/

theorem needBytes_general (P : Nat) (h1 : P ≤ 2 ^ 63 - 8) :
    Int.tdiv (wrapInt ((if wrapInt (P : Int) < 64 then 64 else wrapInt (P : Int)) + 7)) 8
      = (((max 64 P + 7) / 8 : Nat) : Int) := by
  rw [wrapInt_of_range (P : Int) (by omega) (by omega)]
  have hr : (0 : Int) ≤ (if (P : Int) < 64 then 64 else (P : Int)) + 7 ∧
      (if (P : Int) < 64 then 64 else (P : Int)) + 7 < 2 ^ 63 := by
    split <;> omega
  rw [wrapInt_of_range _ hr.1 hr.2, Int.tdiv_eq_ediv hr.1 (by decide)]
  simp only [Nat.max_def]
  split <;> split <;> omega

theorem bitsPerKey_product (keys : List Nat) (bitsPerKey : Int) :
    (if bitsPerKey < 0 then 0 else bitsPerKey) * (keys.length : Int)
      = ((bitsPerKey.toNat * keys.length : Nat) : Int) := by
  split
  · rename_i h
    have : bitsPerKey.toNat = 0 := by omega
    simp [this]
  · rename_i h
    have : (bitsPerKey.toNat : Int) = bitsPerKey := Int.toNat_of_nonneg (by omega)
    rw [Nat.cast_mul, this]

theorem newFilter_layout (keys : List Nat) (bitsPerKey : Int)
    (hlim : (max 64 (bitsPerKey.toNat * keys.length) + 7) / 8 + 1 ≤ maxAlloc)
    (hm : keys = [] ∨ (8 * ((max 64 (bitsPerKey.toNat * keys.length) + 7) / 8)) % 2 ^ 32 ≠ 0) :
    ∃ f, NewFilter keys bitsPerKey = some f ∧
      f.length = (max 64 (bitsPerKey.toNat * keys.length) + 7) / 8 + 1 ∧
      f.getLast? = some (clampRounds (hashRounds (if bitsPerKey < 0 then 0 else bitsPerKey))) := by
  have hP : bitsPerKey.toNat * keys.length ≤ 2 ^ 63 - 8 := by
    have hlim1 : (max 64 (bitsPerKey.toNat * keys.length) + 7) / 8 + 1 ≤ 2 ^ 48 := hlim
    simp only [Nat.max_def] at hlim1
    split at hlim1 <;> omega
  have hnb := needBytes_general (bitsPerKey.toNat * keys.length) hP
  rw [← bitsPerKey_product keys bitsPerKey] at hnb
  generalize hnbdef : (max 64 (bitsPerKey.toNat * keys.length) + 7) / 8 = nb at hnb hm hlim
  have hcond : ¬ ((nb : Int) < 0 ∨ ((maxAlloc : Nat) : Int) < (nb : Int) + 1) := by
    have hlim1 : nb + 1 ≤ 2 ^ 48 := hlim
    unfold maxAlloc
    omega
  have hnb8 : 8 ≤ nb := by
    rw [← hnbdef]; simp only [Nat.max_def]; split <;> omega
  have hnbu : nb * 8 < 2 ^ 63 := by
    rw [← hnbdef]; simp only [Nat.max_def]; split <;> omega
  have hmod : u32OfInt (wrapInt ((nb : Int) * 8)) = (8 * nb) % 2 ^ 32 := by
    rw [wrapInt_of_range _ (by omega) (by omega)]
    unfold u32OfInt; omega
  have hc30 := clampRounds_le (hashRounds (if bitsPerKey < 0 then 0 else bitsPerKey))
  have hadd : ∃ f1, addKeys ((8 * nb) % 2 ^ 32)
      (clampRounds (hashRounds (if bitsPerKey < 0 then 0 else bitsPerKey))) keys
      (List.replicate (nb + 1) 0) = some f1 ∧ f1.length = nb + 1 := by
    rcases hm with hk | hk
    · subst hk
      exact ⟨_, rfl, by simp⟩
    · obtain ⟨f1, hf1, hl1, _, _⟩ := addKeys_spec ((8 * nb) % 2 ^ 32)
        (clampRounds (hashRounds (if bitsPerKey < 0 then 0 else bitsPerKey)))
        (by omega) keys (List.replicate (nb + 1) 0)
        (by rw [List.length_replicate]; have := Nat.mod_le (8 * nb) (2 ^ 32); omega)
      exact ⟨f1, hf1, by simpa using hl1⟩
  obtain ⟨f1, hf1, hl1⟩ := hadd
  refine ⟨f1.set nb (clampRounds (hashRounds (if bitsPerKey < 0 then 0 else bitsPerKey)) % 256),
    ?_, by simp [hl1], ?_⟩
  · unfold NewFilter appendFilter
    simp only [hnb, hmod]
    rw [if_neg hcond]
    simp only [Int.toNat_ofNat, hf1]
  · rw [List.getLast?_eq_getElem?, List.length_set, hl1, Nat.add_sub_cancel,
      List.getElem?_set]
    simp [hl1]
    omega

/-- C13 (amended): filter layout. For every list of `n` key hashes and every
`bitsPerKey` `b` (negative `b` treated as 0) whose byte count
`ceil(max(64, b*n) / 8) + 1` is at most `maxAlloc = 2 ^ 48`, the longest byte
slice `make` allocates, and, when the list is not empty, whose rounded bit count
`8 * ceil(max(64, b*n) / 8)` is not a multiple of `2 ^ 32`, `NewFilter` returns
exactly `ceil(max(64, b*n) / 8) + 1` bytes, the last of which is in `[1, 30]`;
the result has at least 9 bytes. -/
theorem filter_layout (keys : List Nat) (bitsPerKey : Int)
    (hlim : (max 64 (bitsPerKey.toNat * keys.length) + 7) / 8 + 1 ≤ maxAlloc)
    (hm : keys = [] ∨ (8 * ((max 64 (bitsPerKey.toNat * keys.length) + 7) / 8)) % 2 ^ 32 ≠ 0) :
    ∃ f c, NewFilter keys bitsPerKey = some f ∧
      f.length = (max 64 (bitsPerKey.toNat * keys.length) + 7) / 8 + 1 ∧
      f.getLast? = some c ∧ 1 ≤ c ∧ c ≤ 30 ∧ 9 ≤ f.length := by
  obtain ⟨f, h1, h2, h3⟩ := newFilter_layout keys bitsPerKey hlim hm
  refine ⟨f, _, h1, h2, h3, clampRounds_pos _, clampRounds_le _, ?_⟩
  rw [h2]
  simp only [Nat.max_def]
  split <;> omega

/-- Witness of C13 (amended): three key hashes with `bitsPerKey = 10`, giving
`ceil(64 / 8) + 1 = 9` bytes. -/
theorem filter_layout_witness :
    (max 64 ((10 : Int).toNat * ([1, 2, 3] : List Nat).length) + 7) / 8 + 1 ≤ maxAlloc ∧
    (([1, 2, 3] : List Nat) = [] ∨
      (8 * ((max 64 ((10 : Int).toNat * ([1, 2, 3] : List Nat).length) + 7) / 8)) % 2 ^ 32 ≠ 0) ∧
    ∃ f c, NewFilter [1, 2, 3] 10 = some f ∧
      f.length = (max 64 ((10 : Int).toNat * ([1, 2, 3] : List Nat).length) + 7) / 8 + 1 ∧
      f.getLast? = some c ∧ 1 ≤ c ∧ c ≤ 30 ∧ 9 ≤ f.length :=
  ⟨by decide, Or.inr (by decide),
    filter_layout [1, 2, 3] 10 (by decide) (Or.inr (by decide))⟩

theorem newFilter_modulus_zero : NewFilter [7] 4294967296 = none := by
  have hI : Int.tdiv (wrapInt ((if wrapInt ((if (4294967296 : Int) < 0 then 0 else 4294967296) *
      (([7] : List Nat).length : Int)) < 64 then 64
      else wrapInt ((if (4294967296 : Int) < 0 then 0 else 4294967296) *
        (([7] : List Nat).length : Int))) + 7)) 8 = 536870912 := by decide
  unfold NewFilter appendFilter
  simp only [hI]
  rw [if_neg (by decide)]
  have hz : u32OfInt (wrapInt (536870912 * 8)) = 0 := by decide
  rw [hz, addKeys_zero_modulus _ _ _ _ (clampRounds_pos _)]

theorem appendFilter_above_maxAlloc (keys : List Nat) (bitsPerKey : Int)
    (h : ((maxAlloc : Nat) : Int) < Int.tdiv (wrapInt ((if wrapInt
      ((if bitsPerKey < 0 then 0 else bitsPerKey) * (keys.length : Int)) < 64 then 64
      else wrapInt ((if bitsPerKey < 0 then 0 else bitsPerKey) * (keys.length : Int))) + 7)) 8
      + 1) :
    appendFilter keys bitsPerKey = none := by
  unfold appendFilter
  exact if_pos (Or.inr h)

theorem newFilter_above_maxAlloc : NewFilter [1] 4503599627370504 = none :=
  appendFilter_above_maxAlloc [1] 4503599627370504 (by decide)

/-- Counterexample to C13 as stated, on two inputs whose product `b * n` is
within the range of `int`. For the single key hash `7` and `bitsPerKey = 2 ^ 32`
the bit count is `2 ^ 32`, its `uint32` value is 0 and `appendFilter` divides by
zero. For the single key hash `1` and `bitsPerKey = 2 ^ 52 + 8` the bit count is
not a multiple of `2 ^ 32`, but the byte count `2 ^ 49 + 2` is above `maxAlloc`
and `make` panics. In both cases no byte sequence is returned. -/
theorem filter_layout_counterexample :
    ((4294967296 : Int) * ((([7] : List Nat).length : Nat) : Int) < 2 ^ 63 ∧
      ¬ ∃ f, NewFilter [7] 4294967296 = some f ∧
        f.length = (max 64 ((4294967296 : Int).toNat * ([7] : List Nat).length) + 7) / 8 + 1) ∧
    ((4503599627370504 : Int) * ((([1] : List Nat).length : Nat) : Int) < 2 ^ 63 ∧
      (8 * ((max 64 ((4503599627370504 : Int).toNat * ([1] : List Nat).length) + 7) / 8))
        % 2 ^ 32 ≠ 0 ∧
      ¬ ∃ f, NewFilter [1] 4503599627370504 = some f ∧
        f.length
          = (max 64 ((4503599627370504 : Int).toNat * ([1] : List Nat).length) + 7) / 8 + 1) := by
  refine ⟨⟨by decide, ?_⟩, by decide, by decide, ?_⟩
  · rintro ⟨f, hf, _⟩
    rw [newFilter_modulus_zero] at hf
    cases hf
  · rintro ⟨f, hf, _⟩
    rw [newFilter_above_maxAlloc] at hf
    cases hf


/-! ## The hash-round count -/

theorem sigShift_spec (N : Nat) :
    ∀ (fuel s0 : Nat), s0 ≤ sigShift N fuel s0 ∧ sigShift N fuel s0 ≤ s0 + fuel ∧
      (∀ t, s0 ≤ t → t < sigShift N fuel s0 → 2 ^ 53 ≤ N / 2 ^ t) ∧
      (N / 2 ^ (s0 + fuel) < 2 ^ 53 → N / 2 ^ sigShift N fuel s0 < 2 ^ 53) := by
  intro fuel
  induction fuel with
  | zero =>
    intro s0
    simp only [sigShift]
    exact ⟨le_refl _, le_refl _, fun t h1 h2 => by omega, fun h => h⟩
  | succ fuel ih =>
    intro s0
    simp only [sigShift]
    split
    · rename_i h
      exact ⟨le_refl _, by omega, fun t h1 h2 => by omega, fun _ => h⟩
    · rename_i h
      obtain ⟨g1, g2, g3, g4⟩ := ih (s0 + 1)
      refine ⟨by omega, by omega, ?_, ?_⟩
      · intro t h1 h2
        by_cases ht : t = s0
        · subst ht; omega
        · exact g3 t (by omega) h2
      · intro hlt
        apply g4
        rw [show s0 + 1 + fuel = s0 + (fuel + 1) by omega]
        exact hlt

theorem roundShift_bounds (N s : Nat) :
    N < roundShift N s * 2 ^ s + 2 ^ s ∧ roundShift N s * 2 ^ s ≤ N + 2 ^ s := by
  have hpos : 0 < 2 ^ s := Nat.two_pow_pos s
  have hdm := Nat.div_add_mod N (2 ^ s)
  have hmod := Nat.mod_lt N hpos
  have hq : N / 2 ^ s * 2 ^ s = 2 ^ s * (N / 2 ^ s) := Nat.mul_comm _ _
  have hq1 : (N / 2 ^ s + 1) * 2 ^ s = 2 ^ s * (N / 2 ^ s) + 2 ^ s := by
    rw [Nat.add_mul, Nat.one_mul, Nat.mul_comm]
  unfold roundShift
  simp only
  split
  · rw [hq]; omega
  · split
    · rw [hq1]; omega
    · split
      · rw [hq]; omega
      · rw [hq1]; omega

theorem float64OfNat_small (x : Nat) (hx : x < 2 ^ 53) : float64OfNat x = x := by
  have hs : sigShift x 64 0 = 0 := by
    simp only [sigShift, pow_zero, Nat.div_one, hx, if_true]
  unfold float64OfNat
  simp only [hs]
  unfold roundShift
  simp only [pow_zero, Nat.div_one, Nat.mod_one, Nat.mul_zero, Nat.mul_one]
  rw [if_pos (by decide)]


theorem hashRounds_large (n : Nat) (h45 : 45 ≤ n) (hn : n ≤ 6196328018) :
    31 ≤ hashRounds (n : Int) := by
  have hx : float64OfNat n = n := float64OfNat_small n (by omega)
  unfold hashRounds
  simp only [Int.toNat_ofNat, hx]
  obtain ⟨_, _, g3, _⟩ := sigShift_spec (n * ln2Mant) 128 0
  obtain ⟨b1, b2⟩ := roundShift_bounds (n * ln2Mant) (sigShift (n * ln2Mant) 128 0)
  have hN1 : 45 * 6243314768165359 ≤ n * ln2Mant := by unfold ln2Mant; omega
  have hN2 : n * ln2Mant ≤ 6196328018 * 6243314768165359 := by unfold ln2Mant; omega
  have hT : 2 ^ 52 * 2 ^ sigShift (n * ln2Mant) 128 0 ≤ n * ln2Mant := by
    by_cases hs : sigShift (n * ln2Mant) 128 0 = 0
    · rw [hs]; omega
    · have h1 := g3 (sigShift (n * ln2Mant) 128 0 - 1) (by omega) (by omega)
      rw [Nat.le_div_iff_mul_le (Nat.two_pow_pos _)] at h1
      have h2 : 2 ^ sigShift (n * ln2Mant) 128 0
          = 2 * 2 ^ (sigShift (n * ln2Mant) 128 0 - 1) := by
        rw [← pow_succ']
        congr 1
        omega
      rw [h2]
      omega
  generalize roundShift (n * ln2Mant) (sigShift (n * ln2Mant) 128 0)
    * 2 ^ sigShift (n * ln2Mant) 128 0 = X at b1 b2 ⊢
  generalize 2 ^ sigShift (n * ln2Mant) 128 0 = T at b1 b2 hT
  generalize n * ln2Mant = N at b1 b2 hT hN1 hN2
  unfold u32
  rw [show (2 : Nat) ^ 53 = 9007199254740992 by norm_num,
    show (2 : Nat) ^ 32 = 4294967296 by norm_num]
  rw [show (2 : Nat) ^ 52 = 4503599627370496 by norm_num] at hT
  have hlo : 31 * 9007199254740992 ≤ X := by omega
  have hhi : X < 4294967296 * 9007199254740992 := by omega
  have h1 : 31 ≤ X / 9007199254740992 := by
    rw [Nat.le_div_iff_mul_le (by decide)]; exact hlo
  have h2 : X / 9007199254740992 < 4294967296 := by
    rw [Nat.div_lt_iff_lt_mul (by decide)]; exact hhi
  rw [Nat.mod_eq_of_lt h2]
  exact h1

theorem hashRounds_small :
    ∀ b : Nat, b < 45 →
      hashRounds (b : Int) = b * 6931471803 / 10000000000 ∧
      b * 6931471808 < (b * 6931471803 / 10000000000 + 1) * 10000000000 := by
  decide


theorem floor_log_small (b : Nat) (hb : b < 45) :
    ⌊(b : ℝ) * Real.log 2⌋₊ = b * 6931471803 / 10000000000 := by
  have hlog1 := Real.log_two_gt_d9
  have hlog2 := Real.log_two_lt_d9
  have hb0 : (0 : ℝ) ≤ (b : ℝ) := Nat.cast_nonneg b
  have hlo : b * 6931471803 / 10000000000 * 10000000000 ≤ b * 6931471803 :=
    Nat.div_mul_le_self _ _
  have hhi := (hashRounds_small b hb).2
  have hloR : ((b * 6931471803 / 10000000000 : Nat) : ℝ) * 10000000000
      ≤ (b : ℝ) * 6931471803 := by exact_mod_cast hlo
  have hhiR : (b : ℝ) * 6931471808
      < (((b * 6931471803 / 10000000000 : Nat) : ℝ) + 1) * 10000000000 := by
    exact_mod_cast hhi
  have hm1 : (b : ℝ) * 0.6931471803 ≤ (b : ℝ) * Real.log 2 :=
    mul_le_mul_of_nonneg_left (le_of_lt hlog1) hb0
  have hm2 : (b : ℝ) * Real.log 2 ≤ (b : ℝ) * 0.6931471808 :=
    mul_le_mul_of_nonneg_left (le_of_lt hlog2) hb0
  rw [Nat.floor_eq_iff (mul_nonneg hb0 (by linarith))]
  constructor
  · norm_num at hm1 hm2 ⊢
    linarith
  · norm_num at hm1 hm2 ⊢
    linarith

theorem floor_log_large (b : Nat) (hb : 45 ≤ b) : 31 ≤ ⌊(b : ℝ) * Real.log 2⌋₊ := by
  apply Nat.le_floor
  have hlog1 := Real.log_two_gt_d9
  have hb45 : (45 : ℝ) ≤ (b : ℝ) := by exact_mod_cast hb
  have hm : (45 : ℝ) * Real.log 2 ≤ (b : ℝ) * Real.log 2 :=
    mul_le_mul_of_nonneg_right hb45 (by linarith)
  norm_num at hlog1 ⊢
  linarith

theorem clampRounds_of_large (x : Nat) (h : 31 ≤ x) : clampRounds x = 30 := by
  unfold clampRounds
  rw [if_neg (by omega), if_pos (by omega)]

theorem hashRounds_floor (n : Nat) (hn : n ≤ 6196328018) :
    clampRounds (hashRounds (n : Int)) = clampRounds ⌊(n : ℝ) * Real.log 2⌋₊ := by
  by_cases h : n < 45
  · rw [(hashRounds_small n h).1, floor_log_small n h]
  · rw [clampRounds_of_large _ (hashRounds_large n (by omega) hn),
      clampRounds_of_large _ (floor_log_large n (by omega))]


theorem setBits_length (m d : Nat) :
    ∀ (n h : Nat) (f f1 : List Nat), setBits m d n h f = some f1 → f1.length = f.length := by
  intro n
  induction n with
  | zero =>
    intro h f f1 hs
    simp only [setBits, Option.some.injEq] at hs
    rw [← hs]
  | succ n ih =>
    intro h f f1 hs
    simp only [setBits] at hs
    split at hs
    · cases hs
    · split at hs
      · cases hs
      · have := ih _ _ _ hs
        simpa using this

theorem addKeys_length (m hc : Nat) :
    ∀ (keys f f1 : List Nat), addKeys m hc keys f = some f1 → f1.length = f.length := by
  intro keys
  induction keys with
  | nil =>
    intro f f1 h
    simp only [addKeys, Option.some.injEq] at h
    rw [← h]
  | cons k keys ih =>
    intro f f1 h
    simp only [addKeys] at h
    split at h
    · cases h
    · rename_i f0 h0
      rw [ih _ _ h, setBits_length _ _ _ _ _ _ h0]

theorem newFilter_last (keys : List Nat) (bitsPerKey : Int) (f : List Nat)
    (hf : NewFilter keys bitsPerKey = some f) :
    f.getLast? = some (clampRounds (hashRounds (if bitsPerKey < 0 then 0 else bitsPerKey))) := by
  unfold NewFilter appendFilter at hf
  simp only at hf
  generalize hnb : Int.tdiv (wrapInt ((if wrapInt
      ((if bitsPerKey < 0 then 0 else bitsPerKey) * (keys.length : Int)) < 64 then 64
      else wrapInt ((if bitsPerKey < 0 then 0 else bitsPerKey) * (keys.length : Int))) + 7)) 8
      = nb at hf
  have hc30 := clampRounds_le (hashRounds (if bitsPerKey < 0 then 0 else bitsPerKey))
  generalize clampRounds (hashRounds (if bitsPerKey < 0 then 0 else bitsPerKey)) = hc
    at hf hc30 ⊢
  by_cases hcond : nb < 0 ∨ ((maxAlloc : Nat) : Int) < nb + 1
  · rw [if_pos hcond] at hf
    cases hf
  · rw [if_neg hcond] at hf
    split at hf
    · cases hf
    · rename_i f1 hf1
      have hl := addKeys_length _ _ _ _ _ hf1
      rw [List.length_replicate] at hl
      simp only [Option.some.injEq] at hf
      rw [← hf, List.getLast?_eq_getElem?, List.length_set, hl, Nat.add_sub_cancel,
        List.getElem?_set]
      simp [hl]
      omega

/-- C12 (amended): hash-round count. For every `bitsPerKey` not above
`6196328018`, the largest value whose product with `ln 2` is below `2 ^ 32`
(negative values treated as 0), and every key list for which `NewFilter`
returns a filter, the trailing byte of that filter equals
`floor(bitsPerKey * ln 2)` clamped to `[1, 30]`: the product is truncated, not
rounded. -/
theorem hash_round_count (keys : List Nat) (bitsPerKey : Int) (f : List Nat)
    (hb : bitsPerKey ≤ 6196328018) (hf : NewFilter keys bitsPerKey = some f) :
    f.getLast? = some (clampRounds ⌊(bitsPerKey.toNat : ℝ) * Real.log 2⌋₊) := by
  have hcast : (if bitsPerKey < 0 then 0 else bitsPerKey) = ((bitsPerKey.toNat : Nat) : Int) := by
    split <;> omega
  rw [newFilter_last keys bitsPerKey f hf, hcast, hashRounds_floor bitsPerKey.toNat (by omega)]

/-- Witness of C12 (amended): the keys "x", "y", "z" with `bitsPerKey = 10`;
the filter has nine bytes, the last of which is 6. -/
theorem hash_round_count_witness :
    (10 : Int) ≤ 6196328018 ∧
    NewFilter (List.map Hash [[120], [121], [122]]) 10
      = some [55, 16, 68, 1, 137, 1, 16, 240, 6] ∧
    [55, 16, 68, 1, 137, 1, 16, 240, 6].getLast?
      = some (clampRounds ⌊(((10 : Int).toNat : Nat) : ℝ) * Real.log 2⌋₊) :=
  ⟨by decide, rfl,
    hash_round_count (List.map Hash [[120], [121], [122]]) 10 _ (by decide) rfl⟩

/-- Counterexample to C12 as stated, on three inputs. For `bitsPerKey = 10`
the trailing byte of the filter is 6, while `bitsPerKey * ln 2 = 6.93...` rounds
to 7. For `bitsPerKey = 6196328019` the product is `2 ^ 32` or more, the
conversion to `uint32` leaves 0 and the trailing byte is 1, while the clamped
product is 30. For the key hash `7` and `bitsPerKey = 2 ^ 32` no filter is
returned, so that there is no trailing byte. -/
theorem hash_round_counterexample :
    (∃ f, NewFilter (List.map Hash [[120], [121], [122]]) 10 = some f ∧
      f.getLast? = some 6 ∧ round ((10 : ℝ) * Real.log 2) = 7 ∧ clampRounds 7 = 7) ∧
    (∃ f, NewFilter [] 6196328019 = some f ∧ f.getLast? = some 1 ∧
      clampRounds ⌊((6196328019 : Nat) : ℝ) * Real.log 2⌋₊ = 30) ∧
    ((4294967296 : Int) ≤ 6196328018 ∧ NewFilter [7] 4294967296 = none) := by
  refine ⟨⟨_, rfl, rfl, ?_, rfl⟩, ⟨_, rfl, rfl, ?_⟩, by decide, newFilter_modulus_zero⟩
  · have hlog1 := Real.log_two_gt_d9
    have hlog2 := Real.log_two_lt_d9
    rw [round_eq, Int.floor_eq_iff]
    norm_num at hlog1 hlog2 ⊢
    constructor <;> linarith
  · exact clampRounds_of_large _ (floor_log_large _ (by decide))


/-! ## The score and the byte order -/

theorem roundShift_between (N s : Nat) :
    N / 2 ^ s ≤ roundShift N s ∧ roundShift N s ≤ N / 2 ^ s + 1 := by
  unfold roundShift
  simp only
  split
  · omega
  · split
    · omega
    · split <;> omega

theorem roundShift_mono (x y s : Nat) (hxy : x ≤ y) : roundShift x s ≤ roundShift y s := by
  have hpos : 0 < 2 ^ s := Nat.two_pow_pos s
  have hq : x / 2 ^ s ≤ y / 2 ^ s := Nat.div_le_div_right hxy
  rcases Nat.lt_or_ge (x / 2 ^ s) (y / 2 ^ s) with hlt | hge
  · have h1 := (roundShift_between x s).2
    have h2 := (roundShift_between y s).1
    omega
  · have heq : x / 2 ^ s = y / 2 ^ s := by omega
    have hx := Nat.div_add_mod x (2 ^ s)
    have hy := Nat.div_add_mod y (2 ^ s)
    rw [heq] at hx
    have hr : x % 2 ^ s ≤ y % 2 ^ s := by omega
    unfold roundShift
    simp only [heq]
    split_ifs <;> omega

theorem sigShift_least (N : Nat) (hN : N < 2 ^ 64) :
    N / 2 ^ sigShift N 64 0 < 2 ^ 53 ∧
      (∀ t, t < sigShift N 64 0 → 2 ^ 53 ≤ N / 2 ^ t) := by
  obtain ⟨_, _, g3, g4⟩ := sigShift_spec N 64 0
  refine ⟨g4 ?_, fun t ht => g3 t (by omega) ht⟩
  rw [Nat.div_lt_iff_lt_mul (Nat.two_pow_pos _)]
  have h1 : (2 : Nat) ^ 64 ≤ 2 ^ 53 * 2 ^ (0 + 64) := by norm_num
  omega

theorem float64OfNat_mono (x y : Nat) (hxy : x ≤ y) (hy : y < 2 ^ 64) :
    float64OfNat x ≤ float64OfNat y := by
  obtain ⟨hx1, hx2⟩ := sigShift_least x (by omega)
  obtain ⟨hy1, hy2⟩ := sigShift_least y hy
  have hs : sigShift x 64 0 ≤ sigShift y 64 0 := by
    by_contra hcon
    have h1 := hx2 (sigShift y 64 0) (by omega)
    have h2 : x / 2 ^ sigShift y 64 0 ≤ y / 2 ^ sigShift y 64 0 := Nat.div_le_div_right hxy
    omega
  unfold float64OfNat
  simp only
  rcases Nat.eq_or_lt_of_le hs with heq | hlt
  · rw [heq]
    exact Nat.mul_le_mul_right _ (roundShift_mono x y _ hxy)
  · have hRx : roundShift x (sigShift x 64 0) ≤ 2 ^ 53 := by
      have := (roundShift_between x (sigShift x 64 0)).2
      omega
    have hqy : 2 ^ 52 ≤ y / 2 ^ sigShift y 64 0 := by
      have h1 := hy2 (sigShift y 64 0 - 1) (by omega)
      rw [Nat.le_div_iff_mul_le (Nat.two_pow_pos _)] at h1 ⊢
      have h2 : 2 ^ sigShift y 64 0 = 2 * 2 ^ (sigShift y 64 0 - 1) := by
        rw [← pow_succ']
        congr 1
        omega
      rw [h2]
      have h3 : (2 : Nat) ^ 53 = 2 ^ 52 * 2 := by norm_num
      rw [h3] at h1
      calc 2 ^ 52 * (2 * 2 ^ (sigShift y 64 0 - 1))
          = 2 ^ 52 * 2 * 2 ^ (sigShift y 64 0 - 1) := by ring
        _ ≤ y := h1
    have hRy : 2 ^ 52 ≤ roundShift y (sigShift y 64 0) := by
      have := (roundShift_between y (sigShift y 64 0)).1
      omega
    have hpow : 2 * 2 ^ sigShift x 64 0 ≤ 2 ^ sigShift y 64 0 := by
      rw [← pow_succ']
      exact Nat.pow_le_pow_right (by decide) hlt
    calc roundShift x (sigShift x 64 0) * 2 ^ sigShift x 64 0
        ≤ 2 ^ 53 * 2 ^ sigShift x 64 0 := Nat.mul_le_mul_right _ hRx
      _ = 2 ^ 52 * (2 * 2 ^ sigShift x 64 0) := by ring
      _ ≤ 2 ^ 52 * 2 ^ sigShift y 64 0 := Nat.mul_le_mul_left _ hpow
      _ ≤ roundShift y (sigShift y 64 0) * 2 ^ sigShift y 64 0 := Nat.mul_le_mul_right _ hRy


theorem or_low (hash low m : Nat) (h1 : hash % 2 ^ m = 0) (h2 : low < 2 ^ m) :
    hash ||| low = hash + low := by
  have h := Nat.div_add_mod hash (2 ^ m)
  rw [h1, Nat.add_zero] at h
  rw [← h]
  exact (Nat.mul_add_lt_is_or h2 _).symm

theorem pow_split (i : Nat) (hi : i < 8) :
    2 ^ (64 - 8 * i) = 256 * 2 ^ (56 - 8 * i) ∧ 64 - 8 * (i + 1) = 56 - 8 * i ∧
      64 - 8 - i * 8 = 56 - 8 * i := by
  refine ⟨?_, by omega, by omega⟩
  rw [show 64 - 8 * i = (56 - 8 * i) + 8 by omega, pow_add]
  norm_num
  ring

theorem score_step (i hash b : Nat) (hi : i < 8) (hb : b < 256)
    (h0 : hash % 2 ^ (64 - 8 * i) = 0) (hlt : hash < 2 ^ 64) :
    hash ||| (b <<< (64 - 8 - i * 8)) % 2 ^ 64 = hash + b * 2 ^ (56 - 8 * i) ∧
      (hash + b * 2 ^ (56 - 8 * i)) % 2 ^ (64 - 8 * (i + 1)) = 0 ∧
      hash + b * 2 ^ (56 - 8 * i) < 2 ^ 64 := by
  obtain ⟨hp, he1, he2⟩ := pow_split i hi
  have hw : 0 < 2 ^ (56 - 8 * i) := Nat.two_pow_pos _
  have hlow : b * 2 ^ (56 - 8 * i) < 2 ^ (64 - 8 * i) := by
    rw [hp]
    exact Nat.mul_lt_mul_of_pos_right hb hw
  have hdvd : 2 ^ (64 - 8 * i) ∣ hash := Nat.dvd_of_mod_eq_zero h0
  have hdvd64 : 2 ^ (64 - 8 * i) ∣ 2 ^ 64 := pow_dvd_pow 2 (by omega)
  have hsum : hash + 2 ^ (64 - 8 * i) ≤ 2 ^ 64 := by
    obtain ⟨c, hc⟩ := hdvd
    obtain ⟨d, hd⟩ := hdvd64
    have hpos : 0 < 2 ^ (64 - 8 * i) := Nat.two_pow_pos _
    rw [hc, hd] at hlt
    have hcd : c < d := Nat.lt_of_mul_lt_mul_left hlt
    rw [hc, hd, ← Nat.mul_succ]
    exact Nat.mul_le_mul_left _ hcd
  have hbound : hash + b * 2 ^ (56 - 8 * i) < 2 ^ 64 := by omega
  refine ⟨?_, ?_, hbound⟩
  · have hle : 2 ^ (64 - 8 * i) ≤ 2 ^ 64 := Nat.le_of_dvd (Nat.two_pow_pos _) hdvd64
    rw [he2, Nat.shiftLeft_eq, Nat.mod_eq_of_lt (by omega), or_low hash _ _ h0 hlow]
  · rw [he1]
    have hd1 : 2 ^ (56 - 8 * i) ∣ hash :=
      Dvd.dvd.trans (pow_dvd_pow 2 (by omega)) hdvd
    exact Nat.mod_eq_zero_of_dvd (Nat.dvd_add hd1 (Nat.dvd_mul_left _ _))

theorem scoreBits_eq (l : List Nat) :
    ∀ (i hash : Nat), (∀ b, b ∈ l → b < 256) → i ≤ 8 → hash % 2 ^ (64 - 8 * i) = 0 →
      hash < 2 ^ 64 →
      scoreBits (l.take (8 - i)) i hash = hash + beValue l i ∧
        hash + beValue l i < 2 ^ 64 := by
  induction l with
  | nil =>
    intro i hash _ _ _ hlt
    simp only [List.take_nil, scoreBits, beValue, Nat.add_zero]
    exact ⟨trivial, hlt⟩
  | cons b rest ih =>
    intro i hash hbytes hi h0 hlt
    by_cases hi8 : i < 8
    · have htake : (b :: rest).take (8 - i) = b :: rest.take (8 - (i + 1)) := by
        rw [show 8 - i = (8 - (i + 1)) + 1 by omega, List.take_succ_cons]
      obtain ⟨s1, s2, s3⟩ := score_step i hash b hi8
        (hbytes b (List.mem_cons_self _ _)) h0 hlt
      obtain ⟨g1, g2⟩ := ih (i + 1) (hash + b * 2 ^ (56 - 8 * i))
        (fun x hx => hbytes x (List.mem_cons_of_mem _ hx)) (by omega) s2 s3
      rw [htake]
      simp only [scoreBits, beValue, hi8, if_true, s1]
      rw [g1]
      exact ⟨by omega, by omega⟩
    · have hi8e : i = 8 := by omega
      subst hi8e
      simp only [Nat.sub_self, List.take_zero, scoreBits, beValue]
      simp only [show ¬ (8 < 8) by decide, if_false, Nat.add_zero]
      exact ⟨trivial, hlt⟩

theorem beValue_lt (l : List Nat) :
    ∀ (i : Nat), (∀ b, b ∈ l → b < 256) → i ≤ 8 → beValue l i < 2 ^ (64 - 8 * i) := by
  induction l with
  | nil => intro i _ _; simp only [beValue]; exact Nat.two_pow_pos _
  | cons b rest ih =>
    intro i hbytes hi
    by_cases hi8 : i < 8
    · obtain ⟨hp, he1, _⟩ := pow_split i hi8
      have ht := ih (i + 1) (fun x hx => hbytes x (List.mem_cons_of_mem _ hx)) (by omega)
      rw [he1] at ht
      have hb := hbytes b (List.mem_cons_self _ _)
      have hbw : b * 2 ^ (56 - 8 * i) ≤ 255 * 2 ^ (56 - 8 * i) :=
        Nat.mul_le_mul_right _ (by omega)
      simp only [beValue, hi8, if_true]
      rw [hp]
      omega
    · simp only [beValue, hi8, if_false]
      exact Nat.two_pow_pos _

theorem bytesCompare_beValue (a : List Nat) :
    ∀ (b : List Nat) (i : Nat), (∀ x, x ∈ a → x < 256) → (∀ x, x ∈ b → x < 256) →
      bytesCompare a b = -1 → beValue a i ≤ beValue b i := by
  induction a with
  | nil => intro b i _ _ _; simp only [beValue]; exact Nat.zero_le _
  | cons x xs ih =>
    intro b i ha hb hcmp
    cases b with
    | nil => simp [bytesCompare] at hcmp
    | cons y ys =>
      by_cases hi8 : i < 8
      · simp only [beValue, hi8, if_true]
        simp only [bytesCompare] at hcmp
        by_cases hxy : x < y
        · obtain ⟨_, he1, _⟩ := pow_split i hi8
          have ht := beValue_lt xs (i + 1) (fun z hz => ha z (List.mem_cons_of_mem _ hz))
            (by omega)
          rw [he1] at ht
          have hm : (x + 1) * 2 ^ (56 - 8 * i) ≤ y * 2 ^ (56 - 8 * i) :=
            Nat.mul_le_mul_right _ hxy
          rw [Nat.succ_mul] at hm
          omega
        · by_cases hyx : y < x
          · simp [hxy, hyx] at hcmp
          · simp only [hxy, hyx, if_false] at hcmp
            have hxye : x = y := by omega
            subst hxye
            have := ih ys (i + 1) (fun z hz => ha z (List.mem_cons_of_mem _ hz))
              (fun z hz => hb z (List.mem_cons_of_mem _ hz)) hcmp
            omega
      · simp only [beValue, hi8, if_false]
        exact le_refl _

theorem calcScore_eq (key : List Nat) (hk : ∀ x, x ∈ key → x < 256) :
    calcScore key = float64OfNat (beValue key 0) ∧ beValue key 0 < 2 ^ 64 := by
  have htake : key.take (if key.length > 8 then 8 else key.length) = key.take (8 - 0) := by
    split
    · rfl
    · rw [List.take_of_length_le (le_refl _), List.take_of_length_le (by omega)]
  obtain ⟨g1, g2⟩ := scoreBits_eq key 0 0 hk (by decide) (by simp) (by decide)
  unfold calcScore
  simp only [htake, g1, Nat.zero_add]
  simpa using g2


theorem calcScore_mono (a b : List Nat) (ha : ∀ x, x ∈ a → x < 256)
    (hb : ∀ x, x ∈ b → x < 256) (h : bytesCompare a b = -1) :
    calcScore a ≤ calcScore b := by
  obtain ⟨ea, _⟩ := calcScore_eq a ha
  obtain ⟨eb, hlt⟩ := calcScore_eq b hb
  rw [ea, eb]
  exact float64OfNat_mono _ _ (bytesCompare_beValue a b 0 ha hb h) hlt

theorem cmpKey_eq_bytesCompare (a b : List Nat) (ha : ∀ x, x ∈ a → x < 256)
    (hb : ∀ x, x ∈ b → x < 256) : cmpKey a b = bytesCompare a b := by
  unfold cmpKey
  by_cases h1 : calcScore a = calcScore b
  · rw [if_pos h1]
  · rw [if_neg h1]
    rcases bytesCompare_values a b with h | h | h
    · have := calcScore_mono a b ha hb h
      rw [if_pos (by omega), h]
    · rw [(bytesCompare_eq_zero a b).mp h] at h1
      exact absurd rfl h1
    · have hs : bytesCompare b a = -1 := by rw [bytesCompare_swap a b, h]
      have := calcScore_mono b a hb ha hs
      rw [if_neg (by omega), h]

/-- C17: the score is consistent with the byte order. For all keys `a` and `b`
(byte strings), `calcScore` is the big-endian value of the first 8 bytes,
zero-padded, converted to `float64`; `compare(calcScore(a), a, node)` for a node
with score `calcScore(b)` and key `b` is `bytes.Compare(a, b)`; `calcScore` is
non-decreasing in the byte order; and `compare` returns 0 exactly when the keys
are byte-equal. -/
theorem score_consistent (a b : List Nat) (ha : ∀ x, x ∈ a → x < 256)
    (hb : ∀ x, x ∈ b → x < 256) :
    calcScore a = float64OfNat (beValue a 0) ∧
    (bytesCompare a b ≤ 0 → calcScore a ≤ calcScore b) ∧
    (∀ (node : Element) (d : Entry), node.score = calcScore b → node.entry = some d →
      d.Key = b →
      SkipList.compare (calcScore a) a node = some (bytesCompare a b) ∧
      (SkipList.compare (calcScore a) a node = some 0 ↔ a = b)) := by
  refine ⟨(calcScore_eq a ha).1, ?_, ?_⟩
  · intro hle
    rcases bytesCompare_values a b with h | h | h
    · exact calcScore_mono a b ha hb h
    · rw [(bytesCompare_eq_zero a b).mp h]
    · omega
  · intro node d hs he hk
    have hc : SkipList.compare (calcScore a) a node = some (bytesCompare a b) := by
      rw [compare_node a node d he (by rw [hs, hk]), hk, cmpKey_eq_bytesCompare a b ha hb]
    refine ⟨hc, ?_⟩
    rw [hc]
    simp only [Option.some.injEq]
    exact bytesCompare_eq_zero a b

/-- Witness of C17: the keys "a" and "a\x00\x01", which share the score bits of
their first byte. -/
theorem score_consistent_witness :
    (∀ x, x ∈ ([97] : List Nat) → x < 256) ∧ (∀ x, x ∈ ([97, 0, 1] : List Nat) → x < 256) ∧
    (calcScore [97] = float64OfNat (beValue [97] 0) ∧
    (bytesCompare [97] [97, 0, 1] ≤ 0 → calcScore [97] ≤ calcScore [97, 0, 1]) ∧
    (∀ (node : Element) (d : Entry), node.score = calcScore [97, 0, 1] →
      node.entry = some d → d.Key = [97, 0, 1] →
      SkipList.compare (calcScore [97]) [97] node = some (bytesCompare [97] [97, 0, 1]) ∧
      (SkipList.compare (calcScore [97]) [97] node = some 0 ↔
        ([97] : List Nat) = [97, 0, 1]))) :=
  ⟨by decide, by decide, score_consistent [97] [97, 0, 1] (by decide) (by decide)⟩


/-! ## The chains of the skip list at every level -/

theorem levelWalk_spec (nodes : List Element) (hinv : Inv nodes) (i : Nat) :
    ∀ (fuel cur : Nat), cur < nodes.length → i < heightOf nodes cur →
      rank nodes cur < fuel →
      ∃ ch, levelWalk nodes i fuel cur = some ch ∧
        ch.Pairwise (fun p q => KLt (keyOf nodes q) (keyOf nodes p)) ∧
        (∀ p, p ∈ ch → cur ≠ 0 → KLt (keyOf nodes p) (keyOf nodes cur)) ∧
        (∀ p, p ∈ ch ↔
          1 ≤ p ∧ p < nodes.length ∧ i < heightOf nodes p ∧ Below nodes p cur) := by
  intro fuel
  induction fuel with
  | zero => intro cur _ _ h; omega
  | succ fuel ih =>
    intro cur hcur hh hrank
    obtain ⟨v, hv⟩ := levelAt_of_lt nodes cur i hh
    cases v with
    | none =>
      refine ⟨[], by simp only [levelWalk, hv], List.Pairwise.nil, ?_, ?_⟩
      · intro p hp; cases hp
      · intro p
        constructor
        · intro hp; cases hp
        · rintro ⟨hp1, hp2, hph, hb⟩
          obtain ⟨q, hq, _⟩ := hinv.cover cur i p hcur hh hp1 hp2 hph hb
          rw [hv] at hq; cases hq
    | some q =>
      obtain ⟨hq1, hq2, hqh, hqk⟩ := hinv.ptr cur i q hv
      have hqb : Below nodes q cur := by
        by_cases h0 : cur = 0
        · exact Or.inl h0
        · exact Or.inr (hqk h0)
      have hrq := rank_lt nodes cur q hq1 hq2 hqb
      obtain ⟨rest, hrest, hpw, hub, hmem⟩ := ih q hq2 hqh (by omega)
      have hq0 : q ≠ 0 := by omega
      refine ⟨q :: rest, ?_, ?_, ?_, ?_⟩
      · simp only [levelWalk, hv, hrest]
      · exact List.Pairwise.cons (fun p hp => hub p hp hq0) hpw
      · intro p hp hcur0
        rcases List.mem_cons.mp hp with rfl | hp
        · exact hqk hcur0
        · exact KLt_trans _ _ _ (hub p hp hq0) (hqk hcur0)
      · intro p
        constructor
        · intro hp
          rcases List.mem_cons.mp hp with rfl | hp
          · exact ⟨hq1, hq2, hqh, hqb⟩
          · obtain ⟨a1, a2, a3, hb⟩ := (hmem p).mp hp
            refine ⟨a1, a2, a3, ?_⟩
            rcases hb with hb | hb
            · exact absurd hb hq0
            · rcases hqb with h | h
              · exact Or.inl h
              · exact Or.inr (KLt_trans _ _ _ hb h)
        · rintro ⟨hp1, hp2, hph, hb⟩
          obtain ⟨q1, hq1e, hrel⟩ := hinv.cover cur i p hcur hh hp1 hp2 hph hb
          rw [hv] at hq1e
          simp only [Option.some.injEq] at hq1e
          subst hq1e
          rcases hrel with rfl | hrel
          · exact List.mem_cons_self _ _
          · exact List.mem_cons_of_mem _ ((hmem p).mpr ⟨hp1, hp2, hph, Or.inr hrel⟩)

theorem chain_spec (l : SkipList) (hl : ListInv l) (i : Nat) (hi : i < 48) :
    ∃ ch, l.chain i = some ch ∧
      ch.Pairwise (fun p q => KLt (keyOf l.nodes q) (keyOf l.nodes p)) ∧
      (∀ p, p ∈ ch ↔ 1 ≤ p ∧ p < l.nodes.length ∧ i < heightOf l.nodes p) := by
  have hpos := length_pos_of_inv l.nodes hl.inv
  obtain ⟨ch, h1, h2, _, h4⟩ := levelWalk_spec l.nodes hl.inv i l.nodes.length 0 hpos
    (by rw [height_head l.nodes hl.inv]; exact hi) (rank_lt_length l.nodes 0 hpos)
  refine ⟨ch, by unfold SkipList.chain; rw [hl.hdr]; exact h1, h2, ?_⟩
  intro p
  rw [h4 p]
  constructor
  · rintro ⟨a, b, c, _⟩; exact ⟨a, b, c⟩
  · rintro ⟨a, b, c⟩; exact ⟨a, b, c, Or.inl rfl⟩

/-- C16: the structural invariant kept by `Add`. For every sequence of `Add`
calls on `NewSkipList()` (keys being byte strings) and every outcome of the
coin flips, at every level `i < 48` the chain of forward pointers from the
header is finite, holds exactly the elements with more than `i` levels, and is
strictly descending in byte-wise key order: the key of an element is greater
than the key of every element after it; every element linked at level `i + 1`
is also linked at level `i`. -/
theorem level_chains (ops : List (Entry × (Nat → Nat)))
    (hwf : ∀ op, op ∈ ops → ∀ x, x ∈ op.1.Key → x < 256) :
    ∃ l, NewSkipList.addAll ops = some l ∧
      ∀ i, i < 48 →
        ∃ ch, l.chain i = some ch ∧
          ch.Pairwise (fun p q => bytesCompare (keyOf l.nodes p) (keyOf l.nodes q) = 1) ∧
          (∀ p, p ∈ ch ↔ 1 ≤ p ∧ p < l.nodes.length ∧ i < heightOf l.nodes p) ∧
          (i + 1 < 48 → ∃ ch1, l.chain (i + 1) = some ch1 ∧ ∀ p, p ∈ ch1 → p ∈ ch) := by
  obtain ⟨l, hl, hb⟩ := addAll_new ops
  have hinv := built_inv l _ hb
  have hkeys : ∀ t, 1 ≤ t → t < l.nodes.length → ∀ x, x ∈ keyOf l.nodes t → x < 256 := by
    intro t ht1 ht2 x hx
    obtain ⟨e, he, hek⟩ := built_keys_sub l _ hb t ht1 ht2
    obtain ⟨op, hop, rfl⟩ := List.mem_map.mp (List.mem_reverse.mp he)
    exact hwf op hop x (by rw [hek]; exact hx)
  refine ⟨l, hl, ?_⟩
  intro i hi
  obtain ⟨ch, h1, h2, h3⟩ := chain_spec l hinv i hi
  refine ⟨ch, h1, ?_, h3, ?_⟩
  · have h2m : ch.Pairwise (fun p q => (p ∈ ch ∧ q ∈ ch) ∧
        KLt (keyOf l.nodes q) (keyOf l.nodes p)) := by
      rw [List.pairwise_iff_forall_sublist] at h2 ⊢
      intro p q hsub
      refine ⟨⟨hsub.subset (List.mem_cons_self _ _), ?_⟩, h2 hsub⟩
      exact hsub.subset (List.mem_cons_of_mem _ (List.mem_cons_self _ _))
    refine List.Pairwise.imp ?_ h2m
    rintro p q ⟨⟨hp, hq⟩, hlt⟩
    obtain ⟨p1, p2, _⟩ := (h3 p).mp hp
    obtain ⟨q1, q2, _⟩ := (h3 q).mp hq
    unfold KLt at hlt
    rw [cmpKey_eq_bytesCompare _ _ (hkeys q q1 q2) (hkeys p p1 p2)] at hlt
    rw [bytesCompare_swap (keyOf l.nodes q) (keyOf l.nodes p), hlt]
    rfl
  · intro hi1
    obtain ⟨ch1, g1, _, g3⟩ := chain_spec l hinv (i + 1) hi1
    refine ⟨ch1, g1, ?_⟩
    intro p hp
    obtain ⟨a, b, c⟩ := (g3 p).mp hp
    exact (h3 p).mpr ⟨a, b, by omega⟩


/-- Witness of C16: the keys "a", "c", "b" added in that order. -/
theorem level_chains_witness :
    (∀ op, op ∈ ([(⟨[97], []⟩, fun _ => 0), (⟨[99], []⟩, fun _ => 1), (⟨[98], []⟩, fun _ => 0)] :
        List (Entry × (Nat → Nat))) → ∀ x, x ∈ op.1.Key → x < 256) ∧
    ∃ l, NewSkipList.addAll
        [(⟨[97], []⟩, fun _ => 0), (⟨[99], []⟩, fun _ => 1), (⟨[98], []⟩, fun _ => 0)] = some l ∧
      ∀ i, i < 48 →
        ∃ ch, l.chain i = some ch ∧
          ch.Pairwise (fun p q => bytesCompare (keyOf l.nodes p) (keyOf l.nodes q) = 1) ∧
          (∀ p, p ∈ ch ↔ 1 ≤ p ∧ p < l.nodes.length ∧ i < heightOf l.nodes p) ∧
          (i + 1 < 48 → ∃ ch1, l.chain (i + 1) = some ch1 ∧ ∀ p, p ∈ ch1 → p ∈ ch) :=
  ⟨by decide,
    level_chains
      [(⟨[97], []⟩, fun _ => 0), (⟨[99], []⟩, fun _ => 1), (⟨[98], []⟩, fun _ => 0)]
      (by decide)⟩

end Corekv
